import Mathlib

/-!
# String queue (`queue.c`): embedding and verification

The C program manipulates singly linked list elements through raw pointers, including a
pointer-to-pointer tail cursor (`list_ele_t **tail`).  The embedding keeps that level of
detail: memory is a pair of partial maps (list elements and queue records, by address), a
link slot is either the `head` field of a queue record or the `next` field of a list
element, and every C function is a function on memory that performs the same reads and
writes in the same order.  A read or write through `NULL` or through an address that is not
allocated aborts with `Abort.fault`; loops that C does not bound carry a step budget and
abort with `Abort.fuel` when it is used up.

A C string is represented by the list of its bytes before the terminator.  The `size`
counter is an `int`: `q->size++` and `q->size--` are computed in 32-bit two's complement, so
they wrap around at `INT_MAX` and `INT_MIN` as the compiled code does (`to_int`).
-/

namespace Queue

/-! ## Memory model -/

/-- The object designated by a `list_ele_t **`: `&(q->head)` or `&(p->next)`. -/
inductive Slot where
  | head (q : Nat)
  | next (p : Nat)
  deriving DecidableEq

/-- Linked list element: `char *value; struct ELE *next;` (`none` is `NULL`). -/
structure list_ele_t where
  value : List Nat
  next : Option Nat
  deriving DecidableEq

/-- Modelled from the spec: the record `queue_t` is declared in `queue.h`, which is not among
the sources; `queue.c` uses the fields `head` (first element or `NULL`), `tail` (the tail
cursor, a `list_ele_t **`) and `size` (the counter returned by `int q_size`, taken to be an
`int`: the functions that count, `q_insert_head`, `q_insert_tail` and `q_remove_head`, keep
its value within the range of `int` by wrapping around, see `to_int`). -/
structure queue_t where
  head : Option Nat
  tail : Slot
  size : Int
  deriving DecidableEq

/-- Memory: allocated list elements and allocated queue records, by address. -/
structure Mem where
  ele : Nat → Option list_ele_t
  que : Nat → Option queue_t

/-- Ways a run stops without returning. -/
inductive Abort where
  | fault
  | fuel
  deriving DecidableEq

/-- Result of running a C function. -/
abbrev Run (α : Type) := Except Abort α

/-- Read the queue record at `q` (any `q->field` read). -/
def rdQ (m : Mem) (q : Nat) : Run queue_t :=
  match m.que q with
  | some Q => .ok Q
  | none => .error .fault

/-- Read the list element a pointer designates (any `p->field` read). -/
def deref (m : Mem) (p : Option Nat) : Run list_ele_t :=
  match p with
  | none => .error .fault
  | some a =>
    match m.ele a with
    | some e => .ok e
    | none => .error .fault

/-- The address held by a non-null pointer. -/
def addrOf (p : Option Nat) : Run Nat :=
  match p with
  | none => .error .fault
  | some a => .ok a

/-- Assignment `p->next = v`. -/
def wrNext (m : Mem) (p : Option Nat) (v : Option Nat) : Run Mem :=
  match p with
  | none => .error .fault
  | some a =>
    match m.ele a with
    | some e => .ok { m with ele := Function.update m.ele a (some { e with next := v }) }
    | none => .error .fault

/-- Assignment `q->head = v`. -/
def wrHead (m : Mem) (q : Nat) (v : Option Nat) : Run Mem :=
  match m.que q with
  | some Q => .ok { m with que := Function.update m.que q (some { Q with head := v }) }
  | none => .error .fault

/-- Assignment `q->tail = s`. -/
def wrTail (m : Mem) (q : Nat) (s : Slot) : Run Mem :=
  match m.que q with
  | some Q => .ok { m with que := Function.update m.que q (some { Q with tail := s }) }
  | none => .error .fault

/-- Assignment `q->size = n`. -/
def wrSize (m : Mem) (q : Nat) (n : Int) : Run Mem :=
  match m.que q with
  | some Q => .ok { m with que := Function.update m.que q (some { Q with size := n }) }
  | none => .error .fault

/-- Read through a link slot: `*s`. -/
def load (m : Mem) (s : Slot) : Run (Option Nat) :=
  match s with
  | .head q => do let Q ← rdQ m q; pure Q.head
  | .next p => do let e ← deref m (some p); pure e.next

/-- Write through a link slot: `*s = v`. -/
def store (m : Mem) (s : Slot) (v : Option Nat) : Run Mem :=
  match s with
  | .head q => wrHead m q v
  | .next p => wrNext m (some p) v

/-- Deallocation `free(p->value); free(p)`. -/
def freeEle (m : Mem) (p : Nat) : Mem :=
  { m with ele := Function.update m.ele p none }

/-- A list element is placed at the address `p` that `malloc` returned. -/
def allocEle (m : Mem) (p : Nat) (e : list_ele_t) : Mem :=
  { m with ele := Function.update m.ele p (some e) }

/-- A queue record comes into existence at address `q` (from `malloc`, or in a stack frame). -/
def allocQue (m : Mem) (q : Nat) (Q : queue_t) : Mem :=
  { m with que := Function.update m.que q (some Q) }

/-- The queue record at `q` ceases to exist (`free(q)`, or the end of its stack frame). -/
def freeQue (m : Mem) (q : Nat) : Mem :=
  { m with que := Function.update m.que q none }

/-! ## C library and machine arithmetic -/

/-- C library `strcmp` on the byte lists of two strings: negative, zero or positive as the
first is lexicographically before, equal to or after the second (a proper initial segment
comes first, because the terminator is smaller than every string byte). -/
def strcmp : List Nat → List Nat → Int
  | [], [] => 0
  | [], _ :: _ => -1
  | _ :: _, [] => 1
  | a :: as, b :: bs => if a < b then -1 else if b < a then 1 else strcmp as bs

/-- Number of values of `size_t` (LP64). -/
def SIZE_MOD : Nat := 2 ^ 64

/-- Conversion of the `size` counter to `size_t`: a non-negative value is unchanged (the
counter's type is no wider than `size_t`), a negative one wraps around. -/
def to_size_t (x : Int) : Nat :=
  if 0 ≤ x then x.toNat else (x % (SIZE_MOD : Int)).toNat

/-- Largest value of `int` (32 bits). -/
def INT_MAX : Int := 2147483647

/-- The `int` that the arithmetic on the `size` counter yields for the exact result `x`:
`x` itself when it is in the range of `int`, and the value it wraps around to (two's
complement, 32 bits) when `q->size++` passes `INT_MAX` or `q->size--` passes `INT_MIN`, which
is what the compiled code computes. -/
def to_int (x : Int) : Int := (x + 2147483648) % 4294967296 - 2147483648

/-- Subtraction in `size_t`, wrapping around below zero. -/
def size_sub (a b : Nat) : Nat := (a % SIZE_MOD + SIZE_MOD - b % SIZE_MOD) % SIZE_MOD

/-- Effect of `memcpy(sp, src, n); sp[n] = 0` on the bytes starting at `sp`: the written
bytes replace the same number of bytes at the start of the region. -/
def memWrite (buf bytes : List Nat) : List Nat := bytes ++ buf.drop bytes.length

/-! ## The functions of `queue.c` -/

/-- `q_new`: `alloc` is the result of `malloc(sizeof(queue_t))`. -/
def q_new (m : Mem) (alloc : Option Nat) : Mem × Option Nat :=
  match alloc with
  | none => (m, none)
  | some q =>
    (allocQue m q { head := none, tail := .head q, size := 0 }, some q)

/-- The `while (q->head)` loop of `q_free`. -/
def q_free_loop : Nat → Mem → Nat → Run Mem
  | 0, _, _ => .error .fuel
  | fuel + 1, m, q => do
    let Q ← rdQ m q
    match Q.head with
    | none => pure m
    | some cur => do
      let e ← deref m (some cur)
      let m ← wrHead m q e.next
      q_free_loop fuel (freeEle m cur) q

/-- `q_free`. -/
def q_free (fuel : Nat) (m : Mem) (q : Option Nat) : Run Mem :=
  match q with
  | none => pure m
  | some qa => do
    let m ← q_free_loop fuel m qa
    pure (freeQue m qa)

/-- `q_insert_head`: `newh` is the result of `malloc(sizeof(list_ele_t))`, `valueOk` tells
whether `malloc(slen)` succeeded. -/
def q_insert_head (m : Mem) (q : Option Nat) (s : List Nat) (newh : Option Nat)
    (valueOk : Bool) : Run (Mem × Bool) :=
  match q with
  | none => pure (m, false)
  | some qa =>
    match newh with
    | none => pure (m, false)
    | some p =>
      if valueOk = false then pure (m, false)
      else do
        let m := allocEle m p { value := s, next := none }
        let Q ← rdQ m qa
        let m ← wrNext m (some p) Q.head
        let m ← wrHead m qa (some p)
        let Q ← rdQ m qa
        let m ← wrSize m qa (to_int (Q.size + 1))
        let e ← deref m (some p)
        match e.next with
        | none => do
          let m ← wrTail m qa (.next p)
          pure (m, true)
        | some _ => pure (m, true)

/-- `q_insert_tail`: `newt` is the result of `malloc(sizeof(list_ele_t))`, `valueOk` tells
whether `malloc(slen)` succeeded. -/
def q_insert_tail (m : Mem) (q : Option Nat) (s : List Nat) (newt : Option Nat)
    (valueOk : Bool) : Run (Mem × Bool) :=
  match q with
  | none => pure (m, false)
  | some qa =>
    match newt with
    | none => pure (m, false)
    | some p =>
      if valueOk = false then pure (m, false)
      else do
        let m := allocEle m p { value := s, next := none }
        let m ← wrNext m (some p) none
        let Q ← rdQ m qa
        let m ← store m Q.tail (some p)
        let m ← wrTail m qa (.next p)
        let Q ← rdQ m qa
        let m ← wrSize m qa (to_int (Q.size + 1))
        pure (m, true)

/-- `q_remove_head`: `sp` is the caller's buffer (the bytes starting at `sp`, `none` for
`NULL`), returned as it is after the call. -/
def q_remove_head (m : Mem) (q : Option Nat) (sp : Option (List Nat)) (bufsize : Nat) :
    Run (Mem × Option (List Nat) × Bool) :=
  match q with
  | none => pure (m, sp, false)
  | some qa => do
    let Q ← rdQ m qa
    match Q.head with
    | none => pure (m, sp, false)
    | some rem => do
      let e ← deref m (some rem)
      let remlen := e.value.length
      let cpylen := if remlen < size_sub bufsize 1 then remlen else size_sub bufsize 1
      let sp := sp.map (fun buf => memWrite buf (e.value.take cpylen ++ [0]))
      let m ← wrHead m qa e.next
      let Q ← rdQ m qa
      let m ← wrSize m qa (to_int (Q.size - 1))
      let Q ← rdQ m qa
      let m ← (match Q.head with
        | none => wrTail m qa (.head qa)
        | some _ => pure m)
      pure (freeEle m rem, sp, true)

/-- `q_size`: the result is the `size` field, an `int` (every update of the field yields an
`int`, see `to_int`). -/
def q_size (m : Mem) (q : Option Nat) : Run Int :=
  match q with
  | none => pure 0
  | some qa => do
    let Q ← rdQ m qa
    pure Q.size

/-- The `while (q->head)` loop of `q_reverse`; the result carries `tmp_head`. -/
def q_reverse_loop : Nat → Mem → Nat → Option Nat → Run (Mem × Option Nat)
  | 0, _, _, _ => .error .fuel
  | fuel + 1, m, q, tmp_head => do
    let Q ← rdQ m q
    match Q.head with
    | none => pure (m, tmp_head)
    | some cur => do
      let e ← deref m (some cur)
      let m ← wrHead m q e.next
      let m ← wrNext m (some cur) tmp_head
      q_reverse_loop fuel m q (some cur)

/-- `q_reverse`. -/
def q_reverse (fuel : Nat) (m : Mem) (q : Option Nat) : Run Mem :=
  match q with
  | none => pure m
  | some qa => do
    let Q ← rdQ m qa
    match Q.head with
    | none => pure m
    | some h => do
      let e ← deref m (some h)
      match e.next with
      | none => pure m
      | some _ => do
        let m ← wrTail m qa (.next h)
        let r ← q_reverse_loop fuel m qa none
        wrHead r.1 qa r.2

/-- The loop `for (size_t i = b->size; i > 1; i--) cut = cut->next;` of `divide`. -/
def divide_walk (m : Mem) : Nat → Option Nat → Run (Option Nat)
  | 0, cut => pure cut
  | 1, cut => pure cut
  | i + 2, cut => do
    let e ← deref m cut
    divide_walk m (i + 1) e.next

/-- `divide`.  The two values written to size fields, `a->size / 2` and
`a->size - a->size / 2`, are in the range of `int` whenever `a->size` is, so nothing wraps
around here. -/
def divide (m : Mem) (a b : Nat) : Run Mem := do
  let A ← rdQ m a
  let m ← wrSize m b (Int.tdiv A.size 2)
  let A ← rdQ m a
  let m ← wrTail m b A.tail
  let A ← rdQ m a
  let B ← rdQ m b
  let cut ← divide_walk m (to_size_t B.size) A.head
  let e ← deref m cut
  let m ← wrHead m b e.next
  let m ← wrNext m cut none
  let c ← addrOf cut
  let m ← wrTail m a (.next c)
  let A ← rdQ m a
  let B ← rdQ m b
  wrSize m a (A.size - B.size)

/-- The `for` loop of `merge`, entered after its initialisation `a->tail = &(a->head)`. -/
def merge_loop : Nat → Mem → Nat → Nat → Run Mem
  | 0, _, _, _ => .error .fuel
  | fuel + 1, m, a, b => do
    let A ← rdQ m a
    let x ← load m A.tail
    match x with
    | none => pure m
    | some _ => do
      let B ← rdQ m b
      match B.head with
      | none => pure m
      | some _ => do
        let A ← rdQ m a
        let x ← load m A.tail
        let ea ← deref m x
        let B ← rdQ m b
        let eb ← deref m B.head
        let m ← (if strcmp ea.value eb.value > 0 then do
            let B ← rdQ m b
            let tmp := B.head
            let et ← deref m tmp
            let m ← wrHead m b et.next
            let A ← rdQ m a
            let y ← load m A.tail
            let m ← wrNext m tmp y
            let A ← rdQ m a
            store m A.tail tmp
          else pure m)
        let A ← rdQ m a
        let z ← load m A.tail
        let c ← addrOf z
        let m ← wrTail m a (.next c)
        merge_loop fuel m a b

/-- `merge`.  It is called by `q_sort` only, on the two parts `divide` made of one queue, so
that `a->size + b->size` is the size field that queue had and nothing wraps around here. -/
def merge (fuel : Nat) (m : Mem) (a b : Nat) : Run Mem := do
  let A ← rdQ m a
  let ori_tail := A.tail
  let m ← wrTail m a (.head a)
  let m ← merge_loop fuel m a b
  let B ← rdQ m b
  let m ← (match B.head with
    | some _ => do
      let A ← rdQ m a
      let B ← rdQ m b
      let m ← store m A.tail B.head
      let B ← rdQ m b
      wrTail m a B.tail
    | none => wrTail m a ori_tail)
  let A ← rdQ m a
  let B ← rdQ m b
  wrSize m a (A.size + B.size)

/-- `q_sort`.  The local `queue_t b` of a call lives in that call's stack frame: `frame` is
the address of the record of the current call, and the calls it makes use `frame + 1`.  The
record is created with indeterminate contents (here an empty queue) and ceases to exist when
the call returns. -/
def q_sort : Nat → Nat → Mem → Option Nat → Run Mem
  | 0, _, _, _ => .error .fuel
  | fuel + 1, frame, m, q =>
    match q with
    | none => pure m
    | some qa => do
      let Q ← rdQ m qa
      match Q.head with
      | none => pure m
      | some h => do
        let e ← deref m (some h)
        match e.next with
        | none => pure m
        | some _ => do
          let b := frame
          let m := allocQue m b { head := none, tail := .head b, size := 0 }
          let m ← divide m qa b
          let m ← q_sort fuel (frame + 1) m (some qa)
          let m ← q_sort fuel (frame + 1) m (some b)
          let m ← merge fuel m qa b
          pure (freeQue m b)

/-! ## Vocabulary of the specification -/

/-- A path of list elements: starting from pointer `h`, following `next` visits exactly the
allocated elements `ps` in order and then yields the pointer `t`. -/
def Seg (m : Mem) : Option Nat → List Nat → Option Nat → Prop
  | h, [], t => h = t
  | h, p :: ps, t => h = some p ∧ ∃ e, m.ele p = some e ∧ Seg m e.next ps t

/-- A null-terminated chain: the elements reachable from `h` are exactly `ps`, in order. -/
@[reducible] def Chain (m : Mem) (h : Option Nat) (ps : List Nat) : Prop := Seg m h ps none

/-- The slot reached from slot `t` by passing over the elements `ps`: the `next` slot of the
last of them, or `t` itself when there is none. -/
def lastSlot (t : Slot) (ps : List Nat) : Slot :=
  match ps.getLast? with
  | none => t
  | some p => .next p

/-- Where the tail cursor of the queue record at `q` belongs when its chain is `ps`: the
`next` slot of the last element, the queue's own head slot when the chain is empty. -/
def tailSlot (q : Nat) (ps : List Nat) : Slot := lastSlot (.head q) ps

/-- The string stored in the element at `p` (empty when nothing is allocated there). -/
def valOf (m : Mem) (p : Nat) : List Nat :=
  match m.ele p with
  | some e => e.value
  | none => []

/-- The head-to-tail sequence of strings of the elements `ps`. -/
def strings (m : Mem) (ps : List Nat) : List (List Nat) := ps.map (valOf m)

/-- The record at `q` is allocated and its `head` starts the null-terminated chain `ps`. -/
def IsQueue (m : Mem) (q : Nat) (ps : List Nat) : Prop :=
  ∃ Q, m.que q = some Q ∧ Chain m Q.head ps

/-- Size invariant: the `size` field of the record at `q`, an `int`, is the number of
elements `ps` (which therefore is at most `INT_MAX`). -/
def SizeInv (m : Mem) (q : Nat) (ps : List Nat) : Prop :=
  ∃ Q, m.que q = some Q ∧ Q.size = (ps.length : Int) ∧ Q.size ≤ INT_MAX

/-- Tail-cursor invariant: the `tail` field of the record at `q` designates the `next` slot of
the last element of `ps`, or the record's own head slot when `ps` is empty. -/
def TailInv (m : Mem) (q : Nat) (ps : List Nat) : Prop :=
  ∃ Q, m.que q = some Q ∧ Q.tail = tailSlot q ps

/-- A well-formed queue with chain `ps`: chain, size and tail cursor all in order. -/
def WellFormed (m : Mem) (q : Nat) (ps : List Nat) : Prop :=
  IsQueue m q ps ∧ SizeInv m q ps ∧ TailInv m q ps

/-- Non-decreasing under `strcmp`: no string is followed, anywhere later, by a smaller one. -/
def Sorted (l : List (List Nat)) : Prop := l.Pairwise (fun x y => strcmp x y ≤ 0)

/-- The part of the merged chain that the loop of `merge` links, for element lists `as` (of
`a`) and `bs` (of `b`) with strings given by `val`: it stops when either side runs out. -/
def mergePre (val : Nat → List Nat) : List Nat → List Nat → List Nat
  | [], _ => []
  | x :: as, [] => x :: as
  | x :: as, y :: bs =>
    if strcmp (val x) (val y) > 0 then y :: mergePre val (x :: as) bs
    else x :: mergePre val as (y :: bs)
termination_by as bs => as.length + bs.length

/-- The elements of `b` that the loop of `merge` leaves behind when `a` runs out first. -/
def mergeRest (val : Nat → List Nat) : List Nat → List Nat → List Nat
  | [], bs => bs
  | _ :: _, [] => []
  | x :: as, y :: bs =>
    if strcmp (val x) (val y) > 0 then mergeRest val (x :: as) bs
    else mergeRest val as (y :: bs)
termination_by as bs => as.length + bs.length

/-- The order in which `merge` leaves the elements of the two chains. -/
def mergeList (val : Nat → List Nat) (as bs : List Nat) : List Nat :=
  mergePre val as bs ++ mergeRest val as bs

/-- Sample memory: the queue record at address 0 with three elements, at addresses 1, 2
and 3, holding "b", "a" and "b" in head-to-tail order. -/
def sampleMem : Mem :=
  { ele := fun p =>
      if p = 1 then some { value := [98], next := some 2 }
      else if p = 2 then some { value := [97], next := some 3 }
      else if p = 3 then some { value := [98], next := none }
      else none,
    que := fun q =>
      if q = 0 then some { head := some 1, tail := .next 3, size := 3 } else none }

/-- A series of `q_insert_head` calls on the queue at `q`, in list order: each call is given
the address `malloc` returns for its element and the string to insert, both allocations
succeeding.  The flag tells whether every call returned `true`. -/
def insert_head_all (m : Mem) (q : Nat) : List (Nat × List Nat) → Run (Mem × Bool)
  | [] => pure (m, true)
  | c :: cs => do
    let r ← q_insert_head m (some q) c.2 (some c.1) true
    let rest ← insert_head_all r.1 q cs
    pure (rest.1, r.2 && rest.2)

/-- A series of `q_insert_tail` calls on the queue at `q`, in list order, as
`insert_head_all`. -/
def insert_tail_all (m : Mem) (q : Nat) : List (Nat × List Nat) → Run (Mem × Bool)
  | [] => pure (m, true)
  | c :: cs => do
    let r ← q_insert_tail m (some q) c.2 (some c.1) true
    let rest ← insert_tail_all r.1 q cs
    pure (rest.1, r.2 && rest.2)

/-- Successive `q_remove_head` calls on the queue at `q`, at most `n` of them, each with a
buffer holding `buf` and declared capacity `bufsize`: the result lists the buffer as each
call that returned `true` left it, and the series stops at the first call that returns
`false`. -/
def remove_head_n (m : Mem) (q : Nat) (buf : List Nat) (bufsize : Nat) :
    Nat → Run (Mem × List (List Nat))
  | 0 => pure (m, [])
  | n + 1 => do
    let r ← q_remove_head m (some q) (some buf) bufsize
    match r.2.2, r.2.1 with
    | true, some out => do
      let rest ← remove_head_n r.1 q buf bufsize n
      pure (rest.1, out :: rest.2)
    | _, _ => pure (r.1, [])

/-- A call of one of the three element operations, with what its environment supplies: for
an insertion the string, the result of the element's `malloc` and whether the `malloc` of the
string succeeds; for a removal the caller's buffer and the capacity passed. -/
inductive Call where
  | insert_head (s : List Nat) (newh : Option Nat) (valueOk : Bool)
  | insert_tail (s : List Nat) (newt : Option Nat) (valueOk : Bool)
  | remove_head (sp : Option (List Nat)) (bufsize : Nat)

/-- Whether the call is an insertion. -/
def isInsert : Call → Bool
  | .insert_head _ _ _ => true
  | .insert_tail _ _ _ => true
  | .remove_head _ _ => false

/-- The address `malloc` hands out for a list element during the call, if any. -/
def newAddr : Call → Option Nat
  | .insert_head _ newh _ => newh
  | .insert_tail _ newt _ => newt
  | .remove_head _ _ => none

/-- One call on the queue at `q`; the flag is the value the call returns. -/
def callRun (c : Call) (m : Mem) (q : Nat) : Run (Mem × Bool) :=
  match c with
  | .insert_head s newh valueOk => q_insert_head m (some q) s newh valueOk
  | .insert_tail s newt valueOk => q_insert_tail m (some q) s newt valueOk
  | .remove_head sp bufsize => do
    let r ← q_remove_head m (some q) sp bufsize
    pure (r.1, r.2.2)

/-- The calls in order on the queue at `q`; the two numbers count the insertions and the
removals that returned `true`. -/
def runCalls (m : Mem) (q : Nat) : List Call → Run (Mem × Nat × Nat)
  | [] => pure (m, 0, 0)
  | c :: cs => do
    let r ← callRun c m q
    let rest ← runCalls r.1 q cs
    pure (rest.1, (if isInsert c && r.2 then 1 else 0) + rest.2.1,
      (if !isInsert c && r.2 then 1 else 0) + rest.2.2)

/-- The contract of `malloc` along a series of calls: an address handed out for a list
element is not allocated at that moment. -/
def AllocFresh (m : Mem) (q : Nat) : List Call → Prop
  | [] => True
  | c :: cs => (∀ p, newAddr c = some p → m.ele p = none) ∧
      ∀ r, callRun c m q = .ok r → AllocFresh r.1 q cs

/-- Sample memory: the queue record at address 0 with the single element "hello", at
address 1. -/
def helloMem : Mem :=
  { ele := fun p =>
      if p = 1 then some { value := [104, 101, 108, 108, 111], next := none } else none,
    que := fun q =>
      if q = 0 then some { head := some 1, tail := .next 1, size := 1 } else none }

/-- A run either returns a value satisfying `post` or aborts for a reason satisfying `err`. -/
def outcome {α : Type} (x : Run α) (post : α → Prop) (err : Abort → Prop) : Prop :=
  match x with
  | .ok v => post v
  | .error e => err e

/-- What `q_sort` establishes, for a queue record `Q` at `q` whose chain was `ps` in memory
`m`, with strings given by `val`: in the memory `m'` after the call the chain is a sorted
permutation of `ps` in which elements carrying the same string keep their order, the size
field is the old one, a tail cursor that was in place is in place again, and nothing outside
the queue (other records below the stack frames, other elements, any string) has changed. -/
def SortPost (val : Nat → List Nat) (frame : Nat) (m : Mem) (q : Nat) (Q : queue_t)
    (ps : List Nat) (m' : Mem) : Prop :=
  ∃ Q' ps', m'.que q = some Q' ∧ Chain m' Q'.head ps' ∧ ps'.Perm ps ∧ Sorted (ps'.map val) ∧
    (∀ v, ps'.filter (fun p => decide (val p = v)) = ps.filter (fun p => decide (val p = v))) ∧
    Q'.size = Q.size ∧ (Q.tail = tailSlot q ps → Q'.tail = tailSlot q ps') ∧
    (∀ r, r < frame → r ≠ q → m'.que r = m.que r) ∧ (∀ p, p ∉ ps → m'.ele p = m.ele p) ∧
    (∀ p, (m'.ele p).map (fun e => e.value) = (m.ele p).map (fun e => e.value))


/-! ## Deciding the predicates and observing a queue -/

/-- Decision procedure for `Seg`, by following the links. -/
def Seg.dec (m : Mem) : (h : Option Nat) → (ps : List Nat) → (t : Option Nat) →
    Decidable (Seg m h ps t)
  | h, [], t => inferInstanceAs (Decidable (h = t))
  | h, p :: ps, t =>
    if hh : h = some p then
      match he : m.ele p with
      | none => isFalse (fun hs => by
          obtain ⟨_, e, he', _⟩ := hs
          rw [he] at he'; cases he')
      | some e =>
        match Seg.dec m e.next ps t with
        | isTrue hr => isTrue ⟨hh, e, he, hr⟩
        | isFalse hr => isFalse (fun hs => by
            obtain ⟨_, e', he', hr'⟩ := hs
            rw [he] at he'; cases he'; exact hr hr')
    else isFalse (fun hs => hh hs.1)

instance (m : Mem) (h : Option Nat) (ps : List Nat) (t : Option Nat) :
    Decidable (Seg m h ps t) :=
  Seg.dec m h ps t

instance (m : Mem) (q : Nat) (ps : List Nat) : Decidable (IsQueue m q ps) :=
  match hq : m.que q with
  | none => isFalse (fun h => by obtain ⟨Q, hQ, _⟩ := h; rw [hq] at hQ; cases hQ)
  | some Q =>
    if hc : Chain m Q.head ps then isTrue ⟨Q, hq, hc⟩
    else isFalse (fun h => by
      obtain ⟨Q', hQ, hc'⟩ := h; rw [hq] at hQ; cases hQ; exact hc hc')

instance (m : Mem) (q : Nat) (ps : List Nat) : Decidable (SizeInv m q ps) :=
  match hq : m.que q with
  | none => isFalse (fun h => by obtain ⟨Q, hQ, _⟩ := h; rw [hq] at hQ; cases hQ)
  | some Q =>
    if hc : Q.size = (ps.length : Int) ∧ Q.size ≤ INT_MAX then isTrue ⟨Q, hq, hc⟩
    else isFalse (fun h => by
      obtain ⟨Q', hQ, hc'⟩ := h; rw [hq] at hQ; cases hQ; exact hc hc')

instance (m : Mem) (q : Nat) (ps : List Nat) : Decidable (TailInv m q ps) :=
  match hq : m.que q with
  | none => isFalse (fun h => by obtain ⟨Q, hQ, _⟩ := h; rw [hq] at hQ; cases hQ)
  | some Q =>
    if hc : Q.tail = tailSlot q ps then isTrue ⟨Q, hq, hc⟩
    else isFalse (fun h => by
      obtain ⟨Q', hQ, hc'⟩ := h; rw [hq] at hQ; cases hQ; exact hc hc')

instance (m : Mem) (q : Nat) (ps : List Nat) : Decidable (WellFormed m q ps) :=
  inferInstanceAs (Decidable (_ ∧ _ ∧ _))

instance (l : List (List Nat)) : Decidable (Sorted l) :=
  inferInstanceAs (Decidable (List.Pairwise _ l))

/-- The memory in which nothing is allocated. -/
def emptyMem : Mem := { ele := fun _ => none, que := fun _ => none }

/-- The elements reachable from pointer `h`, at most `n` of them. -/
def readChain (m : Mem) : Nat → Option Nat → List Nat
  | 0, _ => []
  | _ + 1, none => []
  | n + 1, some p =>
    match m.ele p with
    | some e => p :: readChain m n e.next
    | none => []

/-- What an observer sees of the queue at `q` in memory `m`, reading at most `n` elements:
the strings from head to tail, the tail cursor and the size field. -/
def view (n : Nat) (q : Nat) (m : Mem) : Option (List (List Nat) × Slot × Int) :=
  match m.que q with
  | none => none
  | some Q => some ((readChain m n Q.head).map (valOf m), Q.tail, Q.size)

/-- Sample memory with two queues: the record at address 0 has the elements at addresses 1
and 2 holding "a" and "c", the record at address 1 has the elements at addresses 3 and 4
holding "a" and "b"; both are well formed and sorted. -/
def mergeMem : Mem :=
  { ele := fun p =>
      if p = 1 then some { value := [97], next := some 2 }
      else if p = 2 then some { value := [99], next := none }
      else if p = 3 then some { value := [97], next := some 4 }
      else if p = 4 then some { value := [98], next := none }
      else none,
    que := fun q =>
      if q = 0 then some { head := some 1, tail := .next 2, size := 2 }
      else if q = 1 then some { head := some 3, tail := .next 4, size := 2 }
      else none }

/-- The function `q_sort` again, returning next to the memory the list of the `divide` calls
made during the recursion, in the order they are made: each entry is the memory in which
`divide` is called, the address of the queue it divides and the address of the record `b`
it fills. -/
def q_sort_log : Nat → Nat → Mem → Option Nat → Run (Mem × List (Mem × Nat × Nat))
  | 0, _, _, _ => .error .fuel
  | fuel + 1, frame, m, q =>
    match q with
    | none => pure (m, [])
    | some qa => do
      let Q ← rdQ m qa
      match Q.head with
      | none => pure (m, [])
      | some h => do
        let e ← deref m (some h)
        match e.next with
        | none => pure (m, [])
        | some _ => do
          let b := frame
          let m0 := allocQue m b { head := none, tail := .head b, size := 0 }
          let m1 ← divide m0 qa b
          let r2 ← q_sort_log fuel (frame + 1) m1 (some qa)
          let r3 ← q_sort_log fuel (frame + 1) r2.1 (some b)
          let m4 ← merge fuel r3.1 qa b
          pure (freeQue m4 b, (m0, qa, b) :: (r2.2 ++ r3.2))

/-- What `q_sort` relies on when it calls `divide(a, b)` in memory `c.1` with `a = c.2.1` and
`b = c.2.2`: two distinct records, the chain of `a` has at least two elements, and the size
field of `a` is between 0 and one more than the number of elements. -/
def DivideReady (c : Mem × Nat × Nat) : Prop :=
  ∃ A B ps, c.1.que c.2.1 = some A ∧ c.1.que c.2.2 = some B ∧ c.2.1 ≠ c.2.2 ∧
    Chain c.1 A.head ps ∧ 2 ≤ ps.length ∧ 0 ≤ A.size ∧ A.size ≤ (ps.length : Int) + 1

/-- A series of `n` calls `q_insert_tail(q, "")` in which both allocations of every call
succeed, the elements being handed out at the consecutive addresses `a`, `a + 1`, ... -/
def fillCalls (a n : Nat) : List Call :=
  (List.range' a n).map (fun i => Call.insert_tail [] (some i) true)

/-! ## Paths and chains -/

theorem Seg.congr {m m' : Mem} {ps : List Nat} :
    ∀ {h t : Option Nat}, (∀ p ∈ ps, m'.ele p = m.ele p) → Seg m h ps t → Seg m' h ps t := by
  induction ps with
  | nil => intro h t _ hs; exact hs
  | cons p ps ih =>
    intro h t hag hs
    obtain ⟨hh, e, he, hrest⟩ := hs
    refine ⟨hh, e, ?_, ih (fun x hx => hag x (List.mem_cons_of_mem _ hx)) hrest⟩
    rw [hag p (List.mem_cons_self _ _)]; exact he

theorem Seg.append {m : Mem} {as bs : List Nat} :
    ∀ {h t : Option Nat}, Seg m h (as ++ bs) t ↔ ∃ u, Seg m h as u ∧ Seg m u bs t := by
  induction as with
  | nil =>
    intro h t
    constructor
    · intro hs; exact ⟨h, rfl, hs⟩
    · rintro ⟨u, hu, hs⟩; cases hu; exact hs
  | cons p as ih =>
    intro h t
    constructor
    · rintro ⟨hh, e, he, hrest⟩
      obtain ⟨u, h1, h2⟩ := ih.mp hrest
      exact ⟨u, ⟨hh, e, he, h1⟩, h2⟩
    · rintro ⟨u, ⟨hh, e, he, h1⟩, h2⟩
      exact ⟨hh, e, he, ih.mpr ⟨u, h1, h2⟩⟩

theorem Seg.alloc {m : Mem} {ps : List Nat} :
    ∀ {h t : Option Nat}, Seg m h ps t → ∀ p ∈ ps, ∃ e, m.ele p = some e := by
  induction ps with
  | nil => intro h t _ p hp; cases hp
  | cons x ps ih =>
    intro h t hs p hp
    obtain ⟨_, e, he, hrest⟩ := hs
    rcases List.mem_cons.mp hp with rfl | hp'
    · exact ⟨e, he⟩
    · exact ih hrest p hp'

theorem Chain.unique {m : Mem} {ps : List Nat} :
    ∀ {h : Option Nat} {qs : List Nat}, Chain m h ps → Chain m h qs → ps = qs := by
  induction ps with
  | nil =>
    intro h qs h1 h2
    cases qs with
    | nil => rfl
    | cons q qs =>
      have h1' : h = none := h1
      obtain ⟨hh, _⟩ := h2
      rw [h1'] at hh; cases hh
  | cons p ps ih =>
    intro h qs h1 h2
    obtain ⟨hh, e, he, hrest⟩ := h1
    cases qs with
    | nil =>
      have h2' : h = none := h2
      rw [h2'] at hh; cases hh
    | cons q qs =>
      obtain ⟨hh', e', he', hrest'⟩ := h2
      rw [hh] at hh'
      cases hh'
      rw [he] at he'
      cases he'
      rw [ih hrest hrest']

theorem Chain.nodup {m : Mem} {ps : List Nat} :
    ∀ {h : Option Nat}, Chain m h ps → ps.Nodup := by
  induction ps with
  | nil => intro _ _; exact List.nodup_nil
  | cons p ps ih =>
    intro h hc
    have hc0 := hc
    obtain ⟨hh, e, he, hrest⟩ := hc
    refine List.nodup_cons.mpr ⟨?_, ih hrest⟩
    intro hp
    obtain ⟨l1, l2, hsplit⟩ := List.append_of_mem hp
    rw [hsplit] at hrest
    obtain ⟨u, _, h2⟩ := Seg.append.mp hrest
    have hu : u = some p := h2.1
    have hc2 : Chain m h (p :: l2) := by
      rw [hh, ← hu]; exact h2
    have := Chain.unique hc0 hc2
    have hlen := congrArg List.length this
    rw [hsplit] at hlen
    simp at hlen
    omega

theorem Chain.nil_iff {m : Mem} {h : Option Nat} : Chain m h [] ↔ h = none := Iff.rfl

theorem Chain.of_none {m : Mem} {ps : List Nat} (h : Chain m none ps) : ps = [] :=
  (@Chain.unique m [] none ps rfl h).symm


/-! ## The `int` counter -/

theorem to_int_eq {x : Int} (h1 : -2147483648 ≤ x) (h2 : x ≤ INT_MAX) : to_int x = x := by
  unfold INT_MAX at h2
  unfold to_int
  omega

theorem to_int_add (x k : Int) : to_int (to_int x + k) = to_int (x + k) := by
  unfold to_int
  omega

theorem to_int_range (x : Int) : -2147483648 ≤ to_int x ∧ to_int x ≤ INT_MAX := by
  unfold INT_MAX to_int
  omega

theorem to_int_overflow : to_int (INT_MAX + 1) = -2147483648 := by
  unfold INT_MAX to_int
  omega

/-- Counting one element more stays exact below `INT_MAX`. -/
theorem to_int_succ {s : Int} {n : Nat} (hs : s = (n : Int)) (hlt : (n : Int) < INT_MAX) :
    to_int (s + 1) = ((n + 1 : Nat) : Int) ∧ to_int (s + 1) ≤ INT_MAX := by
  unfold INT_MAX at *
  unfold to_int
  omega

/-- Counting one element less stays exact. -/
theorem to_int_pred {s : Int} {n : Nat} (hs : s = ((n + 1 : Nat) : Int)) (hmax : s ≤ INT_MAX) :
    to_int (s - 1) = (n : Int) ∧ to_int (s - 1) ≤ INT_MAX := by
  unfold INT_MAX at *
  unfold to_int
  omega

/-! ## Straight-line functions: what they compute -/

theorem q_insert_head_eq {m : Mem} {q p : Nat} {Q : queue_t} (s : List Nat)
    (hq : m.que q = some Q) :
    q_insert_head m (some q) s (some p) true =
      .ok ({ ele := Function.update m.ele p (some { value := s, next := Q.head }),
             que := Function.update m.que q (some
               { head := some p,
                 tail := if Q.head = none then Slot.next p else Q.tail,
                 size := to_int (Q.size + 1) }) }, true) := by
  cases hh : Q.head <;>
  simp [q_insert_head, allocEle, wrNext, rdQ, hq, wrHead, wrTail, wrSize, deref, bind,
    Except.bind, pure, Except.pure, hh]

theorem q_remove_head_eq {m : Mem} {q r : Nat} {Q : queue_t} {e : list_ele_t}
    (sp : Option (List Nat)) (bufsize : Nat)
    (hq : m.que q = some Q) (hh : Q.head = some r) (he : m.ele r = some e) :
    q_remove_head m (some q) sp bufsize =
      .ok ({ ele := Function.update m.ele r none,
             que := Function.update m.que q (some
               { head := e.next,
                 tail := if e.next = none then Slot.head q else Q.tail,
                 size := to_int (Q.size - 1) }) },
           sp.map (fun buf => memWrite buf
             (e.value.take (if e.value.length < size_sub bufsize 1 then e.value.length
               else size_sub bufsize 1) ++ [0])),
           true) := by
  cases hn : e.next <;>
  simp [q_remove_head, freeEle, rdQ, hq, wrHead, wrTail, wrSize, deref, bind,
    Except.bind, pure, Except.pure, hh, he, hn]


theorem lastSlot_nil (t : Slot) : lastSlot t [] = t := rfl

theorem lastSlot_concat (t : Slot) (l : List Nat) (p : Nat) : lastSlot t (l ++ [p]) = .next p := by
  simp [lastSlot]

theorem lastSlot_cons (t : Slot) (p : Nat) (l : List Nat) :
    lastSlot t (p :: l) = lastSlot (.next p) l := by
  rcases List.eq_nil_or_concat l with rfl | ⟨l', x, rfl⟩
  · simp [lastSlot]
  · rw [List.concat_eq_append, ← List.cons_append, lastSlot_concat, lastSlot_concat]

theorem lastSlot_append_cons (t : Slot) (l : List Nat) (p : Nat) (r : List Nat) :
    lastSlot t (l ++ p :: r) = lastSlot (.next p) r := by
  induction l generalizing t with
  | nil => simpa using lastSlot_cons t p r
  | cons x l ih => rw [List.cons_append, lastSlot_cons, ih]

theorem q_insert_tail_eq_head {m : Mem} {q p : Nat} {Q : queue_t} (s : List Nat)
    (hq : m.que q = some Q) (ht : Q.tail = .head q) :
    q_insert_tail m (some q) s (some p) true =
      .ok ({ ele := Function.update m.ele p (some { value := s, next := none }),
             que := Function.update m.que q (some
               { head := some p, tail := Slot.next p, size := to_int (Q.size + 1) }) },
        true) := by
  simp [q_insert_tail, allocEle, wrNext, rdQ, hq, store, wrHead, wrTail, wrSize, bind,
    Except.bind, pure, Except.pure, ht]

theorem q_insert_tail_eq_next {m : Mem} {q p l : Nat} {Q : queue_t} {el : list_ele_t}
    (s : List Nat) (hq : m.que q = some Q) (ht : Q.tail = .next l) (hl : m.ele l = some el)
    (hne : l ≠ p) :
    q_insert_tail m (some q) s (some p) true =
      .ok ({ ele := Function.update
                (Function.update m.ele p (some { value := s, next := none }))
                l (some { el with next := some p }),
             que := Function.update m.que q (some
               { head := Q.head, tail := Slot.next p, size := to_int (Q.size + 1) }) },
        true) := by
  simp [q_insert_tail, allocEle, wrNext, rdQ, hq, store, wrHead, wrTail, wrSize, bind,
    Except.bind, pure, Except.pure, ht, hl, hne, Function.update_apply]

/-- Linking a chain behind the last element of another one. -/
theorem Chain.link_last {m m' : Mem} {h hb : Option Nat} {init bs : List Nat} {l : Nat}
    {el : list_ele_t}
    (hc : Chain m h (init ++ [l])) (hinit : ∀ x ∈ init, m'.ele x = m.ele x)
    (hl' : m'.ele l = some { el with next := hb })
    (hbs : Chain m' hb bs) : Chain m' h (init ++ l :: bs) := by
  obtain ⟨u, h1, h2⟩ := Seg.append.mp hc
  have hu : u = some l := h2.1
  refine Seg.append.mpr ⟨u, Seg.congr hinit h1, hu, _, hl', hbs⟩

theorem Chain.last_next {m : Mem} {h : Option Nat} {init : List Nat} {l : Nat}
    {el : list_ele_t} (hc : Chain m h (init ++ [l])) (hl : m.ele l = some el) :
    el.next = none := by
  obtain ⟨u, _, h2⟩ := Seg.append.mp hc
  obtain ⟨_, e, he, hn⟩ := h2
  rw [hl] at he; cases he; exact hn


theorem Chain.ne_of_fresh {m : Mem} {h : Option Nat} {ps : List Nat} {p : Nat}
    (hc : Chain m h ps) (hf : m.ele p = none) : ∀ x ∈ ps, x ≠ p := by
  intro x hx hxp
  obtain ⟨e, he⟩ := Seg.alloc hc x hx
  rw [hxp, hf] at he; cases he

theorem tailSlot_nil (q : Nat) : tailSlot q [] = .head q := rfl

theorem tailSlot_cons_of_ne_nil (q p : Nat) {ps : List Nat} (h : ps ≠ []) :
    tailSlot q (p :: ps) = tailSlot q ps := by
  rcases List.eq_nil_or_concat ps with rfl | ⟨l, x, rfl⟩
  · exact absurd rfl h
  · rw [List.concat_eq_append]
    simp only [tailSlot]
    rw [← List.cons_append, lastSlot_concat, lastSlot_concat]

theorem q_insert_head_spec {m : Mem} {q p : Nat} {Q : queue_t} {ps : List Nat} (s : List Nat)
    (hq : m.que q = some Q) (hc : Chain m Q.head ps) (hf : m.ele p = none) :
    ∃ m' Q', q_insert_head m (some q) s (some p) true = .ok (m', true) ∧
      m'.que q = some Q' ∧ Chain m' Q'.head (p :: ps) ∧ Q'.size = to_int (Q.size + 1) ∧
      (Q.tail = tailSlot q ps → Q'.tail = tailSlot q (p :: ps)) ∧
      m'.ele p = some { value := s, next := Q.head } ∧
      (∀ x, x ≠ p → m'.ele x = m.ele x) ∧ (∀ r, r ≠ q → m'.que r = m.que r) := by
  refine ⟨_, _, q_insert_head_eq s hq, Function.update_same _ _ _, ?_, rfl, ?_, by simp, ?_, ?_⟩
  · refine ⟨rfl, _, Function.update_same _ _ _, ?_⟩
    refine Seg.congr (fun x hx => ?_) hc
    simp [Function.update_apply, Chain.ne_of_fresh hc hf x hx]
  · intro ht
    cases ps with
    | nil =>
      have : Q.head = none := hc
      simp [this, tailSlot, lastSlot]
    | cons x xs =>
      have : Q.head = some x := hc.1
      simp only [this]
      rw [tailSlot_cons_of_ne_nil q p (by simp)]
      simpa using ht
  · intro x hx; simp [Function.update_apply, hx]
  · intro r hr; simp [Function.update_apply, hr]

theorem q_insert_tail_spec {m : Mem} {q p : Nat} {Q : queue_t} {ps : List Nat} (s : List Nat)
    (hq : m.que q = some Q) (hc : Chain m Q.head ps) (ht : Q.tail = tailSlot q ps)
    (hf : m.ele p = none) :
    ∃ m' Q', q_insert_tail m (some q) s (some p) true = .ok (m', true) ∧
      m'.que q = some Q' ∧ Chain m' Q'.head (ps ++ [p]) ∧ Q'.size = to_int (Q.size + 1) ∧
      Q'.tail = tailSlot q (ps ++ [p]) ∧
      m'.ele p = some { value := s, next := none } ∧
      (∀ x, x ≠ p → (m'.ele x).map (fun e => e.value) = (m.ele x).map (fun e => e.value)) ∧
      (∀ r, r ≠ q → m'.que r = m.que r) := by
  rcases List.eq_nil_or_concat ps with rfl | ⟨init, l, rfl⟩
  · have hh : Q.head = none := hc
    refine ⟨_, _, q_insert_tail_eq_head s hq ht, Function.update_same _ _ _, ?_, rfl, ?_, by simp, ?_, ?_⟩
    · exact ⟨rfl, _, Function.update_same _ _ _, rfl⟩
    · simp [tailSlot, lastSlot]
    · intro x hx; simp [Function.update_apply, hx]
    · intro r hr; simp [Function.update_apply, hr]
  · rw [List.concat_eq_append] at hc ht ⊢
    have ht' : Q.tail = .next l := by rw [ht]; exact lastSlot_concat _ _ _
    obtain ⟨el, hl⟩ := Seg.alloc hc l (by simp)
    have hne : ∀ x ∈ init ++ [l], x ≠ p := Chain.ne_of_fresh hc hf
    have hlp : l ≠ p := hne l (by simp)
    refine ⟨_, _, q_insert_tail_eq_next s hq ht' hl hlp, Function.update_same _ _ _, ?_, rfl, ?_, ?_, ?_, ?_⟩
    · rw [List.append_assoc]
      refine @Chain.link_last m _ Q.head (some p) init [p] l el hc ?_ ?_ ?_
      · intro x hx
        have hxl : x ≠ l := by
          intro hxl
          have hnd := Chain.nodup hc
          rw [hxl] at hx
          exact (List.nodup_append.mp hnd).2.2 hx (by simp)
        have hxp : x ≠ p := hne x (by simp [hx])
        simp [Function.update_apply, hxl, hxp]
      · simp
      · refine ⟨rfl, { value := s, next := none }, ?_, rfl⟩
        simp [Function.update_apply, hlp.symm]
    · simp [tailSlot, lastSlot]
    · simp [Function.update_apply, hlp.symm]
    · intro x hx
      by_cases hxl : x = l
      · simp [Function.update_apply, hxl, hl]
      · simp [Function.update_apply, hxl, hx]
    · intro r hr; simp [Function.update_apply, hr]

theorem q_remove_head_spec {m : Mem} {q r : Nat} {Q : queue_t} {ps : List Nat}
    (sp : Option (List Nat)) (bufsize : Nat)
    (hq : m.que q = some Q) (hc : Chain m Q.head (r :: ps)) :
    ∃ m' Q' e, m.ele r = some e ∧
      q_remove_head m (some q) sp bufsize =
        .ok (m', sp.map (fun buf => memWrite buf
             (e.value.take (if e.value.length < size_sub bufsize 1 then e.value.length
               else size_sub bufsize 1) ++ [0])), true) ∧
      m'.que q = some Q' ∧ Chain m' Q'.head ps ∧ Q'.size = to_int (Q.size - 1) ∧
      (Q.tail = tailSlot q (r :: ps) → Q'.tail = tailSlot q ps) ∧
      m'.ele r = none ∧
      (∀ x, x ≠ r → m'.ele x = m.ele x) ∧ (∀ a, a ≠ q → m'.que a = m.que a) := by
  have hnd := Chain.nodup hc
  obtain ⟨hh, e, he, hrest⟩ := hc
  refine ⟨_, _, e, he, q_remove_head_eq sp bufsize hq hh he, Function.update_same _ _ _, ?_, rfl, ?_, by simp,
    ?_, ?_⟩
  · refine Seg.congr (fun x hx => ?_) hrest
    have : x ≠ r := by
      intro hxr; rw [hxr] at hx; exact (List.nodup_cons.mp hnd).1 hx
    simp [Function.update_apply, this]
  · intro ht
    cases ps with
    | nil =>
      have : e.next = none := hrest
      simp [this, tailSlot, lastSlot]
    | cons x xs =>
      have : e.next = some x := hrest.1
      simp only [this]
      rw [tailSlot_cons_of_ne_nil q r (by simp)] at ht
      simpa using ht
  · intro x hx; simp [Function.update_apply, hx]
  · intro a ha; simp [Function.update_apply, ha]


/-! ## `q_reverse` -/

theorem q_reverse_loop_done {m : Mem} {q : Nat} {Q : queue_t} (f : Nat) (tmp : Option Nat)
    (hq : m.que q = some Q) (hh : Q.head = none) :
    q_reverse_loop (f + 1) m q tmp = .ok (m, tmp) := by
  simp [q_reverse_loop, rdQ, hq, hh, bind, Except.bind, pure, Except.pure]

theorem q_reverse_loop_step {m : Mem} {q c : Nat} {Q : queue_t} {e : list_ele_t} (f : Nat)
    (tmp : Option Nat) (hq : m.que q = some Q) (hh : Q.head = some c)
    (he : m.ele c = some e) :
    q_reverse_loop (f + 1) m q tmp =
      q_reverse_loop f
        (allocEle (allocQue m q { Q with head := e.next }) c { e with next := tmp })
        q (some c) := by
  simp [q_reverse_loop, rdQ, hq, hh, deref, he, wrHead, wrNext, bind, Except.bind, allocEle,
    allocQue]

theorem q_reverse_loop_spec {q : Nat} (rest : List Nat) :
    ∀ (fuel : Nat) (m : Mem) (Q : queue_t) (done : List Nat) (tmp : Option Nat),
      m.que q = some Q → Chain m Q.head rest → Chain m tmp done →
      (∀ x ∈ rest, x ∉ done) → rest.length < fuel →
      ∃ m' tmp', q_reverse_loop fuel m q tmp = .ok (m', tmp') ∧
        Chain m' tmp' (rest.reverse ++ done) ∧
        m'.que q = some { Q with head := none } ∧
        (∀ r, r ≠ q → m'.que r = m.que r) ∧
        (∀ p, p ∉ rest → m'.ele p = m.ele p) ∧
        (∀ p, (m'.ele p).map (fun e => e.value) = (m.ele p).map (fun e => e.value)) := by
  induction rest with
  | nil =>
    intro fuel m Q done tmp hq hc hd _ hfuel
    obtain ⟨f, rfl⟩ : ∃ f, fuel = f + 1 := ⟨fuel - 1, by simp at hfuel; omega⟩
    have hh : Q.head = none := hc
    refine ⟨m, tmp, q_reverse_loop_done f tmp hq hh, by simpa using hd, ?_,
      fun _ _ => rfl, fun _ _ => rfl, fun _ => rfl⟩
    rw [hq, ← hh]
  | cons c rest ih =>
    intro fuel m Q done tmp hq hc hd hdisj hfuel
    obtain ⟨f, rfl⟩ : ∃ f, fuel = f + 1 := ⟨fuel - 1, by simp at hfuel; omega⟩
    have hnd := Chain.nodup hc
    obtain ⟨hh, e, he, hrest⟩ := hc
    have hc_rest : c ∉ rest := (List.nodup_cons.mp hnd).1
    have hc_done : c ∉ done := hdisj c (List.mem_cons_self _ _)
    rw [q_reverse_loop_step f tmp hq hh he]
    have hq2 : (allocEle (allocQue m q { Q with head := e.next }) c { e with next := tmp }).que q
        = some { Q with head := e.next } := by
      simp [allocEle, allocQue]
    have hrest2 : Chain (allocEle (allocQue m q { Q with head := e.next }) c
        { e with next := tmp }) e.next rest := by
      refine Seg.congr (fun x hx => ?_) hrest
      have : x ≠ c := fun h => hc_rest (h ▸ hx)
      simp [allocEle, allocQue, Function.update_apply, this]
    have hd2 : Chain (allocEle (allocQue m q { Q with head := e.next }) c
        { e with next := tmp }) (some c) (c :: done) := by
      refine ⟨rfl, { e with next := tmp }, by simp [allocEle, allocQue], ?_⟩
      refine Seg.congr (fun x hx => ?_) hd
      have : x ≠ c := fun h => hc_done (h ▸ hx)
      simp [allocEle, allocQue, Function.update_apply, this]
    have hdisj2 : ∀ x ∈ rest, x ∉ c :: done := by
      intro x hx hxd
      rcases List.mem_cons.mp hxd with hxc | hxd
      · exact hc_rest (hxc ▸ hx)
      · exact hdisj x (List.mem_cons_of_mem _ hx) hxd
    obtain ⟨m', tmp', hrun, hch, hq', hfr, hfe, hfv⟩ :=
      ih f _ _ (c :: done) (some c) hq2 hrest2 hd2 hdisj2 (by simp at hfuel; omega)
    refine ⟨m', tmp', hrun, by simpa using hch, hq', ?_, ?_, ?_⟩
    · intro r hr; rw [hfr r hr]; simp [allocEle, allocQue, Function.update_apply, hr]
    · intro p hp
      have hpc : p ≠ c := fun h => hp (h ▸ List.mem_cons_self _ _)
      rw [hfe p (fun h => hp (List.mem_cons_of_mem _ h))]
      simp [allocEle, allocQue, Function.update_apply, hpc]
    · intro p
      rw [hfv p]
      by_cases hpc : p = c
      · simp [allocEle, allocQue, Function.update_apply, hpc, he]
      · simp [allocEle, allocQue, Function.update_apply, hpc]

theorem q_reverse_spec {m : Mem} {q : Nat} {Q : queue_t} {ps : List Nat} {fuel : Nat}
    (hq : m.que q = some Q) (hc : Chain m Q.head ps) (hfuel : ps.length < fuel) :
    ∃ m' Q', q_reverse fuel m (some q) = .ok m' ∧
      m'.que q = some Q' ∧ Chain m' Q'.head ps.reverse ∧ Q'.size = Q.size ∧
      (Q.tail = tailSlot q ps → Q'.tail = tailSlot q ps.reverse) ∧
      (2 ≤ ps.length → Q'.tail = tailSlot q ps.reverse) ∧
      (ps.length ≤ 1 → m' = m) ∧
      (∀ r, r ≠ q → m'.que r = m.que r) ∧
      (∀ p, p ∉ ps → m'.ele p = m.ele p) ∧
      (∀ p, (m'.ele p).map (fun e => e.value) = (m.ele p).map (fun e => e.value)) := by
  match ps, hc, hfuel with
  | [], hc, _ =>
    have hh : Q.head = none := hc
    refine ⟨m, Q, ?_, hq, hc, rfl, id, ?_, fun _ => rfl, fun _ _ => rfl, fun _ _ => rfl,
      fun _ => rfl⟩
    · simp [q_reverse, rdQ, hq, hh, bind, Except.bind, pure, Except.pure]
    · intro h; simp at h
  | [x], hc, _ =>
    obtain ⟨hh, e, he, hn⟩ := id hc
    have hn' : e.next = none := hn
    refine ⟨m, Q, ?_, hq, hc, rfl, id, ?_, fun _ => rfl, fun _ _ => rfl, fun _ _ => rfl,
      fun _ => rfl⟩
    · simp [q_reverse, rdQ, hq, hh, deref, he, hn', bind, Except.bind, pure, Except.pure]
    · intro h; simp at h
  | x :: y :: rest, hc, hfuel =>
    obtain ⟨hh, e, he, hn⟩ := id hc
    have hn' : e.next = some y := hn.1
    have hq0 : (allocQue m q { Q with tail := .next x }).que q = some { Q with tail := .next x } := by
      simp [allocQue]
    have hc0 : Chain (allocQue m q { Q with tail := .next x }) Q.head (x :: y :: rest) :=
      Seg.congr (m := m) (fun _ _ => rfl) hc
    obtain ⟨m1, tmp1, hrun, hch, hq1, hfr, hfe, hfv⟩ :=
      q_reverse_loop_spec (x :: y :: rest) fuel _ _ [] none hq0 hc0 rfl
        (fun _ _ h => by cases h) hfuel
    have hrun' : q_reverse fuel m (some q) =
        .ok (allocQue m1 q { head := tmp1, tail := .next x, size := Q.size }) := by
      simp [q_reverse, rdQ, hq, hh, deref, he, hn', wrTail, wrHead, bind, Except.bind, hq1,
        allocQue] at hrun ⊢
      simp [hrun, hq1]
    have htail : tailSlot q (x :: y :: rest).reverse = .next x := by
      simp [tailSlot, lastSlot]
    refine ⟨_, _, hrun', Function.update_same _ _ _, ?_, rfl, fun _ => htail.symm,
      fun _ => htail.symm, ?_, ?_, ?_, ?_⟩
    · have hch' : Chain m1 tmp1 (x :: y :: rest).reverse := by simpa using hch
      exact Seg.congr (m := m1) (fun _ _ => rfl) hch'
    · intro h; simp at h
    · intro r hr
      simp only [allocQue, Function.update_apply, hr, if_false]
      rw [hfr r hr]; simp [allocQue, Function.update_apply, hr]
    · intro p hp; exact hfe p hp
    · intro p; exact hfv p


/-! ## `strcmp` is a total preorder -/

theorem strcmp_swap : ∀ a b : List Nat, strcmp b a = - strcmp a b := by
  intro a
  induction a with
  | nil => intro b; cases b <;> simp [strcmp]
  | cons x a ih =>
    intro b
    cases b with
    | nil => simp [strcmp]
    | cons y b =>
      simp only [strcmp]
      split_ifs <;> first | omega | simp | exact ih b

theorem strcmp_trans : ∀ a b c : List Nat,
    strcmp a b ≤ 0 → strcmp b c ≤ 0 → strcmp a c ≤ 0 := by
  intro a
  induction a with
  | nil => intro b c _ _; cases c <;> simp [strcmp]
  | cons x a ih =>
    intro b c h1 h2
    cases b with
    | nil => simp [strcmp] at h1
    | cons y b =>
      cases c with
      | nil => simp [strcmp] at h2
      | cons z c =>
        simp only [strcmp] at h1 h2 ⊢
        split_ifs at h1 h2 ⊢ <;> first | omega | simp | (exact ih _ _ h1 h2)

theorem strcmp_self (a : List Nat) : strcmp a a = 0 := by
  have := strcmp_swap a a
  omega

theorem strcmp_le_of_not_gt {a b : List Nat} (h : ¬ strcmp a b > 0) : strcmp a b ≤ 0 := by
  omega

theorem strcmp_le_of_gt {a b : List Nat} (h : strcmp a b > 0) : strcmp b a ≤ 0 := by
  have := strcmp_swap a b
  omega

/-! ## The merge order on lists -/

theorem mergePre_nil_left (val : Nat → List Nat) (bs : List Nat) : mergePre val [] bs = [] := by
  simp [mergePre]

theorem mergeRest_nil_left (val : Nat → List Nat) (bs : List Nat) :
    mergeRest val [] bs = bs := by
  simp [mergeRest]

theorem mergePre_nil_right (val : Nat → List Nat) (as : List Nat) : mergePre val as [] = as := by
  cases as <;> simp [mergePre]

theorem mergeRest_nil_right (val : Nat → List Nat) (as : List Nat) :
    mergeRest val as [] = [] := by
  cases as <;> simp [mergeRest]

theorem mergeList_nil_left (val : Nat → List Nat) (bs : List Nat) : mergeList val [] bs = bs := by
  simp [mergeList, mergePre, mergeRest]

theorem mergeList_nil_right (val : Nat → List Nat) (as : List Nat) :
    mergeList val as [] = as := by
  simp [mergeList, mergePre_nil_right, mergeRest_nil_right]

theorem mergeList_cons_gt (val : Nat → List Nat) {x y : Nat} (as bs : List Nat)
    (h : strcmp (val x) (val y) > 0) :
    mergeList val (x :: as) (y :: bs) = y :: mergeList val (x :: as) bs := by
  simp [mergeList, mergePre, mergeRest, h]

theorem mergeList_cons_le (val : Nat → List Nat) {x y : Nat} (as bs : List Nat)
    (h : ¬ strcmp (val x) (val y) > 0) :
    mergeList val (x :: as) (y :: bs) = x :: mergeList val as (y :: bs) := by
  simp only [mergeList, mergePre, mergeRest, h, if_false, List.cons_append]

theorem mergeList_perm (val : Nat → List Nat) (as bs : List Nat) :
    (mergeList val as bs).Perm (as ++ bs) := by
  induction as, bs using mergePre.induct val with
  | case1 bs => rw [mergeList_nil_left]; simp
  | case2 x as => rw [mergeList_nil_right]; simp
  | case3 x as y bs h ih =>
    rw [mergeList_cons_gt val as bs h]
    exact (List.Perm.cons y ih).trans (List.perm_middle.symm)
  | case4 x as y bs h ih =>
    rw [mergeList_cons_le val as bs h]
    exact List.Perm.cons x ih

theorem mergeList_sorted (val : Nat → List Nat) (as bs : List Nat)
    (ha : Sorted (as.map val)) (hb : Sorted (bs.map val)) :
    Sorted ((mergeList val as bs).map val) := by
  induction as, bs using mergePre.induct val with
  | case1 bs => rw [mergeList_nil_left]; exact hb
  | case2 x as => rw [mergeList_nil_right]; exact ha
  | case3 x as y bs h ih =>
    rw [mergeList_cons_gt val as bs h]
    have hb' : Sorted (bs.map val) := (List.pairwise_cons.mp hb).2
    have hyb := (List.pairwise_cons.mp hb).1
    have hxa := (List.pairwise_cons.mp ha).1
    refine List.pairwise_cons.mpr ⟨?_, ih ha hb'⟩
    intro s hs
    obtain ⟨p, hp, rfl⟩ := List.mem_map.mp hs
    have hp' := (mergeList_perm val (x :: as) bs).mem_iff.mp hp
    rcases List.mem_append.mp hp' with hpa | hpb
    · rcases List.mem_cons.mp hpa with rfl | hpa
      · exact strcmp_le_of_gt h
      · exact strcmp_trans _ _ _ (strcmp_le_of_gt h) (hxa _ (List.mem_map_of_mem val hpa))
    · exact hyb _ (List.mem_map_of_mem val hpb)
  | case4 x as y bs h ih =>
    rw [mergeList_cons_le val as bs h]
    have ha' : Sorted (as.map val) := (List.pairwise_cons.mp ha).2
    have hyb := (List.pairwise_cons.mp hb).1
    have hxa := (List.pairwise_cons.mp ha).1
    refine List.pairwise_cons.mpr ⟨?_, ih ha' hb⟩
    intro s hs
    obtain ⟨p, hp, rfl⟩ := List.mem_map.mp hs
    have hp' := (mergeList_perm val as (y :: bs)).mem_iff.mp hp
    rcases List.mem_append.mp hp' with hpa | hpb
    · exact hxa _ (List.mem_map_of_mem val hpa)
    · rcases List.mem_cons.mp hpb with rfl | hpb
      · exact strcmp_le_of_not_gt h
      · exact strcmp_trans _ _ _ (strcmp_le_of_not_gt h) (hyb _ (List.mem_map_of_mem val hpb))

/-- Ties go to the first list: among the elements carrying one given string, all those of
`as` come before all those of `bs`, each group in its own order. -/
theorem mergeList_filter (val : Nat → List Nat) (v : List Nat) (as bs : List Nat)
    (ha : Sorted (as.map val)) :
    (mergeList val as bs).filter (fun p => decide (val p = v)) =
      as.filter (fun p => decide (val p = v)) ++ bs.filter (fun p => decide (val p = v)) := by
  induction as, bs using mergePre.induct val with
  | case1 bs => rw [mergeList_nil_left]; simp
  | case2 x as => rw [mergeList_nil_right]; simp
  | case3 x as y bs h ih =>
    rw [mergeList_cons_gt val as bs h]
    by_cases hy : val y = v
    · have hnone : (x :: as).filter (fun p => decide (val p = v)) = [] := by
        rw [List.filter_eq_nil_iff]
        intro p hp hpv
        have hpv' : val p = v := by simpa using hpv
        have hxp : strcmp (val x) (val p) ≤ 0 := by
          rcases List.mem_cons.mp hp with rfl | hp
          · rw [strcmp_self]
          · exact (List.pairwise_cons.mp ha).1 _ (List.mem_map_of_mem val hp)
        rw [hpv', ← hy] at hxp
        omega
      rw [List.filter_cons_of_pos (a := y) (l := mergeList val (x :: as) bs) (by simpa using hy),
        ih ha, hnone, List.filter_cons_of_pos (a := y) (l := bs) (by simpa using hy)]
      simp
    · rw [List.filter_cons_of_neg (a := y) (l := mergeList val (x :: as) bs) (by simpa using hy),
        ih ha, List.filter_cons_of_neg (a := y) (l := bs) (by simpa using hy)]
  | case4 x as y bs h ih =>
    rw [mergeList_cons_le val as bs h]
    have ha' : Sorted (as.map val) := (List.pairwise_cons.mp ha).2
    by_cases hx : val x = v
    · rw [List.filter_cons_of_pos (a := x) (l := mergeList val as (y :: bs)) (by simpa using hx),
        ih ha', List.filter_cons_of_pos (a := x) (l := as) (by simpa using hx)]
      simp
    · rw [List.filter_cons_of_neg (a := x) (l := mergeList val as (y :: bs)) (by simpa using hx),
        ih ha', List.filter_cons_of_neg (a := x) (l := as) (by simpa using hx)]

theorem mergeRest_eq_nil_lastSlot (val : Nat → List Nat) (t : Slot) (as bs : List Nat)
    (h : mergeRest val as bs = []) : lastSlot t (mergeList val as bs) = lastSlot t as := by
  induction as, bs using mergePre.induct val generalizing t with
  | case1 bs =>
    rw [mergeRest_nil_left] at h
    rw [mergeList_nil_left, h]
  | case2 x as => rw [mergeList_nil_right]
  | case3 x as y bs hgt ih =>
    rw [mergeList_cons_gt val as bs hgt, lastSlot_cons, ih _ (by simpa [mergeRest, hgt] using h)]
    rw [lastSlot_cons, lastSlot_cons]
  | case4 x as y bs hgt ih =>
    rw [mergeList_cons_le val as bs hgt, lastSlot_cons, ih _ (by simpa [mergeRest, hgt] using h)]
    rw [lastSlot_cons]

theorem mergeRest_ne_nil_lastSlot (val : Nat → List Nat) (t u : Slot) (as bs : List Nat)
    (h : mergeRest val as bs ≠ []) : lastSlot t (mergeList val as bs) = lastSlot u bs := by
  induction as, bs using mergePre.induct val generalizing t u with
  | case1 bs =>
    rw [mergeRest_nil_left] at h
    rw [mergeList_nil_left]
    cases bs with
    | nil => exact absurd rfl h
    | cons y bs => rw [lastSlot_cons, lastSlot_cons]
  | case2 x as => rw [mergeRest_nil_right] at h; exact absurd rfl h
  | case3 x as y bs hgt ih =>
    rw [mergeList_cons_gt val as bs hgt, lastSlot_cons,
      ih _ (.next y) (by simpa [mergeRest, hgt] using h), lastSlot_cons]
  | case4 x as y bs hgt ih =>
    rw [mergeList_cons_le val as bs hgt, lastSlot_cons,
      ih _ u (by simpa [mergeRest, hgt] using h)]


/-! ## `divide` -/

theorem divide_walk_seg {m : Mem} (as : List Nat) :
    ∀ (h u : Option Nat), Seg m h as u → divide_walk m (as.length + 1) h = .ok u := by
  induction as with
  | nil => intro h u hs; cases hs; rfl
  | cons p as ih =>
    intro h u hs
    obtain ⟨hh, e, he, hrest⟩ := hs
    subst hh
    simp only [List.length_cons, divide_walk, deref, he, bind, Except.bind]
    exact ih _ _ hrest

theorem divide_walk_ok {m : Mem} {as : List Nat} {h u : Option Nat} {i : Nat}
    (hs : Seg m h as u) (hi : i - 1 = as.length) : divide_walk m i h = .ok u := by
  cases i with
  | zero =>
    have : as = [] := List.length_eq_zero.mp (by omega)
    subst this
    cases hs; rfl
  | succ j =>
    have : j = as.length := by omega
    subst this
    exact divide_walk_seg as h u hs

theorem divide_walk_fault {m : Mem} (ps : List Nat) :
    ∀ (h : Option Nat) (k : Nat), Chain m h ps → ps.length < k →
      divide_walk m (k + 1) h = .error .fault := by
  induction ps with
  | nil =>
    intro h k hc hk
    have hh : h = none := hc
    subst hh
    obtain ⟨j, rfl⟩ : ∃ j, k = j + 1 := ⟨k - 1, by simp at hk; omega⟩
    simp [divide_walk, deref, bind, Except.bind]
  | cons p ps ih =>
    intro h k hc hk
    obtain ⟨hh, e, he, hrest⟩ := hc
    subst hh
    obtain ⟨j, rfl⟩ : ∃ j, k = j + 1 := ⟨k - 1, by simp at hk; omega⟩
    simp only [divide_walk, deref, he, bind, Except.bind]
    exact ih _ _ hrest (by simp at hk; omega)

/-- What `divide` computes when the walk ends on the element `c`. -/
theorem divide_eq {m : Mem} {a b c : Nat} {A B : queue_t} {init rest : List Nat}
    {ec : list_ele_t}
    (hqa : m.que a = some A) (hqb : m.que b = some B) (hab : a ≠ b)
    (hc : Chain m A.head (init ++ c :: rest)) (hec : m.ele c = some ec)
    (hk : to_size_t (Int.tdiv A.size 2) - 1 = init.length) :
    divide m a b = .ok
      (allocQue (allocQue (allocEle m c { ec with next := none })
        b { head := ec.next, tail := A.tail, size := Int.tdiv A.size 2 })
        a { head := A.head, tail := .next c, size := A.size - Int.tdiv A.size 2 }) := by
  obtain ⟨u, h1, h2⟩ := Seg.append.mp hc
  have hu : u = some c := h2.1
  subst hu
  have hwalk : ∀ qs : Nat → Option queue_t,
      divide_walk (Mem.mk m.ele qs) (to_size_t (Int.tdiv A.size 2)) A.head = .ok (some c) := by
    intro qs
    exact divide_walk_ok (Seg.congr (m := m) (fun p _ => rfl) h1) hk
  have hba : b ≠ a := fun h => hab h.symm
  simp only [divide, rdQ, hqa, hqb, wrSize, wrTail, bind, Except.bind, Function.update_apply,
    hab, hba, if_true, if_false]
  rw [hwalk]
  simp [deref, hec, wrHead, wrNext, addrOf, wrTail, wrSize, rdQ, Function.update_apply, hab,
    hba, allocQue, allocEle, hqa, hqb]


theorem divide_fault {m : Mem} {a b : Nat} {A B : queue_t} {ps : List Nat}
    (hqa : m.que a = some A) (hqb : m.que b = some B) (hab : a ≠ b)
    (hc : Chain m A.head ps) (hk : ps.length ≤ to_size_t (Int.tdiv A.size 2) - 1) :
    divide m a b = .error .fault := by
  have hba : b ≠ a := fun h => hab h.symm
  have hwalk : ∀ qs : Nat → Option queue_t,
      divide_walk (Mem.mk m.ele qs) (to_size_t (Int.tdiv A.size 2)) A.head = .error .fault ∨
      divide_walk (Mem.mk m.ele qs) (to_size_t (Int.tdiv A.size 2)) A.head = .ok none := by
    intro qs
    have hc' : Chain (Mem.mk m.ele qs) A.head ps := Seg.congr (m := m) (fun p _ => rfl) hc
    rcases Nat.lt_or_ge ps.length (to_size_t (Int.tdiv A.size 2) - 1) with hlt | hge
    · left
      have := divide_walk_fault ps A.head (to_size_t (Int.tdiv A.size 2) - 1) hc' hlt
      have hi : to_size_t (Int.tdiv A.size 2) - 1 + 1 = to_size_t (Int.tdiv A.size 2) := by
        omega
      rw [hi] at this
      exact this
    · right
      exact divide_walk_ok hc' (by omega)
  simp only [divide, rdQ, hqa, hqb, wrSize, wrTail, bind, Except.bind, Function.update_apply,
    hab, hba, if_true, if_false]
  rcases hwalk (Function.update (Function.update m.que b
      (some { head := B.head, tail := B.tail, size := A.size.tdiv 2 })) b
      (some { head := B.head, tail := A.tail, size := A.size.tdiv 2 })) with h | h
  · rw [h]
  · rw [h]; rfl

theorem divide_spec {m : Mem} {a b : Nat} {A B : queue_t} {ps : List Nat}
    (hqa : m.que a = some A) (hqb : m.que b = some B) (hab : a ≠ b)
    (hc : Chain m A.head ps) (hk : to_size_t (Int.tdiv A.size 2) - 1 < ps.length) :
    ∃ m' hB, divide m a b = .ok m' ∧
      m'.que a = some { head := A.head,
                        tail := tailSlot a (ps.take (to_size_t (Int.tdiv A.size 2) - 1 + 1)),
                        size := A.size - Int.tdiv A.size 2 } ∧
      m'.que b = some { head := hB, tail := A.tail, size := Int.tdiv A.size 2 } ∧
      Chain m' A.head (ps.take (to_size_t (Int.tdiv A.size 2) - 1 + 1)) ∧
      Chain m' hB (ps.drop (to_size_t (Int.tdiv A.size 2) - 1 + 1)) ∧
      (∀ r, r ≠ a → r ≠ b → m'.que r = m.que r) ∧
      (∀ p, p ∉ ps → m'.ele p = m.ele p) ∧
      (∀ p, (m'.ele p).map (fun e => e.value) = (m.ele p).map (fun e => e.value)) := by
  generalize hkk : to_size_t (Int.tdiv A.size 2) - 1 = k at hk ⊢
  have hnd := Chain.nodup hc
  have hsplit : ps = ps.take k ++ ps[k] :: ps.drop (k + 1) := by
    rw [← List.drop_eq_getElem_cons hk]; exact (List.take_append_drop k ps).symm
  have htake : ps.take (k + 1) = ps.take k ++ [ps[k]] := by
    rw [List.take_succ]; simp [List.getElem?_eq_getElem hk]
  generalize hcdef : ps[k] = c at hsplit htake
  have hcmem : c ∈ ps := by rw [hsplit]; simp
  obtain ⟨ec, hec⟩ := Seg.alloc hc c hcmem
  have hlen : (ps.take k).length = k := by simp; omega
  rw [hsplit] at hc hnd
  have hrun := divide_eq hqa hqb hab hc hec (by rw [hkk, hlen])
  obtain ⟨u, h1, h2⟩ := Seg.append.mp hc
  obtain ⟨hu, ec', hec', hrest⟩ := h2
  rw [hec] at hec'; cases hec'
  have hc_take : c ∉ ps.take k := fun h =>
    (List.nodup_append.mp hnd).2.2 h (List.mem_cons_self _ _)
  have hc_drop : c ∉ ps.drop (k + 1) :=
    (List.nodup_cons.mp (List.nodup_append.mp hnd).2.1).1
  refine ⟨_, ec.next, hrun, ?_, ?_, ?_, ?_, ?_, ?_, ?_⟩
  · simp [allocQue, allocEle, htake, tailSlot, lastSlot_concat]
  · have hba : b ≠ a := fun h => hab h.symm
    simp [allocQue, allocEle, Function.update_apply, hba]
  · rw [htake]
    refine Seg.append.mpr ⟨u, Seg.congr (m := m) (fun x hx => ?_) h1, hu,
      { ec with next := none }, ?_, rfl⟩
    · have : x ≠ c := fun h => hc_take (h ▸ hx)
      simp [allocQue, allocEle, Function.update_apply, this]
    · simp [allocQue, allocEle]
  · refine Seg.congr (m := m) (fun x hx => ?_) hrest
    have : x ≠ c := fun h => hc_drop (h ▸ hx)
    simp [allocQue, allocEle, Function.update_apply, this]
  · intro r hra hrb; simp [allocQue, allocEle, Function.update_apply, hra, hrb]
  · intro p hp
    have : p ≠ c := fun h => hp (h ▸ hcmem)
    simp [allocQue, allocEle, Function.update_apply, this]
  · intro p
    by_cases hpc : p = c
    · simp [allocQue, allocEle, Function.update_apply, hpc, hec]
    · simp [allocQue, allocEle, Function.update_apply, hpc]


/-! ## `merge` -/

theorem load_head {m : Mem} {q : Nat} {Q : queue_t} (h : m.que q = some Q) :
    load m (.head q) = .ok Q.head := by
  simp [load, rdQ, h, bind, Except.bind, pure, Except.pure]

theorem load_next {m : Mem} {p : Nat} {e : list_ele_t} (h : m.ele p = some e) :
    load m (.next p) = .ok e.next := by
  simp [load, deref, h, bind, Except.bind, pure, Except.pure]

theorem load_next_inv {m : Mem} {p : Nat} {h : Option Nat} (hl : load m (.next p) = .ok h) :
    ∃ e, m.ele p = some e ∧ e.next = h := by
  cases he : m.ele p with
  | none => simp [load, deref, he, bind, Except.bind] at hl
  | some e =>
    rw [load_next he] at hl
    exact ⟨e, rfl, by injection hl⟩

theorem load_head_inv {m : Mem} {q : Nat} {h : Option Nat} (hl : load m (.head q) = .ok h) :
    ∃ Q, m.que q = some Q ∧ Q.head = h := by
  cases hq : m.que q with
  | none => simp [load, rdQ, hq, bind, Except.bind] at hl
  | some Q =>
    rw [load_head hq] at hl
    exact ⟨Q, rfl, by injection hl⟩

theorem merge_loop_exit_a {m : Mem} {a b : Nat} {A : queue_t} (f : Nat)
    (hqa : m.que a = some A) (hl : load m A.tail = .ok none) :
    merge_loop (f + 1) m a b = .ok m := by
  simp [merge_loop, rdQ, hqa, hl, bind, Except.bind, pure, Except.pure]

theorem merge_loop_exit_b {m : Mem} {a b : Nat} {A B : queue_t} {hA : Option Nat} (f : Nat)
    (hqa : m.que a = some A) (hqb : m.que b = some B) (hl : load m A.tail = .ok hA)
    (hb : B.head = none) :
    merge_loop (f + 1) m a b = .ok m := by
  cases hA <;> simp [merge_loop, rdQ, hqa, hqb, hl, hb, bind, Except.bind, pure, Except.pure]

theorem merge_loop_step_le {m : Mem} {a b pa pb : Nat} {A B : queue_t} {ea eb : list_ele_t}
    (f : Nat) (hqa : m.que a = some A) (hqb : m.que b = some B)
    (hl : load m A.tail = .ok (some pa)) (hb : B.head = some pb)
    (hea : m.ele pa = some ea) (heb : m.ele pb = some eb)
    (hle : ¬ strcmp ea.value eb.value > 0) :
    merge_loop (f + 1) m a b = merge_loop f (allocQue m a { A with tail := .next pa }) a b := by
  simp [merge_loop, rdQ, hqa, hqb, hl, hb, deref, hea, heb, hle, addrOf, wrTail, bind,
    Except.bind, pure, Except.pure, allocQue]

theorem merge_loop_step_gt {m : Mem} {a b pa pb : Nat} {A B : queue_t} {ea eb : list_ele_t}
    (f : Nat) (hab : a ≠ b) (hqa : m.que a = some A) (hqb : m.que b = some B)
    (ht : A.tail = .head a ∨ ∃ p0, A.tail = .next p0)
    (hl : load m A.tail = .ok (some pa)) (hb : B.head = some pb)
    (hea : m.ele pa = some ea) (heb : m.ele pb = some eb)
    (htb : A.tail ≠ .next pb)
    (hgt : strcmp ea.value eb.value > 0) :
    ∃ M A2, merge_loop (f + 1) m a b = merge_loop f M a b ∧
      M.que a = some A2 ∧ A2.tail = .next pb ∧ A2.size = A.size ∧
      (A.tail ≠ .head a → A2.head = A.head) ∧
      M.que b = some { B with head := eb.next } ∧
      load M A.tail = .ok (some pb) ∧
      M.ele pb = some { eb with next := some pa } ∧
      (∀ p, p ≠ pb → A.tail ≠ .next p → M.ele p = m.ele p) ∧
      (∀ p, (M.ele p).map (fun e => e.value) = (m.ele p).map (fun e => e.value)) ∧
      (∀ r, r ≠ a → r ≠ b → M.que r = m.que r) := by
  have hba : b ≠ a := fun h => hab h.symm
  rcases ht with ht | ⟨p0, ht⟩
  · rw [ht] at hl
    obtain ⟨A0, hA0, hAh⟩ := load_head_inv hl
    rw [hqa] at hA0; cases hA0
    refine ⟨allocQue (allocEle (allocQue m b { B with head := eb.next }) pb
        { eb with next := some pa }) a { head := some pb, tail := .next pb, size := A.size },
      _, ?_, Function.update_same _ _ _, rfl, rfl, ?_, ?_, ?_, ?_, ?_, ?_, ?_⟩
    · simp [merge_loop, rdQ, hqa, hqb, ht, load, store, hAh, hb, deref, hea, heb, hgt, addrOf,
        wrTail, wrHead, wrNext, bind, Except.bind, pure, Except.pure, allocQue, allocEle,
        Function.update_apply, hab, hba]
    · intro h; exact absurd ht h
    · simp [allocQue, allocEle, Function.update_apply, hba]
    · rw [ht]; simp [load, rdQ, allocQue, allocEle, bind, Except.bind, pure, Except.pure]
    · simp [allocQue, allocEle]
    · intro p hp _; simp [allocQue, allocEle, Function.update_apply, hp]
    · intro p
      by_cases hp : p = pb
      · simp [allocQue, allocEle, Function.update_apply, hp, heb]
      · simp [allocQue, allocEle, Function.update_apply, hp]
    · intro r hra hrb; simp [allocQue, allocEle, Function.update_apply, hra, hrb]
  · rw [ht] at hl htb
    obtain ⟨e0, he0, he0n⟩ := load_next_inv hl
    have hp0 : p0 ≠ pb := fun h => htb (by rw [h])
    have hp0' : pb ≠ p0 := fun h => hp0 h.symm
    refine ⟨allocQue (allocEle (allocEle (allocQue m b { B with head := eb.next }) pb
        { eb with next := some pa }) p0 { e0 with next := some pb }) a
        { A with tail := .next pb },
      _, ?_, Function.update_same _ _ _, rfl, rfl, ?_, ?_, ?_, ?_, ?_, ?_, ?_⟩
    · simp [merge_loop, rdQ, hqa, hqb, ht, load, store, he0, he0n, hb, deref, hea, heb, hgt,
        addrOf, wrTail, wrHead, wrNext, bind, Except.bind, pure, Except.pure, allocQue,
        allocEle, Function.update_apply, hab, hba, hp0, hp0']
    · intro _; rfl
    · simp [allocQue, allocEle, Function.update_apply, hba]
    · rw [ht]; simp [load, deref, allocQue, allocEle, bind, Except.bind, pure, Except.pure]
    · simp [allocQue, allocEle, Function.update_apply, hp0']
    · intro p hp hpt
      have : p ≠ p0 := fun h => hpt (by rw [ht, h])
      simp [allocQue, allocEle, Function.update_apply, hp, this]
    · intro p
      by_cases hp : p = pb
      · simp [allocQue, allocEle, Function.update_apply, hp, heb, hp0']
      · by_cases hp2 : p = p0
        · simp [allocQue, allocEle, Function.update_apply, hp2, he0]
        · simp [allocQue, allocEle, Function.update_apply, hp, hp2]
    · intro r hra hrb; simp [allocQue, allocEle, Function.update_apply, hra, hrb]


theorem val_of_same {m M : Mem} {val : Nat → List Nat}
    (hv : ∀ p, (M.ele p).map (fun e => e.value) = (m.ele p).map (fun e => e.value))
    (hval : ∀ p e, m.ele p = some e → e.value = val p) :
    ∀ p e, M.ele p = some e → e.value = val p := by
  intro p e he
  have h := hv p
  rw [he] at h
  cases hm : m.ele p with
  | none => rw [hm] at h; simp at h
  | some e0 =>
    rw [hm] at h
    simp at h
    rw [h]; exact hval p e0 hm

/-- The loop of `merge`, from any cursor position: the slot the cursor starts at ends up
heading the linked part `mergePre`, `b` keeps `mergeRest`, and nothing else is touched. -/
theorem merge_loop_spec {a b : Nat} (hab : a ≠ b) (val : Nat → List Nat) :
    ∀ (fuel : Nat) (as bs : List Nat) (m : Mem) (A B : queue_t) (hA : Option Nat),
      m.que a = some A → m.que b = some B →
      (A.tail = .head a ∨ ∃ p0, A.tail = .next p0) →
      load m A.tail = .ok hA →
      (∀ p ∈ as, A.tail ≠ .next p) → (∀ p ∈ bs, A.tail ≠ .next p) →
      Chain m hA as → Chain m B.head bs → (∀ x ∈ as, x ∉ bs) →
      (∀ p e, m.ele p = some e → e.value = val p) →
      match merge_loop fuel m a b with
      | .ok m' => ∃ A' B' h', m'.que a = some A' ∧ m'.que b = some B' ∧
          load m' A.tail = .ok h' ∧ Chain m' h' (mergePre val as bs) ∧
          Chain m' B'.head (mergeRest val as bs) ∧
          (mergeRest val as bs ≠ [] → A'.tail = lastSlot A.tail (mergePre val as bs)) ∧
          A'.size = A.size ∧ (A.tail ≠ .head a → A'.head = A.head) ∧
          B'.tail = B.tail ∧ B'.size = B.size ∧
          (∀ r, r ≠ a → r ≠ b → m'.que r = m.que r) ∧
          (∀ p, p ∉ as → p ∉ bs → A.tail ≠ .next p → m'.ele p = m.ele p) ∧
          (∀ p, (m'.ele p).map (fun e => e.value) = (m.ele p).map (fun e => e.value))
      | .error e => e = .fuel ∧ fuel ≤ as.length + bs.length := by
  intro fuel
  induction fuel with
  | zero =>
    intro as bs m A B hA _ _ _ _ _ _ _ _ _ _
    simp [merge_loop]
  | succ f ih =>
    intro as bs m A B hA hqa hqb ht hl htas htbs hca hcb hdisj hval
    have hba : b ≠ a := fun h => hab h.symm
    match as, bs, hca, hcb, htas, htbs, hdisj with
    | [], bs, hca, hcb, _, _, _ =>
      have hnone : hA = none := hca
      subst hnone
      rw [merge_loop_exit_a f hqa hl]
      refine ⟨A, B, none, hqa, hqb, hl, ?_, ?_, ?_, rfl, fun _ => rfl, rfl, rfl,
        fun _ _ _ => rfl, fun _ _ _ _ => rfl, fun _ => rfl⟩
      · rw [mergePre_nil_left]; rfl
      · rw [mergeRest_nil_left]; exact hcb
      · intro _; rw [mergePre_nil_left]; rfl
    | pa :: as, [], hca, hcb, _, _, _ =>
      have hnone : B.head = none := hcb
      rw [merge_loop_exit_b f hqa hqb hl hnone]
      refine ⟨A, B, hA, hqa, hqb, hl, ?_, ?_, ?_, rfl, fun _ => rfl, rfl, rfl,
        fun _ _ _ => rfl, fun _ _ _ _ => rfl, fun _ => rfl⟩
      · rw [mergePre_nil_right]; exact hca
      · rw [mergeRest_nil_right]; exact hnone
      · intro h; rw [mergeRest_nil_right] at h; exact absurd rfl h
    | pa :: as, pb :: bs, hca, hcb, htas, htbs, hdisj =>
      have hnda := Chain.nodup hca
      have hndb := Chain.nodup hcb
      obtain ⟨hhA, ea, hea, hresta⟩ := id hca
      obtain ⟨hhB, eb, heb, hrestb⟩ := id hcb
      subst hhA
      have hpa_as : pa ∉ as := (List.nodup_cons.mp hnda).1
      have hpb_bs : pb ∉ bs := (List.nodup_cons.mp hndb).1
      have hpab : pa ≠ pb := fun h => hdisj pa (List.mem_cons_self _ _) (h ▸ List.mem_cons_self _ _)
      have hva : ea.value = val pa := hval pa ea hea
      have hvb : eb.value = val pb := hval pb eb heb
      by_cases hgt : strcmp ea.value eb.value > 0
      · -- the head of `b` is spliced in before the cursor
        have hgt' : strcmp (val pa) (val pb) > 0 := by rw [← hva, ← hvb]; exact hgt
        obtain ⟨M, A2, hstep, hMa, hA2t, hA2s, hA2h, hMb, hMl, hMpb, hMe, hMv, hMq⟩ :=
          merge_loop_step_gt f hab hqa hqb ht hl hhB hea heb
            (htbs pb (List.mem_cons_self _ _)) hgt
        rw [hstep]
        have hpb_as : pb ∉ pa :: as := fun h => hdisj pb h (List.mem_cons_self _ _)
        have hMeq_a : ∀ p ∈ pa :: as, M.ele p = m.ele p := fun p hp =>
          hMe p (fun h => hpb_as (h ▸ hp)) (htas p hp)
        have hMeq_b : ∀ p ∈ bs, M.ele p = m.ele p := fun p hp =>
          hMe p (fun h => hpb_bs (h ▸ hp)) (htbs p (List.mem_cons_of_mem _ hp))
        have hIH := ih (pa :: as) bs M A2 { B with head := eb.next } (some pa) hMa hMb
          (Or.inr ⟨pb, hA2t⟩) (by rw [hA2t]; exact load_next hMpb)
          (fun p hp => by rw [hA2t]; intro h; injection h with h; exact hpb_as (h ▸ hp))
          (fun p hp => by rw [hA2t]; intro h; injection h with h; exact hpb_bs (h ▸ hp))
          (Seg.congr hMeq_a hca) (Seg.congr hMeq_b hrestb)
          (fun x hx hxb => hdisj x hx (List.mem_cons_of_mem _ hxb))
          (val_of_same hMv hval)
        revert hIH
        generalize merge_loop f M a b = R
        intro hIH
        cases R with
        | error e =>
          obtain ⟨he, hf⟩ := hIH
          refine ⟨he, ?_⟩
          simp only [List.length_cons] at hf ⊢
          omega
        | ok m' =>
          obtain ⟨A', B', h', hqa', hqb', hl', hpre, hrest, htl, hsz, hhd, hbt, hbs, hfq, hfe,
            hfv⟩ := hIH
          rw [hA2t] at hl' htl hhd hfe
          have hA'h : A'.head = A2.head := hhd (fun h => by cases h)
          obtain ⟨e', he', he'n⟩ := load_next_inv hl'
          have hpre_eq : mergePre val (pa :: as) (pb :: bs) = pb :: mergePre val (pa :: as) bs := by
            rw [mergePre]; simp [hgt']
          have hrest_eq : mergeRest val (pa :: as) (pb :: bs) = mergeRest val (pa :: as) bs := by
            rw [mergeRest]; simp [hgt']
          refine ⟨A', B', some pb, hqa', hqb', ?_, ?_, ?_, ?_, ?_, ?_, ?_, ?_, ?_, ?_, ?_⟩
          · rw [← hMl]
            rcases ht with ht | ⟨p0, ht⟩
            · rw [ht, load_head hqa', load_head hMa, hA'h]
            · rw [ht]
              have hp0 : m'.ele p0 = M.ele p0 := by
                refine hfe p0 (fun h => htas p0 h ht) (fun h => ?_) (fun h => ?_)
                · exact htbs p0 (List.mem_cons_of_mem _ h) ht
                · injection h with h; exact htbs pb (List.mem_cons_self _ _) (by rw [ht, h])
              simp [load, deref, hp0]
          · rw [hpre_eq]
            exact ⟨rfl, e', he', by rw [he'n]; exact hpre⟩
          · rw [hrest_eq]; exact hrest
          · rw [hrest_eq, hpre_eq, lastSlot_cons]; exact htl
          · rw [hsz, hA2s]
          · intro h; rw [hA'h]; exact hA2h h
          · rw [hbt]
          · rw [hbs]
          · intro r hra hrb; rw [hfq r hra hrb]; exact hMq r hra hrb
          · intro p hpa hpb htp
            have hp_pb : p ≠ pb := fun h => hpb (h ▸ List.mem_cons_self _ _)
            rw [hfe p hpa (fun h => hpb (List.mem_cons_of_mem _ h))
              (fun h => by injection h with h; exact hp_pb h.symm)]
            exact hMe p hp_pb htp
          · intro p; rw [hfv p]; exact hMv p
      · -- the cursor moves past the element of `a`
        have hgt' : ¬ strcmp (val pa) (val pb) > 0 := by rw [← hva, ← hvb]; exact hgt
        rw [merge_loop_step_le f hqa hqb hl hhB hea heb hgt]
        have hMa : (allocQue m a { A with tail := .next pa }).que a
            = some { A with tail := .next pa } := Function.update_same _ _ _
        have hMb : (allocQue m a { A with tail := .next pa }).que b = some B := by
          simp [allocQue, Function.update_apply, hba, hqb]
        have hIH := ih as (pb :: bs) (allocQue m a { A with tail := .next pa })
          { A with tail := .next pa } B ea.next hMa hMb
          (Or.inr ⟨pa, rfl⟩) (load_next (m := allocQue m a { A with tail := .next pa }) hea)
          (fun p hp h => by injection h with h; exact hpa_as (h ▸ hp))
          (fun p hp h => by
            injection h with h; exact hdisj pa (List.mem_cons_self _ _) (h ▸ hp))
          (Seg.congr (m := m) (fun _ _ => rfl) hresta)
          (Seg.congr (m := m) (fun _ _ => rfl) hcb)
          (fun x hx hxb => hdisj x (List.mem_cons_of_mem _ hx) hxb)
          hval
        revert hIH
        generalize merge_loop f (allocQue m a { A with tail := .next pa }) a b = R
        intro hIH
        cases R with
        | error e =>
          obtain ⟨he, hf⟩ := hIH
          refine ⟨he, ?_⟩
          simp only [List.length_cons] at hf ⊢
          omega
        | ok m' =>
          obtain ⟨A', B', h', hqa', hqb', hl', hpre, hrest, htl, hsz, hhd, hbt, hbs, hfq, hfe,
            hfv⟩ := hIH
          have hA'h : A'.head = A.head := hhd (fun h => by cases h)
          obtain ⟨e', he', he'n⟩ := load_next_inv hl'
          have hpre_eq : mergePre val (pa :: as) (pb :: bs) = pa :: mergePre val as (pb :: bs) := by
            rw [mergePre]; simp [hgt']
          have hrest_eq : mergeRest val (pa :: as) (pb :: bs) = mergeRest val as (pb :: bs) := by
            rw [mergeRest]; simp [hgt']
          refine ⟨A', B', some pa, hqa', hqb', ?_, ?_, ?_, ?_, hsz, ?_, hbt, hbs, ?_, ?_, hfv⟩
          · rw [← hl]
            rcases ht with ht | ⟨p0, ht⟩
            · rw [ht, load_head hqa', load_head hqa, hA'h]
            · rw [ht]
              have hp0 : m'.ele p0 = m.ele p0 := by
                refine hfe p0 (fun h => htas p0 (List.mem_cons_of_mem _ h) ht)
                  (fun h => htbs p0 h ht) (fun h => ?_)
                injection h with h; exact htas pa (List.mem_cons_self _ _) (by rw [ht, h])
              simp [load, deref, hp0]
          · rw [hpre_eq]
            exact ⟨rfl, e', he', by rw [he'n]; exact hpre⟩
          · rw [hrest_eq]; exact hrest
          · rw [hrest_eq, hpre_eq, lastSlot_cons]; exact htl
          · intro _; exact hA'h
          · intro r hra hrb
            rw [hfq r hra hrb]; simp [allocQue, Function.update_apply, hra]
          · intro p hpa hpb htp
            have hp_pa : p ≠ pa := fun h => hpa (h ▸ List.mem_cons_self _ _)
            exact hfe p (fun h => hpa (List.mem_cons_of_mem _ h)) hpb
              (fun h => by injection h with h; exact hp_pa h.symm)


/-- Writing a chain into the slot that ends another chain of the queue at `a`. -/
theorem link_rest {m : Mem} {a : Nat} {A1 : queue_t} {pre rest : List Nat} {hb : Option Nat}
    (hqa : m.que a = some A1) (hpre : Chain m A1.head pre) (hrest : Chain m hb rest)
    (hdisj : ∀ x ∈ pre, x ∉ rest) :
    ∃ m2 A2, store m (lastSlot (.head a) pre) hb = .ok m2 ∧ m2.que a = some A2 ∧
      Chain m2 A2.head (pre ++ rest) ∧ A2.tail = A1.tail ∧ A2.size = A1.size ∧
      (∀ r, r ≠ a → m2.que r = m.que r) ∧
      (∀ p, p ∉ pre → m2.ele p = m.ele p) ∧
      (∀ p, (m2.ele p).map (fun e => e.value) = (m.ele p).map (fun e => e.value)) := by
  rcases List.eq_nil_or_concat pre with rfl | ⟨init, l, rfl⟩
  · refine ⟨allocQue m a { A1 with head := hb }, _, ?_, Function.update_same _ _ _, ?_, rfl,
      rfl, ?_, fun _ _ => rfl, fun _ => rfl⟩
    · simp [lastSlot, store, wrHead, hqa, allocQue]
    · exact Seg.congr (m := m) (fun _ _ => rfl) hrest
    · intro r hr; simp [allocQue, Function.update_apply, hr]
  · rw [List.concat_eq_append] at hpre hdisj ⊢
    obtain ⟨el, hl⟩ := Seg.alloc hpre l (by simp)
    have hnd := Chain.nodup hpre
    have hl_init : l ∉ init := fun h => (List.nodup_append.mp hnd).2.2 h (by simp)
    have hl_rest : l ∉ rest := hdisj l (by simp)
    refine ⟨allocEle m l { el with next := hb }, A1, ?_, hqa, ?_, rfl, rfl, fun _ _ => rfl,
      ?_, ?_⟩
    · simp [lastSlot_concat, store, wrNext, hl, allocEle]
    · rw [List.append_assoc]
      refine @Chain.link_last m _ A1.head hb init rest l el hpre ?_ ?_ ?_
      · intro x hx
        have : x ≠ l := fun h => hl_init (h ▸ hx)
        simp [allocEle, Function.update_apply, this]
      · simp [allocEle]
      · refine Seg.congr (m := m) (fun x hx => ?_) hrest
        have : x ≠ l := fun h => hl_rest (h ▸ hx)
        simp [allocEle, Function.update_apply, this]
    · intro p hp
      have : p ≠ l := fun h => hp (by simp [h])
      simp [allocEle, Function.update_apply, this]
    · intro p
      by_cases hp : p = l
      · simp [allocEle, Function.update_apply, hp, hl]
      · simp [allocEle, Function.update_apply, hp]

theorem mergeList_nodup (val : Nat → List Nat) {as bs : List Nat} (ha : as.Nodup)
    (hb : bs.Nodup) (hdisj : ∀ x ∈ as, x ∉ bs) : (mergeList val as bs).Nodup :=
  (mergeList_perm val as bs).nodup_iff.mpr (List.nodup_append.mpr ⟨ha, hb, fun _ h1 h2 => hdisj _ h1 h2⟩)

/-- What `merge` does to two disjoint chains: the queue at `a` receives the merged chain,
the sum of the sizes, and the tail cursor of whichever queue supplies the last element. -/
theorem merge_spec {a b : Nat} (hab : a ≠ b) (val : Nat → List Nat) (fuel : Nat) (m : Mem)
    (A B : queue_t) (as bs : List Nat)
    (hqa : m.que a = some A) (hqb : m.que b = some B)
    (hca : Chain m A.head as) (hcb : Chain m B.head bs) (hdisj : ∀ x ∈ as, x ∉ bs)
    (hval : ∀ p e, m.ele p = some e → e.value = val p) :
    outcome (merge fuel m a b)
      (fun m' => ∃ A', m'.que a = some A' ∧ Chain m' A'.head (mergeList val as bs) ∧
        A'.size = A.size + B.size ∧
        A'.tail = (if mergeRest val as bs = [] then A.tail else B.tail) ∧
        (∀ r, r ≠ a → r ≠ b → m'.que r = m.que r) ∧
        (∀ p, p ∉ as → p ∉ bs → m'.ele p = m.ele p) ∧
        (∀ p, (m'.ele p).map (fun e => e.value) = (m.ele p).map (fun e => e.value)))
      (fun e => e = .fuel ∧ fuel ≤ as.length + bs.length) := by
  unfold outcome
  have hba : b ≠ a := fun h => hab h.symm
  have hspec := merge_loop_spec hab val fuel as bs
    (Mem.mk m.ele (Function.update m.que a
      (some { head := A.head, tail := Slot.head a, size := A.size })))
    { head := A.head, tail := Slot.head a, size := A.size } B A.head
    (Function.update_same _ _ _) (by simp [Function.update_apply, hba, hqb]) (Or.inl rfl)
    (by simp [load, rdQ, bind, Except.bind, pure, Except.pure])
    (fun _ _ h => by cases h) (fun _ _ h => by cases h)
    (Seg.congr (m := m) (fun _ _ => rfl) hca) (Seg.congr (m := m) (fun _ _ => rfl) hcb)
    hdisj hval
  simp only [merge, rdQ, hqa, wrTail, bind, Except.bind]
  revert hspec
  generalize merge_loop fuel (Mem.mk m.ele (Function.update m.que a
      (some { head := A.head, tail := Slot.head a, size := A.size }))) a b = R
  intro hspec
  cases R with
  | error e => exact hspec
  | ok m1 =>
    obtain ⟨A1, B1, h1, hqa1, hqb1, hl1, hpre, hrest, htl, hsz, _, hbt, hbs, hfq, hfe, hfv⟩ :=
      hspec
    obtain ⟨A1', hqa1', hA1h⟩ := load_head_inv hl1
    rw [hqa1] at hqa1'; cases hqa1'
    subst hA1h
    have hndl := mergeList_nodup val (Chain.nodup hca) (Chain.nodup hcb) hdisj
    cases hr : mergeRest val as bs with
    | nil =>
      rw [hr] at hrest
      have hB1h : B1.head = none := hrest
      have hml : mergeList val as bs = mergePre val as bs := by simp [mergeList, hr]
      split
      · rename_i x m' heq
        simp [hqb1, hB1h, hqa1, wrSize, Function.update_apply, hba, hsz, hbs] at heq
        subst heq
        refine ⟨_, Function.update_same _ _ _, ?_, rfl, by simp, ?_, ?_, hfv⟩
        · rw [hml]; exact Seg.congr (m := m1) (fun _ _ => rfl) hpre
        · intro r hra hrb
          simp only [Function.update_apply, hra, if_false]
          rw [hfq r hra hrb]; simp [Function.update_apply, hra]
        · intro p hpa hpb
          exact hfe p hpa hpb (fun h => by cases h)
      · rename_i x e heq
        simp [hqb1, hB1h, hqa1, wrSize, Function.update_apply, hba] at heq
    | cons r0 rest =>
      rw [hr] at hrest htl
      have hB1h : B1.head = some r0 := hrest.1
      have hA1t : A1.tail = lastSlot (.head a) (mergePre val as bs) := htl (by simp)
      have hpd : ∀ x ∈ mergePre val as bs, x ∉ r0 :: rest := by
        intro x hx hx2
        have : (mergePre val as bs ++ r0 :: rest).Nodup := by
          rw [← hr]; exact hndl
        exact (List.nodup_append.mp this).2.2 hx hx2
      obtain ⟨m2, A2, hst, hqa2, hch2, hA2t, hA2s, hfq2, hfe2, hfv2⟩ :=
        link_rest hqa1 hpre hrest hpd
      rw [← hA1t] at hst
      have hst' : store m1 A1.tail (some r0) = .ok m2 := by rw [← hB1h]; exact hst
      have hqb2 : m2.que b = some B1 := by rw [hfq2 b hba]; exact hqb1
      have hmem : ∀ p, p ∈ mergePre val as bs → p ∈ as ∨ p ∈ bs := by
        intro p hp
        have : p ∈ mergeList val as bs := by simp [mergeList, hp]
        exact List.mem_append.mp ((mergeList_perm val as bs).mem_iff.mp this)
      split
      · rename_i x m' heq
        simp [hqb1, hB1h, hqa1, hst', hqb2, hqa2, wrSize, Function.update_apply, hba,
          hsz, hbs, hbt, hA2s] at heq
        subst heq
        refine ⟨_, Function.update_same _ _ _, ?_, rfl, by simp, ?_, ?_, ?_⟩
        · have : mergeList val as bs = mergePre val as bs ++ r0 :: rest := by
            simp [mergeList, hr]
          rw [this]; exact Seg.congr (m := m2) (fun _ _ => rfl) hch2
        · intro r hra hrb
          simp only [Function.update_apply, hra, if_false]
          rw [hfq2 r hra, hfq r hra hrb]; simp [Function.update_apply, hra]
        · intro p hpa hpb
          have hpp : p ∉ mergePre val as bs := by
            intro h
            rcases hmem p h with h | h
            · exact hpa h
            · exact hpb h
          show m2.ele p = m.ele p
          rw [hfe2 p hpp]
          exact hfe p hpa hpb (fun h => by cases h)
        · intro p
          show (m2.ele p).map _ = _
          rw [hfv2 p]; exact hfv p
      · rename_i x e heq
        simp [hqb1, hB1h, hqa1, hst', hqb2, hqa2, wrSize, Function.update_apply, hba] at heq


/-! ## `q_sort` -/

theorem cut_facts (s : Int) (n : Nat) (h0 : 0 ≤ s) (h1 : s ≤ (n : Int) + 1) (h2 : 2 ≤ n) :
    to_size_t (Int.tdiv s 2) - 1 + 1 < n ∧
    0 ≤ s - Int.tdiv s 2 ∧
    s - Int.tdiv s 2 ≤ ((to_size_t (Int.tdiv s 2) - 1 + 1 : Nat) : Int) + 1 ∧
    0 ≤ Int.tdiv s 2 ∧
    Int.tdiv s 2 ≤ ((n - (to_size_t (Int.tdiv s 2) - 1 + 1) : Nat) : Int) + 1 := by
  rw [Int.tdiv_eq_ediv h0 (by decide)]
  have h3 : 0 ≤ s / 2 := by omega
  obtain ⟨t, ht⟩ := Int.eq_ofNat_of_zero_le h3
  have hts : to_size_t (s / 2) = t := by
    rw [ht]; simp [to_size_t]
  rw [hts]
  omega

theorem q_sort_base_nil {m : Mem} {q : Nat} {Q : queue_t} (f frame : Nat)
    (hq : m.que q = some Q) (hh : Q.head = none) :
    q_sort (f + 1) frame m (some q) = .ok m := by
  simp [q_sort, rdQ, hq, hh, bind, Except.bind, pure, Except.pure]

theorem q_sort_base_one {m : Mem} {q x : Nat} {Q : queue_t} {e : list_ele_t} (f frame : Nat)
    (hq : m.que q = some Q) (hh : Q.head = some x) (he : m.ele x = some e)
    (hn : e.next = none) :
    q_sort (f + 1) frame m (some q) = .ok m := by
  simp [q_sort, rdQ, hq, hh, deref, he, hn, bind, Except.bind, pure, Except.pure]

theorem q_sort_step {m : Mem} {q x y : Nat} {Q : queue_t} {e : list_ele_t} (f frame : Nat)
    (hq : m.que q = some Q) (hh : Q.head = some x) (he : m.ele x = some e)
    (hn : e.next = some y) :
    q_sort (f + 1) frame m (some q) =
      (do
        let m1 ← divide (allocQue m frame { head := none, tail := .head frame, size := 0 })
          q frame
        let m2 ← q_sort f (frame + 1) m1 (some q)
        let m3 ← q_sort f (frame + 1) m2 (some frame)
        let m4 ← merge f m3 q frame
        pure (freeQue m4 frame)) := by
  simp only [q_sort, rdQ, hq, hh, deref, he, hn, bind, Except.bind, pure, Except.pure]


theorem SortPost.refl (val : Nat → List Nat) (frame : Nat) {m : Mem} {q : Nat} {Q : queue_t}
    {ps : List Nat} (hq : m.que q = some Q) (hc : Chain m Q.head ps) (hlen : ps.length ≤ 1) :
    SortPost val frame m q Q ps m := by
  refine ⟨Q, ps, hq, hc, List.Perm.refl _, ?_, fun _ => rfl, rfl, id, fun _ _ _ => rfl,
    fun _ _ => rfl, fun _ => rfl⟩
  match ps, hlen with
  | [], _ => exact List.Pairwise.nil
  | [x], _ => exact List.pairwise_singleton _ _

theorem outcome_ok {α : Type} (v : α) (post : α → Prop) (err : Abort → Prop) :
    outcome (.ok v) post err = post v := rfl

theorem outcome_error {α : Type} (e : Abort) (post : α → Prop) (err : Abort → Prop) :
    outcome (.error e) post err = err e := rfl

theorem outcome_bind {α β : Type} (x : Run α) (f : α → Run β) (post : β → Prop)
    (err : Abort → Prop) :
    outcome (x >>= f) post err = outcome x (fun v => outcome (f v) post err) err := by
  cases x <;> rfl

theorem outcome_mono {α : Type} {x : Run α} {post post' : α → Prop} {err err' : Abort → Prop}
    (h : outcome x post err) (hp : ∀ v, post v → post' v) (he : ∀ e, err e → err' e) :
    outcome x post' err' := by
  cases x with
  | ok v => exact hp v h
  | error e => exact he e h

theorem q_sort_spec (val : Nat → List Nat) :
    ∀ (fuel : Nat) (ps : List Nat) (frame : Nat) (m : Mem) (q : Nat) (Q : queue_t),
      q < frame → m.que q = some Q → Chain m Q.head ps →
      (∀ p e, m.ele p = some e → e.value = val p) →
      outcome (q_sort fuel frame m (some q)) (SortPost val frame m q Q ps)
        (fun e => 0 ≤ Q.size → Q.size ≤ (ps.length : Int) + 1 →
          e = .fuel ∧ fuel < ps.length + 2) := by
  intro fuel
  induction fuel with
  | zero =>
    intro ps frame m q Q _ _ _ _
    simp [q_sort, outcome]
  | succ f ih =>
    intro ps frame m q Q hqf hq hc hval
    match ps, hc with
    | [], hc =>
      have hh : Q.head = none := hc
      rw [q_sort_base_nil f frame hq hh]
      exact SortPost.refl val frame hq hc (by simp)
    | [x], hc =>
      obtain ⟨hh, e, he, hn⟩ := id hc
      have hn' : e.next = none := hn
      rw [q_sort_base_one f frame hq hh he hn']
      exact SortPost.refl val frame hq hc (by simp)
    | x :: y :: rest, hc =>
      obtain ⟨hh, e, he, hn⟩ := id hc
      have hn' : e.next = some y := hn.1
      rw [q_sort_step f frame hq hh he hn']
      have hne : q ≠ frame := by omega
      have hne' : frame ≠ q := fun h => hne h.symm
      have hM0q : (allocQue m frame { head := none, tail := .head frame, size := 0 }).que q
          = some Q := by
        simp [allocQue, Function.update_apply, hne, hq]
      have hM0b : (allocQue m frame { head := none, tail := .head frame, size := 0 }).que frame
          = some { head := none, tail := .head frame, size := 0 } := Function.update_same _ _ _
      have hM0c : Chain (allocQue m frame { head := none, tail := .head frame, size := 0 })
          Q.head (x :: y :: rest) := Seg.congr (m := m) (fun _ _ => rfl) hc
      have hnd := Chain.nodup hc
      rcases Nat.lt_or_ge (to_size_t (Int.tdiv Q.size 2) - 1) (x :: y :: rest).length
        with hk | hk
      · obtain ⟨m1, hB, hdiv, hq1, hb1, hcA, hcB, hfq1, hfe1, hfv1⟩ :=
          divide_spec hM0q hM0b hne hM0c hk
        rw [hdiv, outcome_bind, outcome_ok, outcome_bind]
        generalize hkdef : to_size_t (Int.tdiv Q.size 2) - 1 + 1 = k at hq1 hcA hcB
        have hk1 : 1 ≤ k := by omega
        have hk2 : k ≤ (x :: y :: rest).length := by omega
        have hsplit : (x :: y :: rest) = (x :: y :: rest).take k ++ (x :: y :: rest).drop k :=
          (List.take_append_drop k _).symm
        generalize hpsA : (x :: y :: rest).take k = psA at hq1 hcA hsplit
        generalize hpsB : (x :: y :: rest).drop k = psB at hcB hsplit
        have hlenA : psA.length = k := by rw [← hpsA, List.length_take]; omega
        have hlen : (x :: y :: rest).length = psA.length + psB.length := by
          rw [hsplit, List.length_append]
        rw [hsplit] at hnd
        have hdisjAB : ∀ p ∈ psA, p ∉ psB := fun p h1 h2 => (List.nodup_append.mp hnd).2.2 h1 h2
        have hval1 : ∀ p e, m1.ele p = some e → e.value = val p := val_of_same hfv1 hval
        refine outcome_mono (ih psA (frame + 1) m1 q _ (by omega) hq1 hcA hval1) ?_ ?_
        · intro m2 hpostA
          obtain ⟨QA, psA', hq2, hcA', hpermA, hsortA, hfiltA, hsizeA, htailA, hfq2, hfe2,
            hfv2⟩ := hpostA
          rw [outcome_bind]
          have hb2 : m2.que frame = some { head := hB, tail := Q.tail, size := Q.size.tdiv 2 } := by
            rw [hfq2 frame (by omega) hne']; exact hb1
          have hcB2 : Chain m2 hB psB :=
            Seg.congr (fun p hp => hfe2 p (fun h => hdisjAB p h hp)) hcB
          have hval2 : ∀ p e, m2.ele p = some e → e.value = val p := val_of_same hfv2 hval1
          refine outcome_mono (ih psB (frame + 1) m2 frame _ (by omega) hb2 hcB2 hval2) ?_ ?_
          · intro m3 hpostB
            obtain ⟨QB, psB', hb3, hcB', hpermB, hsortB, hfiltB, hsizeB, htailB, hfq3, hfe3,
              hfv3⟩ := hpostB
            rw [outcome_bind]
            have hq3 : m3.que q = some QA := by rw [hfq3 q (by omega) hne]; exact hq2
            have hcA3 : Chain m3 QA.head psA' :=
              Seg.congr (fun p hp => hfe3 p (fun h => hdisjAB p (hpermA.mem_iff.mp hp) h)) hcA'
            have hval3 : ∀ p e, m3.ele p = some e → e.value = val p := val_of_same hfv3 hval2
            have hdisj' : ∀ p ∈ psA', p ∉ psB' := fun p h1 h2 =>
              hdisjAB p (hpermA.mem_iff.mp h1) (hpermB.mem_iff.mp h2)
            have hm := merge_spec hne val f m3 QA QB psA' psB' hq3 hb3 hcA3 hcB' hdisj' hval3
            refine outcome_mono hm ?_ ?_
            · intro m4 hpostM
              obtain ⟨A', hq4, hc4, hsz4, htl4, hfq4, hfe4, hfv4⟩ := hpostM
              show SortPost val frame m q Q (x :: y :: rest) (freeQue m4 frame)
              rw [hsplit]
              refine ⟨A', mergeList val psA' psB', ?_, Seg.congr (m := m4) (fun _ _ => rfl) hc4,
                ?_, mergeList_sorted val _ _ hsortA hsortB, ?_, ?_, ?_, ?_, ?_, ?_⟩
              · simp [freeQue, Function.update_apply, hne, hq4]
              · exact (mergeList_perm val psA' psB').trans (List.Perm.append hpermA hpermB)
              · intro v
                rw [mergeList_filter val v psA' psB' hsortA, hfiltA v, hfiltB v,
                  List.filter_append]
              · rw [hsz4, hsizeA, hsizeB]; simp
              · intro hQt
                rw [htl4]
                have htA : QA.tail = tailSlot q psA' := htailA rfl
                by_cases hr : mergeRest val psA' psB' = []
                · rw [if_pos hr, htA]
                  exact (mergeRest_eq_nil_lastSlot val (.head q) psA' psB' hr).symm
                · rw [if_neg hr]
                  have hB'ne : psB' ≠ [] := by
                    intro h; rw [h, mergeRest_nil_right] at hr; exact hr rfl
                  have hBne : psB ≠ [] := by
                    intro h; rw [h] at hpermB; exact hB'ne (List.perm_nil.mp hpermB)
                  obtain ⟨b0, psB0, hBeq⟩ := List.exists_cons_of_ne_nil hBne
                  have hQB : QB.tail = tailSlot frame psB' := by
                    apply htailB
                    show Q.tail = tailSlot frame psB
                    rw [hQt, hBeq]
                    simp only [tailSlot]
                    rw [lastSlot_append_cons, lastSlot_cons]
                  rw [hQB]
                  exact (mergeRest_ne_nil_lastSlot val (.head q) (.head frame) psA' psB' hr).symm
              · intro r hr hrq
                have hrf : r ≠ frame := by omega
                show (freeQue m4 frame).que r = m.que r
                simp only [freeQue, Function.update_apply, hrf, if_false]
                rw [hfq4 r hrq hrf, hfq3 r (by omega) hrf, hfq2 r (by omega) hrq,
                  hfq1 r hrq hrf]
                simp [allocQue, Function.update_apply, hrf]
              · intro p hp
                have hpA : p ∉ psA := fun h => hp (List.mem_append_left _ h)
                have hpB : p ∉ psB := fun h => hp (List.mem_append_right _ h)
                show m4.ele p = m.ele p
                rw [hfe4 p (fun h => hpA (hpermA.mem_iff.mp h))
                  (fun h => hpB (hpermB.mem_iff.mp h)), hfe3 p hpB, hfe2 p hpA,
                  hfe1 p (by rw [hsplit]; exact hp)]
                rfl
              · intro p
                show (m4.ele p).map _ = _
                rw [hfv4 p, hfv3 p, hfv2 p, hfv1 p]; rfl
            · intro e hE h0 h1
              obtain ⟨he1, hf⟩ := hE
              refine ⟨he1, ?_⟩
              have h3 := hpermA.length_eq
              have h4 := hpermB.length_eq
              omega
          · intro e hE h0 h1
            have hcf := cut_facts Q.size _ h0 h1 (by simp)
            rw [hkdef] at hcf
            obtain ⟨he1, hf⟩ := hE hcf.2.2.2.1 (by
              have : psB.length = (x :: y :: rest).length - k := by omega
              rw [this]; exact hcf.2.2.2.2)
            refine ⟨he1, ?_⟩
            omega
        · intro e hE h0 h1
          have hcf := cut_facts Q.size _ h0 h1 (by simp)
          rw [hkdef] at hcf
          obtain ⟨he1, hf⟩ := hE hcf.2.1 (by rw [hlenA]; exact hcf.2.2.1)
          refine ⟨he1, ?_⟩
          omega
      · rw [divide_fault hM0q hM0b hne hM0c hk, outcome_bind, outcome_error]
        intro h0 h1
        have := (cut_facts Q.size _ h0 h1 (by simp)).1
        omega


/-! ## Facts shared by the claims -/

theorem valOf_spec (m : Mem) : ∀ p e, m.ele p = some e → e.value = valOf m p := by
  intro p e he
  simp [valOf, he]

theorem valOf_congr {m m' : Mem}
    (h : ∀ p, (m'.ele p).map (fun e => e.value) = (m.ele p).map (fun e => e.value)) :
    ∀ p, valOf m' p = valOf m p := by
  intro p
  have hp := h p
  unfold valOf
  cases h1 : m'.ele p <;> cases h2 : m.ele p <;> rw [h1, h2] at hp <;> simp at hp ⊢
  exact hp

theorem strings_congr {m m' : Mem} (ps : List Nat)
    (h : ∀ p, (m'.ele p).map (fun e => e.value) = (m.ele p).map (fun e => e.value)) :
    strings m' ps = strings m ps := by
  unfold strings
  exact List.map_congr_left (fun p _ => valOf_congr h p)

theorem sampleMem_wf : WellFormed sampleMem 0 [1, 2, 3] := by decide

/-- On a queue whose size field is at most one more than its number of elements, `q_sort`
returns when given enough steps, and establishes `SortPost`. -/
theorem q_sort_total {m : Mem} {q frame fuel : Nat} {Q : queue_t} {ps : List Nat}
    (hframe : q < frame) (hq : m.que q = some Q) (hc : Chain m Q.head ps)
    (h0 : 0 ≤ Q.size) (h1 : Q.size ≤ (ps.length : Int) + 1) (hfuel : ps.length + 2 ≤ fuel) :
    ∃ m', q_sort fuel frame m (some q) = .ok m' ∧ SortPost (valOf m) frame m q Q ps m' := by
  have h := q_sort_spec (valOf m) fuel ps frame m q Q hframe hq hc (valOf_spec m)
  cases hr : q_sort fuel frame m (some q) with
  | ok m' => rw [hr] at h; exact ⟨m', rfl, h⟩
  | error e =>
    rw [hr] at h
    have := (h h0 h1).2
    omega

theorem q_sort_small {m : Mem} {q : Nat} {Q : queue_t} {ps : List Nat} (f frame : Nat)
    (hq : m.que q = some Q) (hc : Chain m Q.head ps) (hlen : ps.length ≤ 1) :
    q_sort (f + 1) frame m (some q) = .ok m := by
  match ps, hc, hlen with
  | [], hc, _ => exact q_sort_base_nil f frame hq hc
  | [x], hc, _ =>
    obtain ⟨hh, e, he, hn⟩ := id hc
    exact q_sort_base_one f frame hq hh he hn


/-! ## Claims -/

/-- C1: for every well-formed queue, of any length, `q_sort` returns (given a step budget of
at least the length plus two, and stack frames placed above the queue record) and leaves a
well-formed queue whose head-to-tail sequence of strings is non-decreasing under `strcmp` and
is a permutation of the sequence before the call; a queue of 0 or 1 elements is left
unchanged (the whole memory is the same). -/
theorem q_sort_sorted_perm (m : Mem) (q frame fuel : Nat) (ps : List Nat)
    (hwf : WellFormed m q ps) (hframe : q < frame) (hfuel : ps.length + 2 ≤ fuel) :
    ∃ m' ps', q_sort fuel frame m (some q) = .ok m' ∧ WellFormed m' q ps' ∧
      Sorted (strings m' ps') ∧ (strings m' ps').Perm (strings m ps) ∧
      (ps.length ≤ 1 → m' = m) := by
  obtain ⟨⟨Q, hq, hc⟩, ⟨Q1, hq1, hsz, hmax⟩, ⟨Q2, hq2, htl⟩⟩ := hwf
  rw [hq] at hq1 hq2; cases hq1; cases hq2
  obtain ⟨m', hrun, Q', ps', hq', hc', hperm, hsort, _, hsize, htail, _, _, hfv⟩ :=
    q_sort_total hframe hq hc (by omega) (by omega) hfuel
  have hstr : strings m' ps' = ps'.map (valOf m) := strings_congr ps' hfv
  refine ⟨m', ps', hrun, ⟨⟨Q', hq', hc'⟩, ⟨Q', hq', ?_, ?_⟩, ⟨Q', hq', htail htl⟩⟩, ?_, ?_, ?_⟩
  · rw [hsize, hsz, hperm.length_eq]
  · rw [hsize]; exact hmax
  · rw [hstr]; exact hsort
  · rw [hstr]; exact hperm.map _
  · intro hlen
    obtain ⟨f, rfl⟩ : ∃ f, fuel = f + 1 := ⟨fuel - 1, by omega⟩
    rw [q_sort_small f frame hq hc hlen] at hrun
    injection hrun with h
    exact h.symm

theorem q_sort_sorted_perm_witness :
    ∃ m' ps', q_sort 5 1 sampleMem (some 0) = .ok m' ∧ WellFormed m' 0 ps' ∧
      Sorted (strings m' ps') ∧ (strings m' ps').Perm (strings sampleMem [1, 2, 3]) ∧
      ([1, 2, 3].length ≤ 1 → m' = sampleMem) :=
  q_sort_sorted_perm sampleMem 0 1 5 [1, 2, 3] sampleMem_wf (by decide) (by decide)

/-- C2: `q_sort` is stable.  For every well-formed queue with chain `ps` (the elements by
address, so by identity), and every two elements `x`, `y` holding equal strings with `x`
before `y` in the chain before the call, `x` is still before `y` in the chain `ps'` after
the call; `ps'` consists of the same elements. -/
theorem q_sort_stable (m : Mem) (q frame fuel : Nat) (ps : List Nat)
    (hwf : WellFormed m q ps) (hframe : q < frame) (hfuel : ps.length + 2 ≤ fuel) :
    ∃ m' ps', q_sort fuel frame m (some q) = .ok m' ∧ IsQueue m' q ps' ∧ ps'.Perm ps ∧
      ∀ x y, valOf m x = valOf m y → List.Sublist [x, y] ps → List.Sublist [x, y] ps' := by
  obtain ⟨⟨Q, hq, hc⟩, ⟨Q1, hq1, hsz⟩, _⟩ := hwf
  rw [hq] at hq1; cases hq1
  obtain ⟨m', hrun, Q', ps', hq', hc', hperm, _, hfilt, _, _, _, _, _⟩ :=
    q_sort_total hframe hq hc (by omega) (by omega) hfuel
  refine ⟨m', ps', hrun, ⟨Q', hq', hc'⟩, hperm, ?_⟩
  intro x y hxy hsub
  have h1 := hsub.filter (fun p => decide (valOf m p = valOf m x))
  rw [← hfilt (valOf m x)] at h1
  have h2 : [x, y].filter (fun p => decide (valOf m p = valOf m x)) = [x, y] := by
    simp [List.filter_cons, hxy]
  rw [h2] at h1
  exact h1.trans (List.filter_sublist _)

theorem q_sort_stable_witness :
    ∃ m' ps', q_sort 5 1 sampleMem (some 0) = .ok m' ∧ IsQueue m' 0 ps' ∧
      ps'.Perm [1, 2, 3] ∧
      ∀ x y, valOf sampleMem x = valOf sampleMem y → List.Sublist [x, y] [1, 2, 3] →
        List.Sublist [x, y] ps' :=
  q_sort_stable sampleMem 0 1 5 [1, 2, 3] sampleMem_wf (by decide) (by decide)


theorem q_insert_head_fail (m : Mem) (q : Option Nat) (s : List Nat) (newh : Option Nat)
    (valueOk : Bool) (h : q = none ∨ newh = none ∨ valueOk = false) :
    q_insert_head m q s newh valueOk = .ok (m, false) := by
  cases q <;> cases newh <;> cases valueOk <;> simp [q_insert_head, pure, Except.pure] at h ⊢

theorem q_insert_tail_fail (m : Mem) (q : Option Nat) (s : List Nat) (newt : Option Nat)
    (valueOk : Bool) (h : q = none ∨ newt = none ∨ valueOk = false) :
    q_insert_tail m q s newt valueOk = .ok (m, false) := by
  cases q <;> cases newt <;> cases valueOk <;> simp [q_insert_tail, pure, Except.pure] at h ⊢

theorem q_remove_head_empty {m : Mem} {q : Nat} {Q : queue_t} (sp : Option (List Nat))
    (bufsize : Nat) (hq : m.que q = some Q) (hh : Q.head = none) :
    q_remove_head m (some q) sp bufsize = .ok (m, sp, false) := by
  simp [q_remove_head, rdQ, hq, hh, bind, Except.bind, pure, Except.pure]

/-- Either outcome of the two allocations of an insertion: a failed allocation, or a fresh
address for the element. -/
theorem alloc_cases (newh : Option Nat) (valueOk : Bool) :
    (newh = none ∨ valueOk = false) ∨ ∃ p, newh = some p ∧ valueOk = true := by
  cases newh with
  | none => exact Or.inl (Or.inl rfl)
  | some p =>
    cases valueOk with
    | false => exact Or.inl (Or.inr rfl)
    | true => exact Or.inr ⟨p, rfl, rfl⟩


/-- Within the range of the counter the size invariant is kept: for every queue whose chain
from `head` is null-terminated and whose size field equals the number of elements, the same
holds after `q_remove_head`, `q_reverse` and `q_sort` return, whatever the buffer or the tail
cursor, and after `q_insert_head` and `q_insert_tail` return provided the queue holds fewer
than `INT_MAX` elements before the call (for `q_insert_tail`, which links the new element
through the tail cursor, the cursor being on the `next` slot of the last element).  Each
call is shown to return. -/
theorem size_invariant_in_range (m : Mem) (q : Nat) (ps : List Nat)
    (hq : IsQueue m q ps) (hs : SizeInv m q ps) :
    (∀ s newh valueOk, (ps.length : Int) < INT_MAX → (∀ p, newh = some p → m.ele p = none) →
      ∃ m' b ps', q_insert_head m (some q) s newh valueOk = .ok (m', b) ∧
        IsQueue m' q ps' ∧ SizeInv m' q ps') ∧
    (TailInv m q ps → ∀ s newt valueOk, (ps.length : Int) < INT_MAX →
      (∀ p, newt = some p → m.ele p = none) →
      ∃ m' b ps', q_insert_tail m (some q) s newt valueOk = .ok (m', b) ∧
        IsQueue m' q ps' ∧ SizeInv m' q ps') ∧
    (∀ sp bufsize, ∃ m' sp' b ps', q_remove_head m (some q) sp bufsize = .ok (m', sp', b) ∧
        IsQueue m' q ps' ∧ SizeInv m' q ps') ∧
    (∀ fuel, ps.length < fuel → ∃ m' ps', q_reverse fuel m (some q) = .ok m' ∧
        IsQueue m' q ps' ∧ SizeInv m' q ps') ∧
    (∀ fuel frame, q < frame → ps.length + 2 ≤ fuel →
      ∃ m' ps', q_sort fuel frame m (some q) = .ok m' ∧
        IsQueue m' q ps' ∧ SizeInv m' q ps' ∧ ps'.length = ps.length) := by
  obtain ⟨Q, hQ, hc⟩ := hq
  obtain ⟨Q1, hQ1, hsz, hmax⟩ := hs
  rw [hQ] at hQ1; cases hQ1
  refine ⟨?_, ?_, ?_, ?_, ?_⟩
  · intro s newh valueOk hlt hf
    rcases alloc_cases newh valueOk with hfail | ⟨p, rfl, rfl⟩
    · exact ⟨m, false, ps, q_insert_head_fail m _ s newh valueOk (Or.inr hfail),
        ⟨Q, hQ, hc⟩, ⟨Q, hQ, hsz, hmax⟩⟩
    · obtain ⟨m', Q', hrun, hq', hc', hsize, _, _, _, _⟩ :=
        q_insert_head_spec s hQ hc (hf p rfl)
      obtain ⟨h1, h2⟩ := to_int_succ hsz hlt
      refine ⟨m', true, p :: ps, hrun, ⟨Q', hq', hc'⟩, ⟨Q', hq', ?_, ?_⟩⟩
      · rw [hsize, h1]; rfl
      · rw [hsize]; exact h2
  · rintro ⟨Q2, hQ2, ht⟩ s newt valueOk hlt hf
    rw [hQ] at hQ2; cases hQ2
    rcases alloc_cases newt valueOk with hfail | ⟨p, rfl, rfl⟩
    · exact ⟨m, false, ps, q_insert_tail_fail m _ s newt valueOk (Or.inr hfail),
        ⟨Q, hQ, hc⟩, ⟨Q, hQ, hsz, hmax⟩⟩
    · obtain ⟨m', Q', hrun, hq', hc', hsize, _, _, _, _⟩ :=
        q_insert_tail_spec s hQ hc ht (hf p rfl)
      obtain ⟨h1, h2⟩ := to_int_succ hsz hlt
      refine ⟨m', true, ps ++ [p], hrun, ⟨Q', hq', hc'⟩, ⟨Q', hq', ?_, ?_⟩⟩
      · rw [hsize, h1]; simp
      · rw [hsize]; exact h2
  · intro sp bufsize
    cases ps with
    | nil =>
      exact ⟨m, sp, false, [], q_remove_head_empty sp bufsize hQ hc, ⟨Q, hQ, hc⟩,
        ⟨Q, hQ, hsz, hmax⟩⟩
    | cons r ps =>
      obtain ⟨m', Q', e, _, hrun, hq', hc', hsize, _, _, _, _⟩ :=
        q_remove_head_spec sp bufsize hQ hc
      obtain ⟨h1, h2⟩ := to_int_pred hsz hmax
      refine ⟨m', _, true, ps, hrun, ⟨Q', hq', hc'⟩, ⟨Q', hq', ?_, ?_⟩⟩
      · rw [hsize, h1]
      · rw [hsize]; exact h2
  · intro fuel hfuel
    obtain ⟨m', Q', hrun, hq', hc', hsize, _, _, _, _, _, _⟩ := q_reverse_spec hQ hc hfuel
    refine ⟨m', ps.reverse, hrun, ⟨Q', hq', hc'⟩, ⟨Q', hq', ?_, ?_⟩⟩
    · rw [hsize, hsz]; simp
    · rw [hsize]; exact hmax
  · intro fuel frame hframe hfuel
    obtain ⟨m', hrun, Q', ps', hq', hc', hperm, _, _, hsize, _, _, _, _⟩ :=
      q_sort_total hframe hQ hc (by omega) (by omega) hfuel
    refine ⟨m', ps', hrun, ⟨Q', hq', hc'⟩, ⟨Q', hq', ?_, ?_⟩, hperm.length_eq⟩
    · rw [hsize, hsz, hperm.length_eq]
    · rw [hsize]; exact hmax


theorem strings_of_same {m m' : Mem} {ps : List Nat} {p : Nat}
    (hp : ∀ x ∈ ps, x ≠ p)
    (h : ∀ x, x ≠ p → (m'.ele x).map (fun e => e.value) = (m.ele x).map (fun e => e.value)) :
    strings m' ps = strings m ps := by
  unfold strings
  refine List.map_congr_left (fun x hx => ?_)
  have hx' := h x (hp x hx)
  unfold valOf
  cases h1 : m'.ele x <;> cases h2 : m.ele x <;> rw [h1, h2] at hx' <;> simp at hx' ⊢
  exact hx'

/-- C4 (tail-cursor invariant): `q_new` yields `head = NULL` with the tail cursor designating
the head slot, and for every queue with a null-terminated chain whose tail cursor designates
the `next` slot of its last element (the head slot when empty), the same holds after
`q_insert_head`, `q_insert_tail`, `q_remove_head`, `q_reverse` and `q_sort` return; a
successful `q_insert_tail` on such a queue places the new element, with its string, last in
head-to-tail order.  All calls are shown to return; for `q_sort`, whose walk in `divide` is
driven by the size field, the invariant is shown after every return, and the return itself
for queues whose size field equals the number of elements. -/
theorem tail_cursor_invariant (m : Mem) (q : Nat) (ps : List Nat)
    (hq : IsQueue m q ps) (ht : TailInv m q ps) :
    (∀ m0 a, (q_new m0 (some a)).2 = some a ∧
      (q_new m0 (some a)).1.que a = some { head := none, tail := .head a, size := 0 } ∧
      IsQueue (q_new m0 (some a)).1 a [] ∧ TailInv (q_new m0 (some a)).1 a []) ∧
    (∀ s newh valueOk, (∀ p, newh = some p → m.ele p = none) →
      ∃ m' b ps', q_insert_head m (some q) s newh valueOk = .ok (m', b) ∧
        IsQueue m' q ps' ∧ TailInv m' q ps') ∧
    (∀ s newt valueOk, (∀ p, newt = some p → m.ele p = none) →
      ∃ m' b ps', q_insert_tail m (some q) s newt valueOk = .ok (m', b) ∧
        IsQueue m' q ps' ∧ TailInv m' q ps' ∧
        (b = true → ∃ p, newt = some p ∧ ps' = ps ++ [p] ∧
          strings m' ps' = strings m ps ++ [s])) ∧
    (∀ sp bufsize, ∃ m' sp' b ps', q_remove_head m (some q) sp bufsize = .ok (m', sp', b) ∧
        IsQueue m' q ps' ∧ TailInv m' q ps') ∧
    (∀ fuel, ps.length < fuel → ∃ m' ps', q_reverse fuel m (some q) = .ok m' ∧
        IsQueue m' q ps' ∧ TailInv m' q ps') ∧
    (∀ fuel frame m', q < frame → q_sort fuel frame m (some q) = .ok m' →
      ∃ ps', IsQueue m' q ps' ∧ TailInv m' q ps') ∧
    (SizeInv m q ps → ∀ fuel frame, q < frame → ps.length + 2 ≤ fuel →
      ∃ m', q_sort fuel frame m (some q) = .ok m') := by
  obtain ⟨Q, hQ, hc⟩ := hq
  obtain ⟨Q1, hQ1, htl⟩ := ht
  rw [hQ] at hQ1; cases hQ1
  refine ⟨?_, ?_, ?_, ?_, ?_, ?_, ?_⟩
  · intro m0 a
    have h : (q_new m0 (some a)).1.que a = some { head := none, tail := .head a, size := 0 } :=
      Function.update_same _ _ _
    exact ⟨rfl, h, ⟨_, h, rfl⟩, ⟨_, h, rfl⟩⟩
  · intro s newh valueOk hf
    rcases alloc_cases newh valueOk with hfail | ⟨p, rfl, rfl⟩
    · exact ⟨m, false, ps, q_insert_head_fail m _ s newh valueOk (Or.inr hfail),
        ⟨Q, hQ, hc⟩, ⟨Q, hQ, htl⟩⟩
    · obtain ⟨m', Q', hrun, hq', hc', _, htail, _, _, _⟩ :=
        q_insert_head_spec s hQ hc (hf p rfl)
      exact ⟨m', true, p :: ps, hrun, ⟨Q', hq', hc'⟩, ⟨Q', hq', htail htl⟩⟩
  · intro s newt valueOk hf
    rcases alloc_cases newt valueOk with hfail | ⟨p, rfl, rfl⟩
    · refine ⟨m, false, ps, q_insert_tail_fail m _ s newt valueOk (Or.inr hfail),
        ⟨Q, hQ, hc⟩, ⟨Q, hQ, htl⟩, ?_⟩
      intro h; cases h
    · obtain ⟨m', Q', hrun, hq', hc', _, htail, hp, hfv, _⟩ :=
        q_insert_tail_spec s hQ hc htl (hf p rfl)
      refine ⟨m', true, ps ++ [p], hrun, ⟨Q', hq', hc'⟩, ⟨Q', hq', htail⟩, ?_⟩
      intro _
      refine ⟨p, rfl, rfl, ?_⟩
      have h1 : strings m' ps = strings m ps :=
        strings_of_same (Chain.ne_of_fresh hc (hf p rfl)) hfv
      have h2 : valOf m' p = s := by simp [valOf, hp]
      simp only [strings, List.map_append, List.map_cons, List.map_nil] at h1 ⊢
      rw [h1, h2]
  · intro sp bufsize
    cases ps with
    | nil =>
      exact ⟨m, sp, false, [], q_remove_head_empty sp bufsize hQ hc, ⟨Q, hQ, hc⟩, ⟨Q, hQ, htl⟩⟩
    | cons r ps =>
      obtain ⟨m', Q', e, _, hrun, hq', hc', _, htail, _, _, _⟩ :=
        q_remove_head_spec sp bufsize hQ hc
      exact ⟨m', _, true, ps, hrun, ⟨Q', hq', hc'⟩, ⟨Q', hq', htail htl⟩⟩
  · intro fuel hfuel
    obtain ⟨m', Q', hrun, hq', hc', _, htail, _, _, _, _, _⟩ := q_reverse_spec hQ hc hfuel
    exact ⟨m', ps.reverse, hrun, ⟨Q', hq', hc'⟩, ⟨Q', hq', htail htl⟩⟩
  · intro fuel frame m' hframe hrun
    have h := q_sort_spec (valOf m) fuel ps frame m q Q hframe hQ hc (valOf_spec m)
    rw [hrun] at h
    obtain ⟨Q', ps', hq', hc', _, _, _, _, htail, _, _, _⟩ := h
    exact ⟨ps', ⟨Q', hq', hc'⟩, ⟨Q', hq', htail htl⟩⟩
  · rintro ⟨Q2, hQ2, hsz⟩ fuel frame hframe hfuel
    rw [hQ] at hQ2; cases hQ2
    obtain ⟨m', hrun, _⟩ := q_sort_total hframe hQ hc (by omega) (by omega) hfuel
    exact ⟨m', hrun⟩

theorem tail_cursor_invariant_witness :
    IsQueue sampleMem 0 [1, 2, 3] ∧ TailInv sampleMem 0 [1, 2, 3] ∧
    ∃ m' b ps', q_insert_tail sampleMem (some 0) [120] (some 4) true = .ok (m', b) ∧
      IsQueue m' 0 ps' ∧ TailInv m' 0 ps' ∧
      (b = true → ∃ p, some 4 = some p ∧ ps' = [1, 2, 3] ++ [p] ∧
        strings m' ps' = strings sampleMem [1, 2, 3] ++ [[120]]) :=
  ⟨sampleMem_wf.1, sampleMem_wf.2.2,
    (tail_cursor_invariant sampleMem 0 [1, 2, 3] sampleMem_wf.1 sampleMem_wf.2.2).2.2.1
      [120] (some 4) true (by intro p hp; cases hp; rfl)⟩


theorem none_of_same {m m' : Mem} {x : Nat}
    (h : (m'.ele x).map (fun e => e.value) = (m.ele x).map (fun e => e.value))
    (hx : m.ele x = none) : m'.ele x = none := by
  rw [hx] at h
  cases h1 : m'.ele x with
  | none => rfl
  | some e => rw [h1] at h; simp at h

/-- One successful `q_insert_head` on a queue whose tail cursor is in place: the new element
is first, the cursor stays in place and the counter is incremented as an `int`. -/
theorem q_insert_head_step {m : Mem} {q p : Nat} {Q : queue_t} {ps : List Nat} (s : List Nat)
    (hQ : m.que q = some Q) (hc : Chain m Q.head ps) (htl : Q.tail = tailSlot q ps)
    (hf : m.ele p = none) :
    ∃ m' Q', q_insert_head m (some q) s (some p) true = .ok (m', true) ∧
      m'.que q = some Q' ∧ Chain m' Q'.head (p :: ps) ∧ Q'.tail = tailSlot q (p :: ps) ∧
      Q'.size = to_int (Q.size + 1) ∧ strings m' (p :: ps) = s :: strings m ps ∧
      (∀ x, x ≠ p → m.ele x = none → m'.ele x = none) := by
  obtain ⟨m', Q', hrun, hq', hc', hsize, htail, hp, hfe, _⟩ := q_insert_head_spec s hQ hc hf
  refine ⟨m', Q', hrun, hq', hc', htail htl, hsize, ?_, ?_⟩
  · have h1 : strings m' ps = strings m ps :=
      strings_of_same (Chain.ne_of_fresh hc hf) (fun x hx => by rw [hfe x hx])
    have h2 : valOf m' p = s := by simp [valOf, hp]
    simp only [strings, List.map_cons] at h1 ⊢
    rw [h1, h2]
  · intro x hx hxn; rw [hfe x hx]; exact hxn

/-- One successful `q_insert_tail` on a queue whose tail cursor is in place: the new element
is last, the cursor moves to it and the counter is incremented as an `int`. -/
theorem q_insert_tail_step {m : Mem} {q p : Nat} {Q : queue_t} {ps : List Nat} (s : List Nat)
    (hQ : m.que q = some Q) (hc : Chain m Q.head ps) (htl : Q.tail = tailSlot q ps)
    (hf : m.ele p = none) :
    ∃ m' Q', q_insert_tail m (some q) s (some p) true = .ok (m', true) ∧
      m'.que q = some Q' ∧ Chain m' Q'.head (ps ++ [p]) ∧ Q'.tail = tailSlot q (ps ++ [p]) ∧
      Q'.size = to_int (Q.size + 1) ∧ strings m' (ps ++ [p]) = strings m ps ++ [s] ∧
      (∀ x, x ≠ p → m.ele x = none → m'.ele x = none) := by
  obtain ⟨m', Q', hrun, hq', hc', hsize, htail, hp, hfv, _⟩ :=
    q_insert_tail_spec s hQ hc htl hf
  refine ⟨m', Q', hrun, hq', hc', htail, hsize, ?_, ?_⟩
  · have h1 : strings m' ps = strings m ps :=
      strings_of_same (Chain.ne_of_fresh hc hf) hfv
    have h2 : valOf m' p = s := by simp [valOf, hp]
    simp only [strings, List.map_append, List.map_cons, List.map_nil] at h1 ⊢
    rw [h1, h2]
  · intro x hx hxn; exact none_of_same (hfv x hx) hxn

theorem q_insert_head_wf {m : Mem} {q p : Nat} {ps : List Nat} (s : List Nat)
    (hwf : WellFormed m q ps) (hlt : (ps.length : Int) < INT_MAX) (hf : m.ele p = none) :
    ∃ m', q_insert_head m (some q) s (some p) true = .ok (m', true) ∧
      WellFormed m' q (p :: ps) ∧ strings m' (p :: ps) = s :: strings m ps ∧
      (∀ x, x ≠ p → m.ele x = none → m'.ele x = none) := by
  obtain ⟨⟨Q, hQ, hc⟩, ⟨Q1, hQ1, hsz, _⟩, ⟨Q2, hQ2, htl⟩⟩ := hwf
  rw [hQ] at hQ1 hQ2; cases hQ1; cases hQ2
  obtain ⟨m', Q', hrun, hq', hc', htail, hsize, hstr, hfr⟩ := q_insert_head_step s hQ hc htl hf
  obtain ⟨h1, h2⟩ := to_int_succ hsz hlt
  refine ⟨m', hrun, ⟨⟨Q', hq', hc'⟩, ⟨Q', hq', ?_, ?_⟩, ⟨Q', hq', htail⟩⟩, hstr, hfr⟩
  · rw [hsize, h1]; rfl
  · rw [hsize]; exact h2

theorem q_insert_tail_wf {m : Mem} {q p : Nat} {ps : List Nat} (s : List Nat)
    (hwf : WellFormed m q ps) (hlt : (ps.length : Int) < INT_MAX) (hf : m.ele p = none) :
    ∃ m', q_insert_tail m (some q) s (some p) true = .ok (m', true) ∧
      WellFormed m' q (ps ++ [p]) ∧ strings m' (ps ++ [p]) = strings m ps ++ [s] ∧
      (∀ x, x ≠ p → m.ele x = none → m'.ele x = none) := by
  obtain ⟨⟨Q, hQ, hc⟩, ⟨Q1, hQ1, hsz, _⟩, ⟨Q2, hQ2, htl⟩⟩ := hwf
  rw [hQ] at hQ1 hQ2; cases hQ1; cases hQ2
  obtain ⟨m', Q', hrun, hq', hc', htail, hsize, hstr, hfr⟩ := q_insert_tail_step s hQ hc htl hf
  obtain ⟨h1, h2⟩ := to_int_succ hsz hlt
  refine ⟨m', hrun, ⟨⟨Q', hq', hc'⟩, ⟨Q', hq', ?_, ?_⟩, ⟨Q', hq', htail⟩⟩, hstr, hfr⟩
  · rw [hsize, h1]; simp
  · rw [hsize]; exact h2

/-- A series of successful `q_insert_head` calls with fresh, distinct addresses: the elements
end up in front, in reverse call order, the cursor in place, and the counter is the `int`
that counting the calls yields. -/
theorem insert_head_all_spec (q : Nat) (calls : List (Nat × List Nat)) :
    ∀ (m : Mem) (ps : List Nat) (Q : queue_t) (s0 : Int),
      m.que q = some Q → Chain m Q.head ps → Q.tail = tailSlot q ps → Q.size = to_int s0 →
      (∀ c ∈ calls, m.ele c.1 = none) → (calls.map Prod.fst).Nodup →
      ∃ m' Q', insert_head_all m q calls = .ok (m', true) ∧ m'.que q = some Q' ∧
        Chain m' Q'.head ((calls.map Prod.fst).reverse ++ ps) ∧
        Q'.tail = tailSlot q ((calls.map Prod.fst).reverse ++ ps) ∧
        Q'.size = to_int (s0 + (calls.length : Int)) ∧
        strings m' ((calls.map Prod.fst).reverse ++ ps) =
          (calls.map Prod.snd).reverse ++ strings m ps := by
  induction calls with
  | nil =>
    intro m ps Q s0 hQ hc htl hs _ _
    exact ⟨m, Q, rfl, hQ, by simpa using hc, by simpa using htl, by simpa using hs, by simp⟩
  | cons c cs ih =>
    intro m ps Q s0 hQ hc htl hs hf hnd
    obtain ⟨m1, Q1, hrun, hq1, hc1, htl1, hs1, hstr1, hfr1⟩ :=
      q_insert_head_step c.2 hQ hc htl (hf c (List.mem_cons_self _ _))
    have hnd' := List.nodup_cons.mp (by simpa using hnd : (c.1 :: cs.map Prod.fst).Nodup)
    rw [hs, to_int_add] at hs1
    obtain ⟨m', Q', hrun', hq', hc', htl', hs', hstr'⟩ := ih m1 (c.1 :: ps) Q1 (s0 + 1) hq1 hc1
      htl1 hs1 (fun d hd => by
        refine hfr1 d.1 (fun h => hnd'.1 ?_) (hf d (List.mem_cons_of_mem _ hd))
        rw [← h]; exact List.mem_map_of_mem _ hd) hnd'.2
    refine ⟨m', Q', ?_, hq', by simpa using hc', by simpa using htl', ?_, ?_⟩
    · simp [insert_head_all, hrun, hrun', bind, Except.bind, pure, Except.pure]
    · rw [hs']; congr 1; simp only [List.length_cons]; push_cast; ring
    · rw [hstr1] at hstr'
      simpa using hstr'

/-- A series of successful `q_insert_tail` calls with fresh, distinct addresses: the elements
end up behind, in call order, the cursor in place, and the counter is the `int` that counting
the calls yields. -/
theorem insert_tail_all_spec (q : Nat) (calls : List (Nat × List Nat)) :
    ∀ (m : Mem) (ps : List Nat) (Q : queue_t) (s0 : Int),
      m.que q = some Q → Chain m Q.head ps → Q.tail = tailSlot q ps → Q.size = to_int s0 →
      (∀ c ∈ calls, m.ele c.1 = none) → (calls.map Prod.fst).Nodup →
      ∃ m' Q', insert_tail_all m q calls = .ok (m', true) ∧ m'.que q = some Q' ∧
        Chain m' Q'.head (ps ++ calls.map Prod.fst) ∧
        Q'.tail = tailSlot q (ps ++ calls.map Prod.fst) ∧
        Q'.size = to_int (s0 + (calls.length : Int)) ∧
        strings m' (ps ++ calls.map Prod.fst) = strings m ps ++ calls.map Prod.snd := by
  induction calls with
  | nil =>
    intro m ps Q s0 hQ hc htl hs _ _
    exact ⟨m, Q, rfl, hQ, by simpa using hc, by simpa using htl, by simpa using hs, by simp⟩
  | cons c cs ih =>
    intro m ps Q s0 hQ hc htl hs hf hnd
    obtain ⟨m1, Q1, hrun, hq1, hc1, htl1, hs1, hstr1, hfr1⟩ :=
      q_insert_tail_step c.2 hQ hc htl (hf c (List.mem_cons_self _ _))
    have hnd' := List.nodup_cons.mp (by simpa using hnd : (c.1 :: cs.map Prod.fst).Nodup)
    rw [hs, to_int_add] at hs1
    obtain ⟨m', Q', hrun', hq', hc', htl', hs', hstr'⟩ := ih m1 (ps ++ [c.1]) Q1 (s0 + 1) hq1
      hc1 htl1 hs1 (fun d hd => by
        refine hfr1 d.1 (fun h => hnd'.1 ?_) (hf d (List.mem_cons_of_mem _ hd))
        rw [← h]; exact List.mem_map_of_mem _ hd) hnd'.2
    refine ⟨m', Q', ?_, hq', by simpa using hc', by simpa using htl', ?_, ?_⟩
    · simp [insert_tail_all, hrun, hrun', bind, Except.bind, pure, Except.pure]
    · rw [hs']; congr 1; simp only [List.length_cons]; push_cast; ring
    · rw [hstr1] at hstr'
      simpa using hstr'

theorem q_new_wf (m0 : Mem) (q : Nat) : WellFormed (q_new m0 (some q)).1 q [] := by
  have h : (q_new m0 (some q)).1.que q = some { head := none, tail := .head q, size := 0 } :=
    Function.update_same _ _ _
  exact ⟨⟨_, h, rfl⟩, ⟨_, h, rfl, (by decide : (0 : Int) ≤ INT_MAX)⟩, ⟨_, h, rfl⟩⟩

/-- C5: starting from the empty queue that `q_new` creates, for every list of insertions
(each with the fresh address its element is allocated at and its string), the
`q_insert_head` calls made in list order all return `true` and leave the strings in the
reverse of call order, and the `q_insert_tail` calls made in list order all return `true`
and leave the strings in call order; more generally, on any queue whose tail cursor is in
place a successful `q_insert_head` puts the new string in front of the current sequence and
a successful `q_insert_tail` puts it behind.  The chain and the tail cursor stay in order
throughout, whatever the number of elements, and the queue stays well-formed (its `int`
counter equal to the number of elements) as long as that number is at most `INT_MAX`. -/
theorem insert_order (m0 : Mem) (q : Nat) (calls : List (Nat × List Nat))
    (hfresh : ∀ c ∈ calls, m0.ele c.1 = none) (hnd : (calls.map Prod.fst).Nodup) :
    (∃ m', insert_head_all (q_new m0 (some q)).1 q calls = .ok (m', true) ∧
      IsQueue m' q (calls.map Prod.fst).reverse ∧ TailInv m' q (calls.map Prod.fst).reverse ∧
      strings m' (calls.map Prod.fst).reverse = (calls.map Prod.snd).reverse ∧
      ((calls.length : Int) ≤ INT_MAX → WellFormed m' q (calls.map Prod.fst).reverse)) ∧
    (∃ m', insert_tail_all (q_new m0 (some q)).1 q calls = .ok (m', true) ∧
      IsQueue m' q (calls.map Prod.fst) ∧ TailInv m' q (calls.map Prod.fst) ∧
      strings m' (calls.map Prod.fst) = calls.map Prod.snd ∧
      ((calls.length : Int) ≤ INT_MAX → WellFormed m' q (calls.map Prod.fst))) ∧
    (∀ m ps s p, IsQueue m q ps → TailInv m q ps → m.ele p = none →
      ∃ m', q_insert_head m (some q) s (some p) true = .ok (m', true) ∧
        IsQueue m' q (p :: ps) ∧ TailInv m' q (p :: ps) ∧
        strings m' (p :: ps) = s :: strings m ps ∧
        (SizeInv m q ps → (ps.length : Int) < INT_MAX → WellFormed m' q (p :: ps))) ∧
    (∀ m ps s p, IsQueue m q ps → TailInv m q ps → m.ele p = none →
      ∃ m', q_insert_tail m (some q) s (some p) true = .ok (m', true) ∧
        IsQueue m' q (ps ++ [p]) ∧ TailInv m' q (ps ++ [p]) ∧
        strings m' (ps ++ [p]) = strings m ps ++ [s] ∧
        (SizeInv m q ps → (ps.length : Int) < INT_MAX → WellFormed m' q (ps ++ [p]))) := by
  have h0 : (q_new m0 (some q)).1.que q = some { head := none, tail := .head q, size := 0 } :=
    Function.update_same _ _ _
  refine ⟨?_, ?_, ?_, ?_⟩
  · obtain ⟨m', Q', hrun, hq', hc', htl', hs', hstr⟩ :=
      insert_head_all_spec q calls _ [] _ 0 h0 rfl rfl rfl hfresh hnd
    rw [List.append_nil] at hc' htl' hstr
    refine ⟨m', hrun, ⟨Q', hq', hc'⟩, ⟨Q', hq', htl'⟩, by simpa [strings] using hstr, ?_⟩
    intro hle
    have hsz : Q'.size = (calls.length : Int) := by
      rw [hs', zero_add]
      exact to_int_eq (by omega) hle
    exact ⟨⟨Q', hq', hc'⟩, ⟨Q', hq', by simpa using hsz, by rw [hsz]; exact hle⟩,
      ⟨Q', hq', htl'⟩⟩
  · obtain ⟨m', Q', hrun, hq', hc', htl', hs', hstr⟩ :=
      insert_tail_all_spec q calls _ [] _ 0 h0 rfl rfl rfl hfresh hnd
    rw [List.nil_append] at hc' htl' hstr
    refine ⟨m', hrun, ⟨Q', hq', hc'⟩, ⟨Q', hq', htl'⟩, by simpa [strings] using hstr, ?_⟩
    intro hle
    have hsz : Q'.size = (calls.length : Int) := by
      rw [hs', zero_add]
      exact to_int_eq (by omega) hle
    exact ⟨⟨Q', hq', hc'⟩, ⟨Q', hq', by simpa using hsz, by rw [hsz]; exact hle⟩,
      ⟨Q', hq', htl'⟩⟩
  · rintro m ps s p ⟨Q, hQ, hc⟩ ⟨Q2, hQ2, htl⟩ hf
    rw [hQ] at hQ2; cases hQ2
    obtain ⟨m', Q', hrun, hq', hc', htail, hsize, hstr, _⟩ := q_insert_head_step s hQ hc htl hf
    refine ⟨m', hrun, ⟨Q', hq', hc'⟩, ⟨Q', hq', htail⟩, hstr, ?_⟩
    rintro ⟨Q1, hQ1, hsz, _⟩ hlt
    rw [hQ] at hQ1; cases hQ1
    obtain ⟨h1, h2⟩ := to_int_succ hsz hlt
    exact ⟨⟨Q', hq', hc'⟩, ⟨Q', hq', by rw [hsize, h1]; rfl, by rw [hsize]; exact h2⟩,
      ⟨Q', hq', htail⟩⟩
  · rintro m ps s p ⟨Q, hQ, hc⟩ ⟨Q2, hQ2, htl⟩ hf
    rw [hQ] at hQ2; cases hQ2
    obtain ⟨m', Q', hrun, hq', hc', htail, hsize, hstr, _⟩ := q_insert_tail_step s hQ hc htl hf
    refine ⟨m', hrun, ⟨Q', hq', hc'⟩, ⟨Q', hq', htail⟩, hstr, ?_⟩
    rintro ⟨Q1, hQ1, hsz, _⟩ hlt
    rw [hQ] at hQ1; cases hQ1
    obtain ⟨h1, h2⟩ := to_int_succ hsz hlt
    exact ⟨⟨Q', hq', hc'⟩, ⟨Q', hq', by rw [hsize, h1]; simp, by rw [hsize]; exact h2⟩,
      ⟨Q', hq', htail⟩⟩

theorem insert_order_witness :
    ∃ m', insert_head_all (q_new sampleMem (some 7)).1 7 [(4, [99]), (5, [98]), (6, [97])]
        = .ok (m', true) ∧
      IsQueue m' 7 [6, 5, 4] ∧ TailInv m' 7 [6, 5, 4] ∧
      strings m' [6, 5, 4] = [[97], [98], [99]] ∧
      ((([(4, [99]), (5, [98]), (6, [97])] : List (Nat × List Nat)).length : Int) ≤ INT_MAX →
        WellFormed m' 7 [6, 5, 4]) :=
  (insert_order sampleMem 7 [(4, [99]), (5, [98]), (6, [97])]
    (by intro c hc; simp at hc; rcases hc with rfl | rfl | rfl <;> rfl) (by decide)).1


theorem size_sub_one {c : Nat} (h1 : 1 ≤ c) (h2 : c < SIZE_MOD) : size_sub c 1 = c - 1 := by
  unfold size_sub
  unfold SIZE_MOD at h2 ⊢
  omega

theorem cpylen_full {c L : Nat} (h1 : L < c) (h2 : c < SIZE_MOD) :
    (if L < size_sub c 1 then L else size_sub c 1) = L := by
  rw [size_sub_one (by omega) h2]
  split_ifs <;> omega

theorem q_remove_head_wf {m : Mem} {q r : Nat} {ps : List Nat} (sp : Option (List Nat))
    (bufsize : Nat) (hwf : WellFormed m q (r :: ps)) :
    ∃ m' e, m.ele r = some e ∧
      q_remove_head m (some q) sp bufsize =
        .ok (m', sp.map (fun buf => memWrite buf
             (e.value.take (if e.value.length < size_sub bufsize 1 then e.value.length
               else size_sub bufsize 1) ++ [0])), true) ∧
      WellFormed m' q ps ∧ strings m' ps = strings m ps ∧ m'.ele r = none := by
  obtain ⟨⟨Q, hQ, hc⟩, ⟨Q1, hQ1, hsz, hmax⟩, ⟨Q2, hQ2, htl⟩⟩ := hwf
  rw [hQ] at hQ1 hQ2; cases hQ1; cases hQ2
  have hnd := Chain.nodup hc
  obtain ⟨m', Q', e, he, hrun, hq', hc', hsize, htail, hr, hfe, _⟩ :=
    q_remove_head_spec sp bufsize hQ hc
  obtain ⟨h1, h2⟩ := to_int_pred hsz hmax
  refine ⟨m', e, he, hrun, ⟨⟨Q', hq', hc'⟩, ⟨Q', hq', ?_, ?_⟩, ⟨Q', hq', htail htl⟩⟩, ?_, hr⟩
  · rw [hsize, h1]
  · rw [hsize]; exact h2
  · refine strings_of_same (p := r) (fun x hx h => ?_) (fun x hx => by rw [hfe x hx])
    rw [h] at hx
    exact (List.nodup_cons.mp hnd).1 hx

theorem remove_head_n_spec (q : Nat) (buf : List Nat) (bufsize : Nat) (hb : bufsize < SIZE_MOD)
    (ps : List Nat) :
    ∀ m : Mem, WellFormed m q ps → (∀ v ∈ strings m ps, v.length < bufsize) →
      ∃ m', remove_head_n m q buf bufsize ps.length =
          .ok (m', (strings m ps).map (fun v => memWrite buf (v ++ [0]))) ∧
        WellFormed m' q [] := by
  induction ps with
  | nil => intro m hwf _; exact ⟨m, rfl, hwf⟩
  | cons r ps ih =>
    intro m hwf hlen
    obtain ⟨m1, e, he, hrun, hwf1, hstr1, _⟩ := q_remove_head_wf (some buf) bufsize hwf
    have hv : valOf m r = e.value := by simp [valOf, he]
    have hL : e.value.length < bufsize := by
      rw [← hv]; exact hlen _ (by simp [strings])
    rw [cpylen_full hL hb, List.take_length] at hrun
    obtain ⟨m', hrun', hwf'⟩ := ih m1 hwf1 (fun v hv' => by
      rw [hstr1] at hv'
      exact hlen v (by simp only [strings, List.map_cons] at hv' ⊢; exact List.mem_cons_of_mem _ hv'))
    refine ⟨m', ?_, hwf'⟩
    rw [hstr1] at hrun'
    simp [remove_head_n, hrun, hrun', bind, Except.bind, pure, Except.pure, strings, hv]

/-- C6: for every well-formed queue with chain `r :: ps`, so with string sequence
`x :: rest`, `q_remove_head` returns `true`, frees the head element and leaves a well-formed
queue holding exactly `rest` in the same order; when a buffer is supplied whose capacity
exceeds the length of `x`, the buffer receives `x` in full, followed by the terminator; with
no buffer the effect on the queue is the same.  So removing as many times as there are
elements delivers the strings in head-to-tail order, exactly those the queue held, and
leaves the queue empty. -/
theorem remove_head_order (m : Mem) (q r : Nat) (ps : List Nat)
    (hwf : WellFormed m q (r :: ps)) :
    (∀ sp bufsize, ∃ m' sp', q_remove_head m (some q) sp bufsize = .ok (m', sp', true) ∧
      WellFormed m' q ps ∧ strings m' ps = (strings m (r :: ps)).tail ∧ m'.ele r = none ∧
      (∀ buf, sp = some buf → (valOf m r).length < bufsize → bufsize < SIZE_MOD →
        sp' = some (memWrite buf (valOf m r ++ [0]))) ∧
      q_remove_head m (some q) none bufsize = .ok (m', none, true)) ∧
    (∀ buf bufsize, bufsize < SIZE_MOD → (∀ v ∈ strings m (r :: ps), v.length < bufsize) →
      ∃ m', remove_head_n m q buf bufsize (r :: ps).length =
          .ok (m', (strings m (r :: ps)).map (fun v => memWrite buf (v ++ [0]))) ∧
        WellFormed m' q []) := by
  refine ⟨?_, ?_⟩
  · intro sp bufsize
    obtain ⟨m', e, he, hrun, hwf', hstr, hr⟩ := q_remove_head_wf sp bufsize hwf
    obtain ⟨m2, e2, he2, hrun2, _, _, _⟩ := q_remove_head_wf none bufsize hwf
    have hv : valOf m r = e.value := by simp [valOf, he]
    refine ⟨m', _, hrun, hwf', by simpa [strings] using hstr, hr, ?_, ?_⟩
    · intro buf hsp hL hb
      subst hsp
      rw [hv] at hL ⊢
      simp only [Option.map_some']
      rw [cpylen_full hL hb, List.take_length]
    · have hm : m2 = m' := by
        obtain ⟨⟨Q, hQ, hc⟩, _, _⟩ := hwf
        obtain ⟨hh, e0, he0, _⟩ := id hc
        have h1 := q_remove_head_eq sp bufsize hQ hh he0
        have h2 := q_remove_head_eq none bufsize hQ hh he0
        rw [h1] at hrun; rw [h2] at hrun2
        injection hrun with hrun; injection hrun2 with hrun2
        injection hrun with hrun _; injection hrun2 with hrun2 _
        rw [← hrun, ← hrun2]
      rw [← hm]; exact hrun2
  · intro buf bufsize hb hlen
    exact remove_head_n_spec q buf bufsize hb (r :: ps) m hwf hlen

/-- Three removals from `sampleMem` with an 8-byte buffer deliver "b", "a", "b" in this
order. -/
theorem remove_head_order_witness :
    ∃ m', remove_head_n sampleMem 0 [7, 7, 7, 7, 7, 7, 7, 7] 8 [1, 2, 3].length =
        .ok (m', (strings sampleMem [1, 2, 3]).map
          (fun v => memWrite [7, 7, 7, 7, 7, 7, 7, 7] (v ++ [0]))) ∧
      WellFormed m' 0 [] :=
  (remove_head_order sampleMem 0 1 [2, 3] sampleMem_wf).2 [7, 7, 7, 7, 7, 7, 7, 7] 8
    (by decide)
    (by intro v hv; simp [strings, valOf, sampleMem] at hv; rcases hv with rfl | rfl | rfl <;> decide)


/-- One call of the series on a queue whose tail cursor is in place and whose counter is the
`int` for the exact count `s0`: the call returns, chain and cursor stay in order, the number
of elements changes by the call's success, and the counter is the `int` for the new count. -/
theorem callRun_step {m : Mem} {q : Nat} {Q : queue_t} {ps : List Nat} {s0 : Int} (c : Call)
    (hQ : m.que q = some Q) (hc : Chain m Q.head ps) (htl : Q.tail = tailSlot q ps)
    (hs : Q.size = to_int s0) (hf : ∀ p, newAddr c = some p → m.ele p = none) :
    ∃ m' b ps' Q', callRun c m q = .ok (m', b) ∧ m'.que q = some Q' ∧
      Chain m' Q'.head ps' ∧ Q'.tail = tailSlot q ps' ∧
      ps'.length + (if !isInsert c && b then 1 else 0) =
        ps.length + (if isInsert c && b then 1 else 0) ∧
      Q'.size = to_int (s0 + ((if isInsert c && b then 1 else 0 : Nat) : Int)
        - ((if !isInsert c && b then 1 else 0 : Nat) : Int)) := by
  cases c with
  | insert_head s newh valueOk =>
    rcases alloc_cases newh valueOk with hfail | ⟨p, rfl, rfl⟩
    · exact ⟨m, false, ps, Q, q_insert_head_fail m (some q) s newh valueOk (Or.inr hfail),
        hQ, hc, htl, by simp, by simpa using hs⟩
    · obtain ⟨m', Q', hrun, hq', hc', htail, hsize, _, _⟩ :=
        q_insert_head_step s hQ hc htl (hf p rfl)
      refine ⟨m', true, p :: ps, Q', hrun, hq', hc', htail, by simp [isInsert], ?_⟩
      rw [hsize, hs, to_int_add]
      simp [isInsert]
  | insert_tail s newt valueOk =>
    rcases alloc_cases newt valueOk with hfail | ⟨p, rfl, rfl⟩
    · exact ⟨m, false, ps, Q, q_insert_tail_fail m (some q) s newt valueOk (Or.inr hfail),
        hQ, hc, htl, by simp, by simpa using hs⟩
    · obtain ⟨m', Q', hrun, hq', hc', htail, hsize, _, _⟩ :=
        q_insert_tail_step s hQ hc htl (hf p rfl)
      refine ⟨m', true, ps ++ [p], Q', hrun, hq', hc', htail, by simp [isInsert], ?_⟩
      rw [hsize, hs, to_int_add]
      simp [isInsert]
  | remove_head sp bufsize =>
    cases ps with
    | nil =>
      refine ⟨m, false, [], Q, ?_, hQ, hc, htl, by simp, by simpa using hs⟩
      simp [callRun, q_remove_head_empty sp bufsize hQ hc, bind, Except.bind, pure,
        Except.pure]
    | cons r ps =>
      obtain ⟨m', Q', e, _, hrun, hq', hc', hsize, htail, _, _, _⟩ :=
        q_remove_head_spec sp bufsize hQ hc
      refine ⟨m', true, ps, Q', ?_, hq', hc', htail htl, by simp [isInsert], ?_⟩
      · simp [callRun, hrun, bind, Except.bind, pure, Except.pure]
      · rw [hsize, hs, Int.sub_eq_add_neg, to_int_add]
        simp [isInsert, Int.sub_eq_add_neg]

/-- A whole series of calls: it runs to its end, chain and cursor stay in order, the number
of elements is what the successful calls make it, and the counter is the `int` for that
number. -/
theorem runCalls_spec (q : Nat) (calls : List Call) :
    ∀ (m : Mem) (ps : List Nat) (Q : queue_t) (s0 : Int),
      m.que q = some Q → Chain m Q.head ps → Q.tail = tailSlot q ps → Q.size = to_int s0 →
      AllocFresh m q calls →
      ∃ m' k r ps' Q', runCalls m q calls = .ok (m', k, r) ∧ m'.que q = some Q' ∧
        Chain m' Q'.head ps' ∧ Q'.tail = tailSlot q ps' ∧
        ps'.length + r = ps.length + k ∧ Q'.size = to_int (s0 + (k : Int) - (r : Int)) := by
  induction calls with
  | nil =>
    intro m ps Q s0 hQ hc htl hs _
    exact ⟨m, 0, 0, ps, Q, rfl, hQ, hc, htl, rfl, by simpa using hs⟩
  | cons c cs ih =>
    intro m ps Q s0 hQ hc htl hs hfresh
    obtain ⟨hf, hnext⟩ := hfresh
    obtain ⟨m1, b, ps1, Q1, hrun, hq1, hc1, htl1, hlen1, hs1⟩ := callRun_step c hQ hc htl hs hf
    obtain ⟨m', k, r, ps', Q', hrun', hq', hc', htl', hlen', hs'⟩ :=
      ih m1 ps1 Q1 _ hq1 hc1 htl1 hs1 (hnext _ hrun)
    refine ⟨m', (if isInsert c && b then 1 else 0) + k,
      (if !isInsert c && b then 1 else 0) + r, ps', Q', ?_, hq', hc', htl', ?_, ?_⟩
    · simp only [runCalls, hrun, hrun', bind, Except.bind, pure, Except.pure]
    · omega
    · rw [hs']; congr 1; push_cast; ring

/-- Within the range of the counter `q_size` counts: for every series of `q_insert_head`,
`q_insert_tail` and `q_remove_head` calls, in any interleaving and with any outcome of the
allocations, applied to a freshly created queue, the series runs to its end and `q_size`
afterwards returns the `int` for `k - r`, where `k` is the number of insertions that returned
`true` and `r` the number of removals that returned `true`; this is `k - r` itself whenever
`k - r` is at most `INT_MAX` (`malloc` never handing out an address that is in use). -/
theorem size_counts_in_range (m0 : Mem) (q : Nat) (calls : List Call)
    (halloc : AllocFresh (q_new m0 (some q)).1 q calls) :
    ∃ m' k r, runCalls (q_new m0 (some q)).1 q calls = .ok (m', k, r) ∧ r ≤ k ∧
      q_size m' (some q) = .ok (to_int ((k : Int) - (r : Int))) ∧
      ((k : Int) - (r : Int) ≤ INT_MAX → q_size m' (some q) = .ok ((k : Int) - (r : Int))) := by
  have h0 : (q_new m0 (some q)).1.que q = some { head := none, tail := .head q, size := 0 } :=
    Function.update_same _ _ _
  obtain ⟨m', k, r, ps', Q', hrun, hq', _, _, hlen, hs'⟩ :=
    runCalls_spec q calls _ [] _ 0 h0 rfl rfl rfl halloc
  have hrk : r ≤ k := by simp at hlen; omega
  have hsize : q_size m' (some q) = .ok (to_int ((k : Int) - (r : Int))) := by
    simp only [q_size, rdQ, hq', bind, Except.bind, pure, Except.pure, hs']
    congr 2
    ring
  refine ⟨m', k, r, hrun, hrk, hsize, ?_⟩
  intro hle
  rw [hsize, to_int_eq (by omega) hle]

theorem size_counts_in_range_witness :
    ∃ m' k r, runCalls (q_new sampleMem (some 7)).1 7
        [Call.insert_head [97] (some 4) true, Call.insert_tail [98] none true,
          Call.remove_head none 0, Call.remove_head none 0] = .ok (m', k, r) ∧ r ≤ k ∧
      q_size m' (some 7) = .ok (to_int ((k : Int) - (r : Int))) ∧
      ((k : Int) - (r : Int) ≤ INT_MAX → q_size m' (some 7) = .ok ((k : Int) - (r : Int))) :=
  size_counts_in_range sampleMem 7
    [Call.insert_head [97] (some 4) true, Call.insert_tail [98] none true,
      Call.remove_head none 0, Call.remove_head none 0]
    ⟨fun _ hp => Option.some.inj hp ▸ rfl, fun _ _ =>
      ⟨fun _ hp => (nomatch hp), fun _ _ =>
        ⟨fun _ hp => (nomatch hp), fun _ _ =>
          ⟨fun _ hp => (nomatch hp), fun _ _ => trivial⟩⟩⟩⟩


theorem fillCalls_succ (a n : Nat) :
    fillCalls a (n + 1) = Call.insert_tail [] (some a) true :: fillCalls (a + 1) n := by
  simp [fillCalls, List.range'_succ]

/-- The series `fillCalls a n` on a queue whose tail cursor is in place, in a memory where
nothing is allocated from address `a` on: it respects the contract of `malloc`, every call
returns `true`, the `n` new elements are appended, and the counter is the `int` that
counting `n` more elements yields. -/
theorem runCalls_fill (q : Nat) :
    ∀ (n a : Nat) (m : Mem) (ps : List Nat) (Q : queue_t) (s0 : Int),
      m.que q = some Q → Chain m Q.head ps → Q.tail = tailSlot q ps → Q.size = to_int s0 →
      (∀ p, a ≤ p → m.ele p = none) →
      ∃ m' Q', runCalls m q (fillCalls a n) = .ok (m', n, 0) ∧
        AllocFresh m q (fillCalls a n) ∧ m'.que q = some Q' ∧
        Chain m' Q'.head (ps ++ List.range' a n) ∧
        Q'.tail = tailSlot q (ps ++ List.range' a n) ∧
        Q'.size = to_int (s0 + (n : Int)) ∧ (∀ p, a + n ≤ p → m'.ele p = none) := by
  intro n
  induction n with
  | zero =>
    intro a m ps Q s0 hQ hc htl hs hfree
    refine ⟨m, Q, rfl, trivial, hQ, by simpa using hc, by simpa using htl, by simpa using hs,
      fun p hp => hfree p (by omega)⟩
  | succ n ih =>
    intro a m ps Q s0 hQ hc htl hs hfree
    obtain ⟨m1, Q1, hrun, hq1, hc1, htl1, hs1, _, hfr1⟩ :=
      q_insert_tail_step [] hQ hc htl (hfree a (Nat.le_refl a))
    rw [hs, to_int_add] at hs1
    obtain ⟨m', Q', hrun', hfresh', hq', hc', htl', hs', hfree'⟩ :=
      ih (a + 1) m1 (ps ++ [a]) Q1 (s0 + 1) hq1 hc1 htl1 hs1
        (fun p hp => hfr1 p (by omega) (hfree p (by omega)))
    have hcall : callRun (Call.insert_tail [] (some a) true) m q = .ok (m1, true) := hrun
    rw [fillCalls_succ]
    refine ⟨m', Q', ?_, ⟨?_, ?_⟩, hq', ?_, ?_, ?_, fun p hp => hfree' p (by omega)⟩
    · simp only [runCalls, hcall, hrun', bind, Except.bind, pure, Except.pure, isInsert]
      simp [Nat.add_comm]
    · intro p hp
      have : p = a := by
        simp only [newAddr] at hp
        exact (Option.some.inj hp).symm
      rw [this]
      exact hfree a (Nat.le_refl a)
    · intro r hr
      rw [hcall] at hr
      injection hr with hr
      rw [← hr]
      exact hfresh'
    · simpa [List.range'_succ] using hc'
    · simpa [List.range'_succ] using htl'
    · rw [hs']; congr 1; push_cast; ring

/-- C7, at the input where the code departs from it.  A series of 2147483648 `q_insert_tail`
calls on a freshly created queue, `malloc` handing out the addresses 1, 2, ... and never
failing: the series runs to its end, all `k = 2147483648` insertions return `true`, no
removal is made (`r = 0`), and `q_size` then returns -2147483648, the value `q->size++`
wrapped around to, where `k - r` is 2147483648. -/
theorem size_counts_overflow :
    ∃ m', runCalls (q_new emptyMem (some 0)).1 0 (fillCalls 1 2147483648)
        = .ok (m', 2147483648, 0) ∧
      AllocFresh (q_new emptyMem (some 0)).1 0 (fillCalls 1 2147483648) ∧
      q_size m' (some 0) = .ok (-2147483648) ∧
      (-2147483648 : Int) ≠ ((2147483648 : Nat) : Int) - ((0 : Nat) : Int) := by
  have h0 : (q_new emptyMem (some 0)).1.que 0 =
      some { head := none, tail := .head 0, size := 0 } := rfl
  obtain ⟨m', Q', hrun, hfresh, hQ', _, _, hs, _⟩ :=
    runCalls_fill 0 2147483648 1 (q_new emptyMem (some 0)).1 [] _ 0 h0 rfl rfl rfl
      (fun _ _ => rfl)
  have hsz : Q'.size = -2147483648 := by
    rw [hs]; unfold to_int; norm_num
  refine ⟨m', hrun, hfresh, ?_, by norm_num⟩
  simp only [q_size, rdQ, hQ', bind, Except.bind, pure, Except.pure, hsz]


/-- C8: for every queue whose head element holds a string `v` of length `L`, every supplied
buffer and every capacity `c` with `1 ≤ c` (a value of `size_t`), `q_remove_head` returns
`true` and leaves in the buffer exactly the first `min L (c - 1)` bytes of `v` followed by a
null terminator, the bytes of the buffer beyond them untouched; this is at most `c` bytes,
and when `c - 1 < L` it is the `(c - 1)`-byte initial segment of `v` and the terminator. -/
theorem remove_head_truncates (m : Mem) (q r : Nat) (Q : queue_t) (e : list_ele_t)
    (buf : List Nat) (c : Nat)
    (hq : m.que q = some Q) (hh : Q.head = some r) (he : m.ele r = some e)
    (hc1 : 1 ≤ c) (hc2 : c < SIZE_MOD) :
    ∃ m', q_remove_head m (some q) (some buf) c =
        .ok (m', some (e.value.take (min e.value.length (c - 1)) ++
          0 :: buf.drop (min e.value.length (c - 1) + 1)), true) ∧
      min e.value.length (c - 1) + 1 ≤ c ∧
      (c - 1 < e.value.length →
        e.value.take (min e.value.length (c - 1)) = e.value.take (c - 1)) := by
  have hrun := q_remove_head_eq (some buf) c hq hh he
  rw [size_sub_one hc1 hc2] at hrun
  have hcpy : (if e.value.length < c - 1 then e.value.length else c - 1)
      = min e.value.length (c - 1) := by
    split_ifs with h
    · exact (Nat.min_eq_left (Nat.le_of_lt h)).symm
    · exact (Nat.min_eq_right (Nat.le_of_not_lt h)).symm
  rw [hcpy] at hrun
  refine ⟨Mem.mk (Function.update m.ele r none) (Function.update m.que q (some
    { head := e.next, tail := if e.next = none then Slot.head q else Q.tail,
      size := to_int (Q.size - 1) })), ?_, ?_, ?_⟩
  · rw [hrun]
    have hlen : (e.value.take (min e.value.length (c - 1)) ++ [0]).length
        = min e.value.length (c - 1) + 1 := by
      rw [List.length_append, List.length_take]
      simp
    simp only [Option.map_some', memWrite, hlen, List.append_assoc, List.singleton_append]
  · have := Nat.min_le_right e.value.length (c - 1)
    omega
  · intro h
    rw [Nat.min_eq_right (Nat.le_of_lt h)]

/-- The string "hello" removed with capacity 3 leaves "he" and the terminator at the start of
the buffer (Scenario 3). -/
theorem remove_head_truncates_witness :
    ∃ m', q_remove_head helloMem (some 0) (some [7, 7, 7, 7, 7, 7, 7, 7]) 3 =
        .ok (m', some [104, 101, 0, 7, 7, 7, 7, 7], true) ∧
      min [104, 101, 108, 108, 111].length (3 - 1) + 1 ≤ 3 ∧
      (3 - 1 < [104, 101, 108, 108, 111].length →
        [104, 101, 108, 108, 111].take (min [104, 101, 108, 108, 111].length (3 - 1))
          = [104, 101, 108, 108, 111].take (3 - 1)) :=
  remove_head_truncates helloMem 0 1 { head := some 1, tail := .next 1, size := 1 }
    { value := [104, 101, 108, 108, 111], next := none } [7, 7, 7, 7, 7, 7, 7, 7] 3
    rfl rfl rfl (by decide) (by decide)

/-- C9, at the input where the code departs from it: with capacity 0 the subtraction
`bufsize - 1` wraps around in `size_t`, so `q_remove_head` copies all five bytes of "hello"
and the terminator into the buffer, six bytes where the capacity allows none. -/
theorem remove_head_capacity_zero :
    ∃ m', q_remove_head helloMem (some 0) (some [7, 7, 7, 7, 7, 7, 7, 7]) 0 =
      .ok (m', some [104, 101, 108, 108, 111, 0, 7, 7], true) := by
  have hrun := q_remove_head_eq (m := helloMem) (q := 0) (r := 1)
    (Q := { head := some 1, tail := .next 1, size := 1 })
    (e := { value := [104, 101, 108, 108, 111], next := none })
    (some [7, 7, 7, 7, 7, 7, 7, 7]) 0 rfl rfl rfl
  exact ⟨_, hrun⟩


theorem Chain.head_eq {m : Mem} {h : Option Nat} {ps : List Nat} (hc : Chain m h ps) :
    h = ps.head? := by
  cases ps with
  | nil => exact hc
  | cons p ps => exact hc.1

/-- C10: for every well-formed queue with chain `ps`, `q_reverse` returns (given a step
budget above the length) and leaves a well-formed queue whose chain is the reversal of `ps`,
so whose string sequence is the reversal of the old one: the new head is the old last
element and the old head is the new last element; the size field is unchanged, and so are
the elements themselves (what is allocated, and every string), only links having been
rewritten.  For an absent queue, and for a queue of 0 or 1 elements, nothing changes at
all. -/
theorem reverse_reverses (m : Mem) (q : Nat) (ps : List Nat) (fuel : Nat)
    (hwf : WellFormed m q ps) (hfuel : ps.length < fuel) :
    ∃ m', q_reverse fuel m (some q) = .ok m' ∧ WellFormed m' q ps.reverse ∧
      strings m' ps.reverse = (strings m ps).reverse ∧
      (∃ Q Q', m.que q = some Q ∧ m'.que q = some Q' ∧ Q'.size = Q.size ∧
        Q'.head = ps.getLast? ∧ ps.reverse.getLast? = Q.head) ∧
      (∀ p, (m'.ele p).map (fun e => e.value) = (m.ele p).map (fun e => e.value)) ∧
      (ps.length ≤ 1 → m' = m) ∧
      q_reverse fuel m none = .ok m := by
  obtain ⟨⟨Q, hQ, hc⟩, ⟨Q1, hQ1, hsz, hmax⟩, ⟨Q2, hQ2, htl⟩⟩ := hwf
  rw [hQ] at hQ1 hQ2; cases hQ1; cases hQ2
  obtain ⟨m', Q', hrun, hq', hc', hsize, htail, _, hsmall, _, _, hfv⟩ :=
    q_reverse_spec hQ hc hfuel
  refine ⟨m', hrun, ⟨⟨Q', hq', hc'⟩, ⟨Q', hq', ?_, ?_⟩, ⟨Q', hq', htail htl⟩⟩, ?_,
    ⟨Q, Q', hQ, hq', hsize, ?_, ?_⟩, hfv, hsmall, rfl⟩
  · rw [hsize, hsz]; simp
  · rw [hsize]; exact hmax
  · rw [strings_congr ps.reverse hfv]; simp [strings]
  · rw [Chain.head_eq hc']; simp
  · rw [Chain.head_eq hc]; simp

theorem reverse_reverses_witness :
    ∃ m', q_reverse 4 sampleMem (some 0) = .ok m' ∧ WellFormed m' 0 [3, 2, 1] ∧
      strings m' [3, 2, 1] = (strings sampleMem [1, 2, 3]).reverse ∧
      (∃ Q Q', sampleMem.que 0 = some Q ∧ m'.que 0 = some Q' ∧ Q'.size = Q.size ∧
        Q'.head = [1, 2, 3].getLast? ∧ [1, 2, 3].reverse.getLast? = Q.head) ∧
      (∀ p, (m'.ele p).map (fun e => e.value) = (sampleMem.ele p).map (fun e => e.value)) ∧
      ([1, 2, 3].length ≤ 1 → m' = sampleMem) ∧
      q_reverse 4 sampleMem none = .ok sampleMem :=
  reverse_reverses sampleMem 0 [1, 2, 3] 4 sampleMem_wf (by decide)

/-! ## Further claims: error handling, `divide`, `merge` and the recursion -/

/-- Two memories with the same strings that both hold the chain `ps` from `h` agree on every
element of `ps`. -/
theorem Chain.ele_eq {m m' : Mem} {ps : List Nat} :
    ∀ {h : Option Nat}, Chain m h ps → Chain m' h ps →
      (∀ p, (m'.ele p).map (fun e => e.value) = (m.ele p).map (fun e => e.value)) →
      ∀ p ∈ ps, m'.ele p = m.ele p := by
  induction ps with
  | nil => intro h _ _ _ p hp; cases hp
  | cons x ps ih =>
    intro h hc hc' hv p hp
    obtain ⟨_, e, he, hrest⟩ := hc
    obtain ⟨_, e', he', hrest'⟩ := hc'
    have hn : e'.next = e.next := by
      rw [Chain.head_eq hrest, Chain.head_eq hrest']
    rcases List.mem_cons.mp hp with rfl | hp'
    · have hvp := hv p
      rw [he, he'] at hvp
      simp only [Option.map_some', Option.some.injEq] at hvp
      rw [he, he']
      cases e; cases e'
      simp only at hvp hn
      rw [hvp, hn]
    · rw [hn] at hrest'
      exact ih hrest hrest' hv p hp'

/-- C11: `q_reverse` is an involution.  For every well-formed queue, a first `q_reverse`
returns some memory `m1` and a second `q_reverse` applied to `m1` returns exactly the
original memory: the same element order, the same size, the same tail cursor and the same
links. -/
theorem reverse_involution (m : Mem) (q : Nat) (ps : List Nat) (fuel : Nat)
    (hwf : WellFormed m q ps) (hfuel : ps.length < fuel) :
    ∃ m1, q_reverse fuel m (some q) = .ok m1 ∧ WellFormed m1 q ps.reverse ∧
      q_reverse fuel m1 (some q) = .ok m := by
  obtain ⟨⟨Q, hQ, hc⟩, ⟨Q1, hQ1, hsz, hmax⟩, ⟨Q2, hQ2, htl⟩⟩ := hwf
  rw [hQ] at hQ1 hQ2; cases hQ1; cases hQ2
  obtain ⟨m1, Q1, hrun1, hq1, hc1, hsize1, htail1, _, _, hfq1, hfe1, hfv1⟩ :=
    q_reverse_spec hQ hc hfuel
  obtain ⟨m2, Q2, hrun2, hq2, hc2, hsize2, htail2, _, _, hfq2, hfe2, hfv2⟩ :=
    q_reverse_spec hq1 hc1 (by simpa using hfuel)
  rw [List.reverse_reverse] at hc2 htail2
  refine ⟨m1, hrun1, ⟨⟨Q1, hq1, hc1⟩, ⟨Q1, hq1, ?_, ?_⟩, ⟨Q1, hq1, htail1 htl⟩⟩, ?_⟩
  · rw [hsize1, hsz]; simp
  · rw [hsize1]; exact hmax
  have hQ2 : Q2 = Q := by
    have h1 : Q2.head = Q.head := by rw [Chain.head_eq hc2, Chain.head_eq hc]
    have h2 : Q2.tail = Q.tail := by rw [htail2 (htail1 htl), htl]
    have h3 : Q2.size = Q.size := by rw [hsize2, hsize1]
    cases Q2; cases Q
    simp only at h1 h2 h3
    rw [h1, h2, h3]
  have hv : ∀ p, (m2.ele p).map (fun e => e.value) = (m.ele p).map (fun e => e.value) :=
    fun p => by rw [hfv2 p, hfv1 p]
  have hm : m2 = m := by
    have hele : m2.ele = m.ele := by
      funext p
      by_cases hp : p ∈ ps
      · rw [hQ2] at hc2
        exact Chain.ele_eq hc hc2 hv p hp
      · rw [hfe2 p (by simpa using hp), hfe1 p hp]
    have hque : m2.que = m.que := by
      funext r
      by_cases hr : r = q
      · rw [hr, hq2, hQ, hQ2]
      · rw [hfq2 r hr, hfq1 r hr]
    cases m2; cases m
    simp only at hele hque
    rw [hele, hque]
  rw [← hm]; exact hrun2

theorem reverse_involution_witness :
    ∃ m1, q_reverse 4 sampleMem (some 0) = .ok m1 ∧ WellFormed m1 0 [1, 2, 3].reverse ∧
      q_reverse 4 m1 (some 0) = .ok sampleMem :=
  reverse_involution sampleMem 0 [1, 2, 3] 4 sampleMem_wf (by decide)

theorem q_remove_head_null (m : Mem) (sp : Option (List Nat)) (bufsize : Nat) :
    q_remove_head m none sp bufsize = .ok (m, sp, false) := rfl

/-- C12: `q_remove_head` returns `false` if and only if the queue is absent or empty, and
then neither the memory (so the queue's head, tail cursor and size) nor the caller's buffer
is changed.  The call returns `false` on an absent and on an empty queue, returns `true` on a
queue whose head element exists, and whenever it returns, its value is `false` exactly in the
first two cases. -/
theorem remove_head_false_iff (m : Mem) :
    (∀ sp bufsize, q_remove_head m none sp bufsize = .ok (m, sp, false)) ∧
    (∀ qa Q sp bufsize, m.que qa = some Q → Q.head = none →
      q_remove_head m (some qa) sp bufsize = .ok (m, sp, false)) ∧
    (∀ qa Q r e sp bufsize, m.que qa = some Q → Q.head = some r → m.ele r = some e →
      ∃ m' sp', q_remove_head m (some qa) sp bufsize = .ok (m', sp', true)) ∧
    (∀ q sp bufsize m' sp' b, q_remove_head m q sp bufsize = .ok (m', sp', b) →
      (b = false ↔ (q = none ∨ ∃ qa Q, q = some qa ∧ m.que qa = some Q ∧ Q.head = none)) ∧
      (b = false → m' = m ∧ sp' = sp)) := by
  refine ⟨fun sp bufsize => rfl, fun qa Q sp bufsize hq hh => q_remove_head_empty sp bufsize hq hh,
    fun qa Q r e sp bufsize hq hh he => ⟨_, _, q_remove_head_eq sp bufsize hq hh he⟩, ?_⟩
  intro q sp bufsize m' sp' b hrun
  cases q with
  | none =>
    rw [q_remove_head_null] at hrun
    injection hrun with hrun
    injection hrun with h1 h2
    injection h2 with h2 h3
    subst h1; subst h2; subst h3
    exact ⟨⟨fun _ => Or.inl rfl, fun _ => rfl⟩, fun _ => ⟨rfl, rfl⟩⟩
  | some qa =>
    cases hq : m.que qa with
    | none => simp [q_remove_head, rdQ, hq, bind, Except.bind] at hrun
    | some Q =>
      cases hh : Q.head with
      | none =>
        rw [q_remove_head_empty sp bufsize hq hh] at hrun
        injection hrun with hrun
        injection hrun with h1 h2
        injection h2 with h2 h3
        subst h1; subst h2; subst h3
        exact ⟨⟨fun _ => Or.inr ⟨qa, Q, rfl, hq, hh⟩, fun _ => rfl⟩, fun _ => ⟨rfl, rfl⟩⟩
      | some r =>
        cases he : m.ele r with
        | none => simp [q_remove_head, rdQ, hq, hh, deref, he, bind, Except.bind] at hrun
        | some e =>
          rw [q_remove_head_eq sp bufsize hq hh he] at hrun
          injection hrun with hrun
          injection hrun with h1 h2
          injection h2 with h2 h3
          subst h3
          refine ⟨⟨fun h => (by cases h), ?_⟩, fun h => (by cases h)⟩
          rintro (h | ⟨qa', Q', h1', h2', h3'⟩)
          · cases h
          · cases h1'
            rw [hq] at h2'
            cases h2'
            rw [hh] at h3'
            cases h3'

theorem remove_head_false_iff_witness :
    q_remove_head sampleMem none (some [7]) 1 = .ok (sampleMem, some [7], false) ∧
    ∃ m' sp', q_remove_head sampleMem (some 0) (some [7]) 1 = .ok (m', sp', true) :=
  ⟨(remove_head_false_iff sampleMem).1 (some [7]) 1,
    (remove_head_false_iff sampleMem).2.2.1 0 _ 1 _ (some [7]) 1 rfl rfl rfl⟩

/-- C13: on an absent (NULL) queue every operation is a safe no-op.  `q_insert_head`,
`q_insert_tail` and `q_remove_head` return `false` and leave the memory (and the buffer) as it
was, `q_size` returns 0, and `q_free`, `q_reverse` and `q_sort` return the memory they were
given; `q_size` of a present queue returns its size field, and has no memory result because
it writes nothing. -/
theorem absent_queue_noop (m : Mem) :
    (∀ s newh valueOk, q_insert_head m none s newh valueOk = .ok (m, false)) ∧
    (∀ s newt valueOk, q_insert_tail m none s newt valueOk = .ok (m, false)) ∧
    (∀ sp bufsize, q_remove_head m none sp bufsize = .ok (m, sp, false)) ∧
    q_size m none = .ok 0 ∧
    (∀ fuel, q_free fuel m none = .ok m) ∧
    (∀ fuel, q_reverse fuel m none = .ok m) ∧
    (∀ fuel frame, q_sort (fuel + 1) frame m none = .ok m) ∧
    (∀ q Q, m.que q = some Q → q_size m (some q) = .ok Q.size) := by
  refine ⟨fun _ _ _ => rfl, fun _ _ _ => rfl, fun _ _ => rfl, rfl, fun _ => rfl, fun _ => rfl,
    fun _ _ => rfl, ?_⟩
  intro q Q hq
  simp [q_size, rdQ, hq, bind, Except.bind, pure, Except.pure]

theorem absent_queue_noop_witness :
    q_sort 1 1 sampleMem none = .ok sampleMem ∧ q_size sampleMem (some 0) = .ok 3 :=
  ⟨(absent_queue_noop sampleMem).2.2.2.2.2.2.1 0 1,
    (absent_queue_noop sampleMem).2.2.2.2.2.2.2 0 _ rfl⟩

/-- With both allocations successful, `q_insert_tail` returns `true` on every queue whose
tail cursor designates an existing link slot. -/
theorem q_insert_tail_true {m : Mem} {q : Nat} {Q : queue_t} (s : List Nat) (p : Nat)
    (hq : m.que q = some Q) (ht : ∃ v, load m Q.tail = .ok v) :
    ∃ m', q_insert_tail m (some q) s (some p) true = .ok (m', true) := by
  obtain ⟨v, hv⟩ := ht
  cases hs : Q.tail with
  | head r =>
    rw [hs] at hv
    cases hr : m.que r with
    | none => simp [load, rdQ, hr, bind, Except.bind] at hv
    | some R =>
      by_cases hrq : r = q
      · subst hrq
        simp [q_insert_tail, allocEle, wrNext, rdQ, hq, store, wrHead, wrTail, wrSize, bind,
          Except.bind, pure, Except.pure, hs]
      · simp [q_insert_tail, allocEle, wrNext, rdQ, hq, store, wrHead, wrTail, wrSize, bind,
          Except.bind, pure, Except.pure, hs, hr, Function.update_apply, hrq, Ne.symm hrq]
  | next l =>
    rw [hs] at hv
    cases hl : m.ele l with
    | none => simp [load, deref, hl, bind, Except.bind] at hv
    | some el =>
      by_cases hlp : l = p
      · subst hlp
        simp [q_insert_tail, allocEle, wrNext, rdQ, hq, store, wrHead, wrTail, wrSize, bind,
          Except.bind, pure, Except.pure, hs]
      · simp [q_insert_tail, allocEle, wrNext, rdQ, hq, store, wrHead, wrTail, wrSize, bind,
          Except.bind, pure, Except.pure, hs, hl, hlp, Function.update_apply]

/-- When both allocations succeeded, `q_insert_tail` can only return `true`. -/
theorem q_insert_tail_ok_true {m m2 : Mem} {q p : Nat} {s : List Nat} {b2 : Bool}
    (h : q_insert_tail m (some q) s (some p) true = .ok (m2, b2)) : b2 = true := by
  simp only [q_insert_tail, bind, Except.bind, pure, Except.pure] at h
  repeat' split at h
  all_goals try cases h
  all_goals simp_all

/-- C14: allocation may fail (`newh = none` for the node, `valueOk = false` for the string
buffer).  On every present queue, `q_insert_head` returns, with `true` exactly when both
allocations succeeded, and with the memory before the call when it returns `false`.
`q_insert_tail` returns `false` with the memory before the call when either allocation
failed; it returns whenever the tail cursor designates an existing link slot; and whenever it
returns, it returns `true` exactly when both allocations succeeded, and the memory before the
call, hence the same chain, tail cursor and size, when it returns `false`. -/
theorem insert_true_iff_alloc (m : Mem) (q : Nat) (Q : queue_t) (s : List Nat)
    (newh : Option Nat) (valueOk : Bool) (hq : m.que q = some Q) :
    (∃ m1 b1, q_insert_head m (some q) s newh valueOk = .ok (m1, b1) ∧
      (b1 = true ↔ newh ≠ none ∧ valueOk = true) ∧ (b1 = false → m1 = m)) ∧
    ((newh = none ∨ valueOk = false) →
      q_insert_tail m (some q) s newh valueOk = .ok (m, false)) ∧
    ((∃ v, load m Q.tail = .ok v) → ∃ m2 b2, q_insert_tail m (some q) s newh valueOk = .ok (m2, b2)) ∧
    (∀ m2 b2, q_insert_tail m (some q) s newh valueOk = .ok (m2, b2) →
      (b2 = true ↔ newh ≠ none ∧ valueOk = true) ∧ (b2 = false → m2 = m)) := by
  rcases alloc_cases newh valueOk with hfail | ⟨p, rfl, rfl⟩
  · have h1 := q_insert_head_fail m (some q) s newh valueOk (Or.inr hfail)
    have h2 := q_insert_tail_fail m (some q) s newh valueOk (Or.inr hfail)
    have hno : ¬ (newh ≠ none ∧ valueOk = true) := by
      rcases hfail with h | h <;> simp [h]
    refine ⟨⟨m, false, h1, ?_, fun _ => rfl⟩, fun _ => h2, fun _ => ⟨m, false, h2⟩, ?_⟩
    · exact ⟨fun h => (by cases h), fun h => absurd h hno⟩
    · intro m2 b2 hrun
      rw [h2] at hrun
      injection hrun with hrun
      injection hrun with hm hb
      subst hm; subst hb
      exact ⟨⟨fun h => (by cases h), fun h => absurd h hno⟩, fun _ => rfl⟩
  · refine ⟨⟨_, true, q_insert_head_eq s hq, by simp, fun h => (by cases h)⟩,
      fun h => ?_, fun ht => ?_, ?_⟩
    · rcases h with h | h <;> cases h
    · obtain ⟨m2, h2⟩ := q_insert_tail_true s p hq ht
      exact ⟨m2, true, h2⟩
    · intro m2 b2 hrun
      have hb := q_insert_tail_ok_true hrun
      subst hb
      exact ⟨by simp, fun h => (by cases h)⟩

theorem insert_true_iff_alloc_witness :
    (∃ m1 b1, q_insert_head sampleMem (some 0) [99] (some 4) true = .ok (m1, b1) ∧
      (b1 = true ↔ some 4 ≠ none ∧ true = true) ∧ (b1 = false → m1 = sampleMem)) ∧
    ∃ m2 b2, q_insert_tail sampleMem (some 0) [99] (some 4) true = .ok (m2, b2) :=
  ⟨(insert_true_iff_alloc sampleMem 0 _ [99] (some 4) true rfl).1,
    (insert_true_iff_alloc sampleMem 0 _ [99] (some 4) true rfl).2.2.1 ⟨_, rfl⟩⟩

/-- The number of links walked by `divide` on a queue whose size field is its length `n ≥ 2`:
the cut is the element number `n / 2`. -/
theorem cut_of_size (n : Nat) (h2 : 2 ≤ n) :
    Int.tdiv (n : Int) 2 = ((n / 2 : Nat) : Int) ∧
    to_size_t (Int.tdiv (n : Int) 2) - 1 + 1 = n / 2 := by
  have h0 : (0 : Int) ≤ (n : Int) := Int.ofNat_nonneg n
  have h : Int.tdiv (n : Int) 2 = ((n / 2 : Nat) : Int) := by
    rw [Int.tdiv_eq_ediv h0 (by decide)]
    simp
  rw [h]
  refine ⟨rfl, ?_⟩
  have : to_size_t ((n / 2 : Nat) : Int) = n / 2 := by
    unfold to_size_t
    rw [if_pos (Int.ofNat_nonneg _)]
    exact Int.toNat_ofNat _
  rw [this]
  omega

/-- C15 (as the code behaves): for every well-formed queue `a` with `n ≥ 2` elements,
`divide` returns; `a` keeps the first `n / 2` elements (the cut is reached by walking
`n / 2 - 1` links from the head) and `b` receives the remaining `n - n / 2` elements, the
chain after the cut; the size field of `b` is `n / 2` and the size field of `a` is
`n - n / 2`, so each size field is the element count exactly when `n` is even; the tail
cursor of `a` is the next-slot of the cut and the tail cursor of `b` is the original tail
cursor of `a`. -/
theorem divide_halves (m : Mem) (a b : Nat) (B : queue_t) (ps : List Nat)
    (hwf : WellFormed m a ps) (hqb : m.que b = some B) (hab : a ≠ b) (h2 : 2 ≤ ps.length) :
    ∃ m' A' B', divide m a b = .ok m' ∧ m'.que a = some A' ∧ m'.que b = some B' ∧
      Chain m' A'.head (ps.take (ps.length / 2)) ∧
      Chain m' B'.head (ps.drop (ps.length / 2)) ∧
      (ps.take (ps.length / 2)).length = ps.length / 2 ∧
      (ps.drop (ps.length / 2)).length = ps.length - ps.length / 2 ∧
      B'.size = ((ps.length / 2 : Nat) : Int) ∧
      A'.size = ((ps.length - ps.length / 2 : Nat) : Int) ∧
      A'.tail = tailSlot a (ps.take (ps.length / 2)) ∧
      B'.tail = tailSlot a ps ∧
      ((SizeInv m' a (ps.take (ps.length / 2)) ∧ SizeInv m' b (ps.drop (ps.length / 2))) ↔
        ps.length % 2 = 0) := by
  obtain ⟨⟨Q, hQ, hc⟩, ⟨Q1, hQ1, hsz, hmax⟩, ⟨Q2, hQ2, htl⟩⟩ := hwf
  rw [hQ] at hQ1 hQ2; cases hQ1; cases hQ2
  obtain ⟨hdiv, hk⟩ := cut_of_size ps.length h2
  rw [← hsz] at hdiv hk
  obtain ⟨m', hB, hrun, hqa', hqb', hca, hcb, _, _, _⟩ :=
    divide_spec hQ hqb hab hc (by omega)
  rw [hk] at hqa' hca hcb
  rw [hdiv] at hqa' hqb'
  have hl1 : (ps.take (ps.length / 2)).length = ps.length / 2 := by
    rw [List.length_take]; omega
  have hl2 : (ps.drop (ps.length / 2)).length = ps.length - ps.length / 2 := by
    rw [List.length_drop]
  have hsA : Q.size - ((ps.length / 2 : Nat) : Int) = ((ps.length - ps.length / 2 : Nat) : Int) := by
    rw [hsz]; omega
  refine ⟨m', _, _, hrun, hqa', hqb', hca, hcb, hl1, hl2, rfl, hsA, rfl, htl, ?_⟩
  constructor
  · rintro ⟨⟨X, hX, hXs, _⟩, ⟨Y, hY, hYs, _⟩⟩
    rw [hqb'] at hY
    cases hY
    rw [hl2] at hYs
    simp only at hYs
    omega
  · intro hev
    rw [hsz] at hmax
    refine ⟨⟨_, hqa', ?_, ?_⟩, ⟨_, hqb', ?_, ?_⟩⟩
    · rw [hl1]; simp only; rw [hsA]; omega
    · simp only; rw [hsA]; unfold INT_MAX at hmax ⊢; omega
    · rw [hl2]; simp only; omega
    · simp only; unfold INT_MAX at hmax ⊢; omega

theorem divide_halves_witness :
    ∃ m' A' B', divide (allocQue sampleMem 4 { head := none, tail := .head 4, size := 0 }) 0 4
        = .ok m' ∧ m'.que 0 = some A' ∧ m'.que 4 = some B' ∧
      Chain m' A'.head ([1, 2, 3].take ([1, 2, 3].length / 2)) ∧
      Chain m' B'.head ([1, 2, 3].drop ([1, 2, 3].length / 2)) ∧
      ([1, 2, 3].take ([1, 2, 3].length / 2)).length = [1, 2, 3].length / 2 ∧
      ([1, 2, 3].drop ([1, 2, 3].length / 2)).length = [1, 2, 3].length - [1, 2, 3].length / 2 ∧
      B'.size = (([1, 2, 3].length / 2 : Nat) : Int) ∧
      A'.size = (([1, 2, 3].length - [1, 2, 3].length / 2 : Nat) : Int) ∧
      A'.tail = tailSlot 0 ([1, 2, 3].take ([1, 2, 3].length / 2)) ∧
      B'.tail = tailSlot 0 [1, 2, 3] ∧
      ((SizeInv m' 0 ([1, 2, 3].take ([1, 2, 3].length / 2)) ∧
          SizeInv m' 4 ([1, 2, 3].drop ([1, 2, 3].length / 2))) ↔
        [1, 2, 3].length % 2 = 0) :=
  divide_halves (allocQue sampleMem 4 { head := none, tail := .head 4, size := 0 }) 0 4 _
    [1, 2, 3] (by decide) rfl (by decide) (by decide)

/-- C15, counterexample to the claim as stated: on the well-formed three-element queue of
`sampleMem` (`n = 3`, `n / 2 = 1`), `divide` leaves `a` with one element and size field 2,
and gives `b` the two remaining elements with size field 1: `b` does not receive `n / 2`
elements and neither size field is the element count of its queue. -/
theorem divide_odd_counterexample :
    WellFormed sampleMem 0 [1, 2, 3] ∧
    ∃ m', divide (allocQue sampleMem 4 { head := none, tail := .head 4, size := 0 }) 0 4
        = .ok m' ∧
      IsQueue m' 0 [1] ∧ IsQueue m' 4 [2, 3] ∧ [2, 3].length ≠ [1, 2, 3].length / 2 ∧
      [1].length ≠ [1, 2, 3].length - [1, 2, 3].length / 2 ∧
      ¬ SizeInv m' 0 [1] ∧ ¬ SizeInv m' 4 [2, 3] :=
  ⟨sampleMem_wf, _, rfl, by decide, by decide, by decide, by decide, by decide, by decide⟩

/-- C18: `divide` only cuts the chain.  For every queue `a` on which the cut walk stays
inside the chain (in particular `a` is not empty) and every distinct record `b`, `divide`
returns, the chain of `a` followed by the chain of `b` is the chain `a` had before, with
the same strings in the same order, and the two size fields add up to the size field `a`
had. -/
theorem divide_only_cuts (m : Mem) (a b : Nat) (A B : queue_t) (ps : List Nat)
    (hqa : m.que a = some A) (hqb : m.que b = some B) (hab : a ≠ b)
    (hc : Chain m A.head ps) (hk : to_size_t (Int.tdiv A.size 2) - 1 < ps.length) :
    ∃ m' A' B' psA psB, divide m a b = .ok m' ∧ m'.que a = some A' ∧ m'.que b = some B' ∧
      Chain m' A'.head psA ∧ Chain m' B'.head psB ∧ psA ≠ [] ∧
      psA ++ psB = ps ∧ strings m' psA ++ strings m' psB = strings m ps ∧
      A'.size + B'.size = A.size := by
  obtain ⟨m', hB, hrun, hqa', hqb', hca, hcb, _, _, hv⟩ := divide_spec hqa hqb hab hc hk
  refine ⟨m', _, _, _, _, hrun, hqa', hqb', hca, hcb, ?_, List.take_append_drop _ _, ?_, ?_⟩
  · intro h
    have := congrArg List.length h
    rw [List.length_take, List.length_nil] at this
    omega
  · rw [strings_congr _ hv, strings_congr _ hv]
    unfold strings
    rw [← List.map_append, List.take_append_drop]
  · simp only; omega

theorem divide_only_cuts_witness :
    ∃ m' A' B' psA psB,
      divide (allocQue sampleMem 4 { head := none, tail := .head 4, size := 0 }) 0 4 = .ok m' ∧
      m'.que 0 = some A' ∧ m'.que 4 = some B' ∧
      Chain m' A'.head psA ∧ Chain m' B'.head psB ∧ psA ≠ [] ∧
      psA ++ psB = [1, 2, 3] ∧
      strings m' psA ++ strings m' psB =
        strings (allocQue sampleMem 4 { head := none, tail := .head 4, size := 0 }) [1, 2, 3] ∧
      A'.size + B'.size = (3 : Int) :=
  divide_only_cuts (allocQue sampleMem 4 { head := none, tail := .head 4, size := 0 }) 0 4
    { head := some 1, tail := .next 3, size := 3 } _ [1, 2, 3] rfl rfl (by decide) (by decide)
    (by decide)

theorem mergeList_sublist_left (val : Nat → List Nat) (as bs : List Nat) :
    List.Sublist as (mergeList val as bs) := by
  induction as, bs using mergePre.induct val with
  | case1 bs => exact List.nil_sublist _
  | case2 x as => rw [mergeList_nil_right]
  | case3 x as y bs h ih =>
    rw [mergeList_cons_gt val as bs h]
    exact List.Sublist.cons y ih
  | case4 x as y bs h ih =>
    rw [mergeList_cons_le val as bs h]
    exact List.Sublist.cons₂ x ih

theorem mergeList_sublist_right (val : Nat → List Nat) (as bs : List Nat) :
    List.Sublist bs (mergeList val as bs) := by
  induction as, bs using mergePre.induct val with
  | case1 bs => rw [mergeList_nil_left]
  | case2 x as => exact List.nil_sublist _
  | case3 x as y bs h ih =>
    rw [mergeList_cons_gt val as bs h]
    exact List.Sublist.cons₂ y ih
  | case4 x as y bs h ih =>
    rw [mergeList_cons_le val as bs h]
    exact List.Sublist.cons x ih

/-- The elements left behind by the loop of `merge` are the last elements of `bs`. -/
theorem mergeRest_suffix (val : Nat → List Nat) (as bs : List Nat) :
    mergeRest val as bs <:+ bs := by
  induction as, bs using mergePre.induct val with
  | case1 bs => rw [mergeRest_nil_left]
  | case2 x as => rw [mergeRest_nil_right]
  | case3 x as y bs h ih =>
    have : mergeRest val (x :: as) (y :: bs) = mergeRest val (x :: as) bs := by
      simp [mergeRest, h]
    rw [this]
    exact ih.trans (List.suffix_cons y bs)
  | case4 x as y bs h ih =>
    have : mergeRest val (x :: as) (y :: bs) = mergeRest val as (y :: bs) := by
      simp only [mergeRest, h, if_false]
    rw [this]
    exact ih

/-- Strictly smaller, then not greater, gives strictly smaller. -/
theorem strcmp_lt_of_lt_of_le {a b c : List Nat} (h1 : strcmp a b < 0) (h2 : strcmp b c ≤ 0) :
    strcmp a c < 0 := by
  by_contra hn
  have h3 : strcmp c a ≤ 0 := by
    have := strcmp_swap a c
    omega
  have h4 := strcmp_trans b c a h2 h3
  have := strcmp_swap a b
  omega

/-- An element of `bs` is placed before an element of `as` only when its string is strictly
smaller. -/
theorem mergeList_cross (val : Nat → List Nat) (as bs : List Nat)
    (ha : Sorted (as.map val)) (hnd : (as ++ bs).Nodup) :
    ∀ x ∈ as, ∀ y ∈ bs, List.Sublist [y, x] (mergeList val as bs) →
      strcmp (val y) (val x) < 0 := by
  induction as, bs using mergePre.induct val with
  | case1 bs => intro x hx; cases hx
  | case2 x as => intro x _ y hy; cases hy
  | case3 x0 as y0 bs h ih =>
    intro x hx y hy hsub
    rw [mergeList_cons_gt val as bs h] at hsub
    have hnd' : (x0 :: as ++ bs).Nodup :=
      hnd.sublist (List.Sublist.append_left (List.sublist_cons_self y0 bs) (x0 :: as))
    have hy0 : y0 ∉ x0 :: as ++ bs := by
      intro hmem
      rcases List.mem_append.mp hmem with h1 | h1
      · exact (List.nodup_append.mp hnd).2.2 h1 (List.mem_cons_self _ _)
      · exact (List.nodup_cons.mp (List.nodup_append.mp hnd).2.1).1 h1
    rcases List.sublist_cons_iff.mp hsub with h1 | ⟨r, hr, h1⟩
    · have hyr : y ∈ mergeList val (x0 :: as) bs := h1.subset (List.mem_cons_self _ _)
      have hyb : y ∈ bs := by
        rcases List.mem_cons.mp hy with rfl | hyb
        · exact absurd ((mergeList_perm val (x0 :: as) bs).mem_iff.mp hyr) hy0
        · exact hyb
      exact ih ha hnd' x hx y hyb h1
    · injection hr with hr1 hr2
      subst hr1
      have hlt : strcmp (val y) (val x0) < 0 := by
        have := strcmp_swap (val x0) (val y)
        omega
      rcases List.mem_cons.mp hx with rfl | hxa
      · exact hlt
      · exact strcmp_lt_of_lt_of_le hlt
          ((List.pairwise_cons.mp ha).1 _ (List.mem_map_of_mem val hxa))
  | case4 x0 as y0 bs h ih =>
    intro x hx y hy hsub
    rw [mergeList_cons_le val as bs h] at hsub
    have hnd' : (as ++ y0 :: bs).Nodup := by
      rw [List.cons_append] at hnd
      exact (List.nodup_cons.mp hnd).2
    have hx0 : x0 ∉ as ++ y0 :: bs := by
      rw [List.cons_append] at hnd
      exact (List.nodup_cons.mp hnd).1
    rcases List.sublist_cons_iff.mp hsub with h1 | ⟨r, hr, h1⟩
    · have hxr : x ∈ mergeList val as (y0 :: bs) :=
        h1.subset (List.mem_cons_of_mem _ (List.mem_cons_self _ _))
      have hxa : x ∈ as := by
        rcases List.mem_cons.mp hx with rfl | hxa
        · exact absurd ((mergeList_perm val as (y0 :: bs)).mem_iff.mp hxr) hx0
        · exact hxa
      exact ih (List.pairwise_cons.mp ha).2 hnd' x hxa y hy h1
    · injection hr with hr1 hr2
      subst hr1
      exact absurd (List.mem_append_right as hy) hx0

/-- Among the elements holding equal strings, those of `as` come before those of `bs`. -/
theorem mergeList_ties (val : Nat → List Nat) (as bs : List Nat) (ha : Sorted (as.map val)) :
    ∀ x ∈ as, ∀ y ∈ bs, val x = val y → List.Sublist [x, y] (mergeList val as bs) := by
  intro x hx y hy hxy
  have hf := mergeList_filter val (val x) as bs ha
  have h1 : List.Sublist [x] (as.filter (fun p => decide (val p = val x))) :=
    List.singleton_sublist.mpr (List.mem_filter.mpr ⟨hx, by simp⟩)
  have h2 : List.Sublist [y] (bs.filter (fun p => decide (val p = val x))) :=
    List.singleton_sublist.mpr (List.mem_filter.mpr ⟨hy, by simp [hxy]⟩)
  have h3 := List.Sublist.append h1 h2
  rw [← hf] at h3
  exact h3.trans (List.filter_sublist _)

/-- C16: for two distinct queue records whose chains are disjoint and each sorted ascending,
`merge` returns (given a step budget above the total length) and leaves in `a` a chain that
is sorted, is a permutation of the elements of both chains, keeps the relative order of the
elements of each side, places an element of `b` before an element of `a` only when its string
is strictly smaller, hence places every element of `a` before every element of `b` holding an
equal string; the strings are untouched and the size field of `a` becomes the sum of the two
size fields. -/
theorem merge_sorted_interleaving (m : Mem) (a b : Nat) (A B : queue_t) (as bs : List Nat)
    (fuel : Nat) (hab : a ≠ b) (hqa : m.que a = some A) (hqb : m.que b = some B)
    (hca : Chain m A.head as) (hcb : Chain m B.head bs) (hdisj : ∀ x ∈ as, x ∉ bs)
    (hsa : Sorted (strings m as)) (hsb : Sorted (strings m bs))
    (hfuel : as.length + bs.length < fuel) :
    ∃ m' A' ps', merge fuel m a b = .ok m' ∧ m'.que a = some A' ∧ Chain m' A'.head ps' ∧
      Sorted (strings m' ps') ∧ ps'.Perm (as ++ bs) ∧
      List.Sublist as ps' ∧ List.Sublist bs ps' ∧
      (∀ x ∈ as, ∀ y ∈ bs, List.Sublist [y, x] ps' → strcmp (valOf m y) (valOf m x) < 0) ∧
      (∀ x ∈ as, ∀ y ∈ bs, valOf m x = valOf m y → List.Sublist [x, y] ps') ∧
      (∀ p, valOf m' p = valOf m p) ∧
      A'.size = A.size + B.size := by
  have h := merge_spec hab (valOf m) fuel m A B as bs hqa hqb hca hcb hdisj (valOf_spec m)
  cases hr : merge fuel m a b with
  | error e =>
    rw [hr] at h
    have := h.2
    omega
  | ok m' =>
    rw [hr] at h
    obtain ⟨A', hqa', hc', hsz, _, _, _, hv⟩ := h
    have hnd : (as ++ bs).Nodup :=
      List.nodup_append.mpr ⟨Chain.nodup hca, Chain.nodup hcb, fun _ h1 h2 => hdisj _ h1 h2⟩
    refine ⟨m', A', _, rfl, hqa', hc', ?_, mergeList_perm _ as bs,
      mergeList_sublist_left _ as bs, mergeList_sublist_right _ as bs,
      mergeList_cross _ as bs hsa hnd, mergeList_ties _ as bs hsa, valOf_congr hv, hsz⟩
    rw [strings_congr _ hv]
    exact mergeList_sorted _ as bs hsa hsb

theorem merge_sorted_interleaving_witness :
    ∃ m' A' ps', merge 5 mergeMem 0 1 = .ok m' ∧ m'.que 0 = some A' ∧ Chain m' A'.head ps' ∧
      Sorted (strings m' ps') ∧ ps'.Perm ([1, 2] ++ [3, 4]) ∧
      List.Sublist [1, 2] ps' ∧ List.Sublist [3, 4] ps' ∧
      (∀ x ∈ [1, 2], ∀ y ∈ [3, 4], List.Sublist [y, x] ps' →
        strcmp (valOf mergeMem y) (valOf mergeMem x) < 0) ∧
      (∀ x ∈ [1, 2], ∀ y ∈ [3, 4], valOf mergeMem x = valOf mergeMem y →
        List.Sublist [x, y] ps') ∧
      (∀ p, valOf m' p = valOf mergeMem p) ∧
      A'.size = (2 : Int) + 2 :=
  merge_sorted_interleaving mergeMem 0 1 { head := some 1, tail := .next 2, size := 2 }
    { head := some 3, tail := .next 4, size := 2 } [1, 2] [3, 4] 5 (by decide) rfl rfl
    (by decide) (by decide) (by decide) (by decide) (by decide) (by decide)

/-- After `merge` the record `b` still heads the elements the loop left behind: its head is
null exactly when `b` ran out first. -/
theorem merge_b_head {a b : Nat} (hab : a ≠ b) (val : Nat → List Nat) (fuel : Nat) (m : Mem)
    (A B : queue_t) (as bs : List Nat)
    (hqa : m.que a = some A) (hqb : m.que b = some B)
    (hca : Chain m A.head as) (hcb : Chain m B.head bs) (hdisj : ∀ x ∈ as, x ∉ bs)
    (hval : ∀ p e, m.ele p = some e → e.value = val p) :
    outcome (merge fuel m a b)
      (fun m' => ∃ B', m'.que b = some B' ∧ B'.head = (mergeRest val as bs).head?)
      (fun _ => True) := by
  unfold outcome
  have hba : b ≠ a := fun h => hab h.symm
  have hspec := merge_loop_spec hab val fuel as bs
    (Mem.mk m.ele (Function.update m.que a
      (some { head := A.head, tail := Slot.head a, size := A.size })))
    { head := A.head, tail := Slot.head a, size := A.size } B A.head
    (Function.update_same _ _ _) (by simp [Function.update_apply, hba, hqb]) (Or.inl rfl)
    (by simp [load, rdQ, bind, Except.bind, pure, Except.pure])
    (fun _ _ h => by cases h) (fun _ _ h => by cases h)
    (Seg.congr (m := m) (fun _ _ => rfl) hca) (Seg.congr (m := m) (fun _ _ => rfl) hcb)
    hdisj hval
  simp only [merge, rdQ, hqa, wrTail, bind, Except.bind]
  revert hspec
  generalize merge_loop fuel (Mem.mk m.ele (Function.update m.que a
      (some { head := A.head, tail := Slot.head a, size := A.size }))) a b = R
  intro hspec
  cases R with
  | error e => trivial
  | ok m1 =>
    obtain ⟨A1, B1, h1, hqa1, hqb1, hl1, hpre, hrest, htl, hsz, _, hbt, hbs, hfq, hfe, hfv⟩ :=
      hspec
    obtain ⟨A1', hqa1', hA1h⟩ := load_head_inv hl1
    rw [hqa1] at hqa1'; cases hqa1'
    subst hA1h
    have hndl := mergeList_nodup val (Chain.nodup hca) (Chain.nodup hcb) hdisj
    cases hr : mergeRest val as bs with
    | nil =>
      rw [hr] at hrest
      have hB1h : B1.head = none := hrest
      split
      · rename_i x m' heq
        simp [hqb1, hB1h, hqa1, wrSize, Function.update_apply, hba, hsz, hbs] at heq
        subst heq
        exact ⟨B1, by simp [Function.update_apply, hba, hqb1], by simpa using hB1h⟩
      · trivial
    | cons r0 rest =>
      rw [hr] at hrest htl
      have hB1h : B1.head = some r0 := hrest.1
      have hA1t : A1.tail = lastSlot (.head a) (mergePre val as bs) := htl (by simp)
      have hpd : ∀ x ∈ mergePre val as bs, x ∉ r0 :: rest := by
        intro x hx hx2
        have : (mergePre val as bs ++ r0 :: rest).Nodup := by
          rw [← hr]; exact hndl
        exact (List.nodup_append.mp this).2.2 hx hx2
      obtain ⟨m2, A2, hst, hqa2, hch2, hA2t, hA2s, hfq2, hfe2, hfv2⟩ :=
        link_rest hqa1 hpre hrest hpd
      rw [← hA1t] at hst
      have hst' : store m1 A1.tail (some r0) = .ok m2 := by rw [← hB1h]; exact hst
      have hqb2 : m2.que b = some B1 := by rw [hfq2 b hba]; exact hqb1
      split
      · rename_i x m' heq
        simp [hqb1, hB1h, hqa1, hst', hqb2, hqa2, wrSize, Function.update_apply, hba,
          hsz, hbs, hbt, hA2s] at heq
        subst heq
        exact ⟨B1, by simp [Function.update_apply, hba, hqb2], by simpa using hB1h⟩
      · trivial

/-- The tail cursor of a chain, when it is where it belongs, designates a null link. -/
theorem Chain.load_tailSlot {m : Mem} {q : Nat} {Q : queue_t} {ps : List Nat}
    (hq : m.que q = some Q) (hc : Chain m Q.head ps) : load m (tailSlot q ps) = .ok none := by
  rcases List.eq_nil_or_concat ps with rfl | ⟨init, l, rfl⟩
  · rw [tailSlot_nil, load_head hq]
    have : Q.head = none := hc
    rw [this]
  · rw [List.concat_eq_append] at hc ⊢
    obtain ⟨el, hel⟩ := Seg.alloc hc l (by simp)
    rw [tailSlot, lastSlot_concat, load_next hel, Chain.last_next hc hel]

theorem getLast_of_lastSlot {t u : Slot} {ps qs : List Nat} (hps : ps ≠ []) (hqs : qs ≠ [])
    (h : lastSlot t ps = lastSlot u qs) : ps.getLast? = qs.getLast? := by
  rcases List.eq_nil_or_concat ps with rfl | ⟨i1, l1, rfl⟩
  · exact absurd rfl hps
  rcases List.eq_nil_or_concat qs with rfl | ⟨i2, l2, rfl⟩
  · exact absurd rfl hqs
  rw [List.concat_eq_append] at h ⊢
  rw [List.concat_eq_append] at h ⊢
  rw [lastSlot_concat, lastSlot_concat] at h
  injection h with h
  simp [h]

/-- C17: for two distinct queue records with disjoint non-empty chains, each with its tail
cursor on the next-slot of its own last element, `merge` returns (given a step budget above
the total length) and the tail cursor of `a` designates the next-slot of the last element of
the merged chain, which holds a null link.  On the exit where `b` ran out first (its head is
null), that last element is the original last element of `a` and the cursor is the original
cursor of `a`; on the exit where `a` ran out first, the elements `b` still heads, a non-empty
end of the chain of `b`, are appended after the linked part, and the cursor is the cursor of
`b`, on the last element of `b`. -/
theorem merge_tail_cursor (m : Mem) (a b : Nat) (A B : queue_t) (as bs : List Nat)
    (fuel : Nat) (hab : a ≠ b) (hqa : m.que a = some A) (hqb : m.que b = some B)
    (hca : Chain m A.head as) (hcb : Chain m B.head bs) (hdisj : ∀ x ∈ as, x ∉ bs)
    (hane : as ≠ []) (hbne : bs ≠ [])
    (hta : A.tail = tailSlot a as) (htb : B.tail = tailSlot b bs)
    (hfuel : as.length + bs.length < fuel) :
    ∃ m' A' B' ps', merge fuel m a b = .ok m' ∧ m'.que a = some A' ∧ m'.que b = some B' ∧
      Chain m' A'.head ps' ∧ ps' ≠ [] ∧
      A'.tail = tailSlot a ps' ∧ load m' A'.tail = .ok none ∧
      (B'.head = none → A'.tail = A.tail ∧ ps'.getLast? = as.getLast?) ∧
      (B'.head ≠ none → ∃ pre rest, ps' = pre ++ rest ∧ rest ≠ [] ∧ rest <:+ bs ∧
        B'.head = rest.head? ∧ A'.tail = B.tail ∧ ps'.getLast? = bs.getLast?) := by
  have h := merge_spec hab (valOf m) fuel m A B as bs hqa hqb hca hcb hdisj (valOf_spec m)
  have hb := merge_b_head hab (valOf m) fuel m A B as bs hqa hqb hca hcb hdisj (valOf_spec m)
  cases hr : merge fuel m a b with
  | error e =>
    rw [hr] at h
    have := h.2
    omega
  | ok m' =>
    rw [hr] at h hb
    obtain ⟨A', hqa', hc', _, htl, _, _, _⟩ := h
    obtain ⟨B', hqb', hbh⟩ := hb
    have hne : mergeList (valOf m) as bs ≠ [] := by
      intro h0
      have := mergeList_sublist_left (valOf m) as bs
      rw [h0] at this
      exact hane (List.sublist_nil.mp this)
    have htail : A'.tail = tailSlot a (mergeList (valOf m) as bs) := by
      rw [htl]
      by_cases hrest : mergeRest (valOf m) as bs = []
      · rw [if_pos hrest, hta, tailSlot, tailSlot, mergeRest_eq_nil_lastSlot _ _ _ _ hrest]
      · rw [if_neg hrest, htb, tailSlot, tailSlot,
          mergeRest_ne_nil_lastSlot _ _ (.head b) _ _ hrest]
    refine ⟨m', A', B', _, rfl, hqa', hqb', hc', hne, htail, ?_, ?_, ?_⟩
    · rw [htail]; exact Chain.load_tailSlot hqa' hc'
    · intro hnone
      have hrest : mergeRest (valOf m) as bs = [] := by
        rw [hnone] at hbh
        exact List.head?_eq_none_iff.mp hbh.symm
      refine ⟨by rw [htl, if_pos hrest], ?_⟩
      exact getLast_of_lastSlot (t := .head a) (u := .head a) hne hane
        (mergeRest_eq_nil_lastSlot _ _ _ _ hrest)
    · intro hsome
      have hrest : mergeRest (valOf m) as bs ≠ [] := by
        intro h0
        rw [h0] at hbh
        exact hsome hbh
      refine ⟨mergePre (valOf m) as bs, mergeRest (valOf m) as bs, rfl, hrest,
        mergeRest_suffix _ as bs, hbh, by rw [htl, if_neg hrest], ?_⟩
      exact getLast_of_lastSlot (t := .head a) (u := .head b) hne hbne
        (mergeRest_ne_nil_lastSlot _ _ _ _ _ hrest)

theorem merge_tail_cursor_witness :
    ∃ m' A' B' ps', merge 5 mergeMem 0 1 = .ok m' ∧ m'.que 0 = some A' ∧
      m'.que 1 = some B' ∧ Chain m' A'.head ps' ∧ ps' ≠ [] ∧
      A'.tail = tailSlot 0 ps' ∧ load m' A'.tail = .ok none ∧
      (B'.head = none → A'.tail = Slot.next 2 ∧ ps'.getLast? = [1, 2].getLast?) ∧
      (B'.head ≠ none → ∃ pre rest, ps' = pre ++ rest ∧ rest ≠ [] ∧ rest <:+ [3, 4] ∧
        B'.head = rest.head? ∧ A'.tail = Slot.next 4 ∧ ps'.getLast? = [3, 4].getLast?) :=
  merge_tail_cursor mergeMem 0 1 { head := some 1, tail := .next 2, size := 2 }
    { head := some 3, tail := .next 4, size := 2 } [1, 2] [3, 4] 5 (by decide) rfl rfl
    (by decide) (by decide) (by decide) (by decide) (by decide) rfl rfl (by decide)

/-- Dropping the list of calls from `q_sort_log` gives `q_sort`. -/
theorem q_sort_log_fst : ∀ (fuel frame : Nat) (m : Mem) (q : Option Nat),
    (q_sort_log fuel frame m q).map Prod.fst = q_sort fuel frame m q := by
  intro fuel
  induction fuel with
  | zero => intro frame m q; rfl
  | succ f ih =>
    intro frame m q
    cases q with
    | none => rfl
    | some qa =>
      cases hq : m.que qa with
      | none => simp [q_sort_log, q_sort, rdQ, hq, bind, Except.bind, Except.map]
      | some Q =>
        cases hh : Q.head with
        | none =>
          simp [q_sort_log, q_sort, rdQ, hq, hh, bind, Except.bind, Except.map, pure,
            Except.pure]
        | some h =>
          cases he : m.ele h with
          | none =>
            simp [q_sort_log, q_sort, rdQ, hq, hh, deref, he, bind, Except.bind, Except.map]
          | some e =>
            cases hn : e.next with
            | none =>
              simp [q_sort_log, q_sort, rdQ, hq, hh, deref, he, hn, bind, Except.bind,
                Except.map, pure, Except.pure]
            | some y =>
              simp only [q_sort_log, q_sort, rdQ, hq, hh, deref, he, hn, bind, Except.bind]
              cases divide (allocQue m frame { head := none, tail := .head frame, size := 0 })
                qa frame with
              | error e => rfl
              | ok m1 =>
                simp only
                rw [← ih (frame + 1) m1 (some qa)]
                cases q_sort_log f (frame + 1) m1 (some qa) with
                | error e => rfl
                | ok r2 =>
                  simp only [Except.map]
                  rw [← ih (frame + 1) r2.1 (some frame)]
                  cases q_sort_log f (frame + 1) r2.1 (some frame) with
                  | error e => rfl
                  | ok r3 =>
                    simp only [Except.map]
                    cases merge f r3.1 qa frame with
                    | error e => rfl
                    | ok m4 => rfl

theorem q_sort_log_ok {fuel frame : Nat} {m m' : Mem} {q : Option Nat}
    (h : q_sort fuel frame m q = .ok m') :
    ∃ log, q_sort_log fuel frame m q = .ok (m', log) := by
  have := q_sort_log_fst fuel frame m q
  rw [h] at this
  cases hr : q_sort_log fuel frame m q with
  | error e => rw [hr] at this; cases this
  | ok r =>
    rw [hr] at this
    simp only [Except.map] at this
    injection this with this
    exact ⟨r.2, by rw [← this]⟩

theorem q_sort_of_log {fuel frame : Nat} {m : Mem} {q : Option Nat}
    {r : Mem × List (Mem × Nat × Nat)} (h : q_sort_log fuel frame m q = .ok r) :
    q_sort fuel frame m q = .ok r.1 := by
  rw [← q_sort_log_fst, h]; rfl

theorem q_sort_log_small {m : Mem} {q : Nat} {Q : queue_t} {ps : List Nat} (f frame : Nat)
    (hq : m.que q = some Q) (hc : Chain m Q.head ps) (hlen : ps.length ≤ 1) :
    q_sort_log (f + 1) frame m (some q) = .ok (m, []) := by
  match ps, hc, hlen with
  | [], hc, _ =>
    have hh : Q.head = none := hc
    simp [q_sort_log, rdQ, hq, hh, bind, Except.bind, pure, Except.pure]
  | [x], hc, _ =>
    obtain ⟨hh, e, he, hn⟩ := id hc
    have hn' : e.next = none := hn
    simp [q_sort_log, rdQ, hq, hh, deref, he, hn', bind, Except.bind, pure, Except.pure]

theorem q_sort_log_step {m : Mem} {q x y : Nat} {Q : queue_t} {e : list_ele_t} (f frame : Nat)
    (hq : m.que q = some Q) (hh : Q.head = some x) (he : m.ele x = some e)
    (hn : e.next = some y) :
    q_sort_log (f + 1) frame m (some q) =
      (do
        let m1 ← divide (allocQue m frame { head := none, tail := .head frame, size := 0 })
          q frame
        let r2 ← q_sort_log f (frame + 1) m1 (some q)
        let r3 ← q_sort_log f (frame + 1) r2.1 (some frame)
        let m4 ← merge f r3.1 q frame
        pure (freeQue m4 frame,
          (allocQue m frame { head := none, tail := .head frame, size := 0 }, q, frame) ::
            (r2.2 ++ r3.2))) := by
  simp only [q_sort_log, rdQ, hq, hh, deref, he, hn, bind, Except.bind, pure, Except.pure]

/-- Every `divide` call that `q_sort` makes, at any depth of the recursion, is made on a
chain of at least two elements whose size field is between 0 and the number of elements
plus one, when this holds of the queue `q_sort` is called on. -/
theorem q_sort_log_ready :
    ∀ (fuel : Nat) (ps : List Nat) (frame : Nat) (m : Mem) (q : Nat) (Q : queue_t),
      q < frame → m.que q = some Q → Chain m Q.head ps →
      0 ≤ Q.size → Q.size ≤ (ps.length : Int) + 1 →
      ∀ r, q_sort_log fuel frame m (some q) = .ok r → ∀ c ∈ r.2, DivideReady c := by
  intro fuel
  induction fuel with
  | zero =>
    intro ps frame m q Q _ _ _ _ _ r hrun
    simp [q_sort_log] at hrun
  | succ f ih =>
    intro ps frame m q Q hqf hq hc h0 h1 r hrun
    match ps, hc, h1 with
    | [], hc, _ =>
      rw [q_sort_log_small f frame hq hc (by simp)] at hrun
      injection hrun with hrun
      subst hrun
      intro c hc'
      cases hc'
    | [x], hc, _ =>
      rw [q_sort_log_small f frame hq hc (by simp)] at hrun
      injection hrun with hrun
      subst hrun
      intro c hc'
      cases hc'
    | x :: y :: rest, hc, h1 =>
      obtain ⟨hh, e, he, hn⟩ := id hc
      have hn' : e.next = some y := hn.1
      rw [q_sort_log_step f frame hq hh he hn'] at hrun
      have hne : q ≠ frame := by omega
      have hne' : frame ≠ q := fun h => hne h.symm
      have hM0q : (allocQue m frame { head := none, tail := .head frame, size := 0 }).que q
          = some Q := by
        simp [allocQue, Function.update_apply, hne, hq]
      have hM0b : (allocQue m frame { head := none, tail := .head frame, size := 0 }).que frame
          = some { head := none, tail := .head frame, size := 0 } := Function.update_same _ _ _
      have hM0c : Chain (allocQue m frame { head := none, tail := .head frame, size := 0 })
          Q.head (x :: y :: rest) := Seg.congr (m := m) (fun _ _ => rfl) hc
      have hnd := Chain.nodup hc
      have hcf := cut_facts Q.size (x :: y :: rest).length h0 h1 (by simp)
      obtain ⟨m1, hB, hdiv, hq1, hb1, hcA, hcB, hfq1, hfe1, hfv1⟩ :=
        divide_spec hM0q hM0b hne hM0c (by omega)
      rw [hdiv] at hrun
      simp only [bind, Except.bind] at hrun
      generalize hkdef : to_size_t (Int.tdiv Q.size 2) - 1 + 1 = k at hq1 hcA hcB hcf
      have hsplit : (x :: y :: rest) = (x :: y :: rest).take k ++ (x :: y :: rest).drop k :=
        (List.take_append_drop k _).symm
      have hlenA : ((x :: y :: rest).take k).length = k := by
        rw [List.length_take]; omega
      have hlenB : ((x :: y :: rest).drop k).length = (x :: y :: rest).length - k := by
        rw [List.length_drop]
      rw [hsplit] at hnd
      have hdisjAB : ∀ p ∈ (x :: y :: rest).take k, p ∉ (x :: y :: rest).drop k :=
        fun p h1 h2 => (List.nodup_append.mp hnd).2.2 h1 h2
      cases h2 : q_sort_log f (frame + 1) m1 (some q) with
      | error e2 => rw [h2] at hrun; simp at hrun
      | ok r2 =>
        have hready2 := ih _ (frame + 1) m1 q _ (by omega) hq1 hcA hcf.2.1
          (by rw [hlenA]; exact hcf.2.2.1) r2 h2
        have hpost := q_sort_spec (valOf m1) f _ (frame + 1) m1 q _ (by omega) hq1 hcA
          (valOf_spec m1)
        rw [q_sort_of_log h2] at hpost
        obtain ⟨QA, psA', _, _, _, _, _, _, _, hfq2, hfe2, _⟩ := hpost
        have hb2 : r2.1.que frame = some { head := hB, tail := Q.tail, size := Q.size.tdiv 2 } := by
          rw [hfq2 frame (by omega) hne']; exact hb1
        have hcB2 : Chain r2.1 hB ((x :: y :: rest).drop k) :=
          Seg.congr (fun p hp => hfe2 p (fun h => hdisjAB p h hp)) hcB
        cases h3 : q_sort_log f (frame + 1) r2.1 (some frame) with
        | error e3 => rw [h2] at hrun; simp only at hrun; rw [h3] at hrun; simp at hrun
        | ok r3 =>
          have hready3 := ih _ (frame + 1) r2.1 frame _ (by omega) hb2 hcB2 hcf.2.2.2.1
            (by rw [hlenB]; exact hcf.2.2.2.2) r3 h3
          cases h4 : merge f r3.1 q frame with
          | error e4 =>
            rw [h2] at hrun; simp only at hrun; rw [h3] at hrun; simp only at hrun
            rw [h4] at hrun; simp at hrun
          | ok m4 =>
            rw [h2] at hrun; simp only at hrun; rw [h3] at hrun; simp only at hrun
            rw [h4] at hrun
            simp only [pure, Except.pure] at hrun
            injection hrun with hrun
            subst hrun
            intro c hc'
            rcases List.mem_cons.mp hc' with rfl | hc'
            · exact ⟨Q, _, x :: y :: rest, hM0q, hM0b, hne, hM0c, by simp, h0, h1⟩
            · rcases List.mem_append.mp hc' with hc' | hc'
              · exact hready2 c hc'
              · exact hready3 c hc'

/-- A `divide` call made under `DivideReady` keeps its walk on existing elements: it ends on
an element `cut`, and `divide` returns with both halves non-empty. -/
theorem DivideReady.divide {c : Mem × Nat × Nat} (h : DivideReady c) :
    ∃ A ps cut e m1 A1 B1, c.1.que c.2.1 = some A ∧ Chain c.1 A.head ps ∧ 2 ≤ ps.length ∧
      to_size_t (Int.tdiv A.size 2) - 1 + 1 < ps.length ∧
      divide_walk c.1 (to_size_t (Int.tdiv A.size 2)) A.head = .ok (some cut) ∧
      c.1.ele cut = some e ∧
      divide c.1 c.2.1 c.2.2 = .ok m1 ∧ m1.que c.2.1 = some A1 ∧ m1.que c.2.2 = some B1 ∧
      Chain m1 A1.head (ps.take (to_size_t (Int.tdiv A.size 2) - 1 + 1)) ∧
      Chain m1 B1.head (ps.drop (to_size_t (Int.tdiv A.size 2) - 1 + 1)) := by
  obtain ⟨A, B, ps, hqa, hqb, hab, hc, h2, h0, h1⟩ := h
  have hcf := cut_facts A.size ps.length h0 h1 h2
  have hk : to_size_t (Int.tdiv A.size 2) - 1 < ps.length := by omega
  obtain ⟨m1, hB, hdiv, hq1, hb1, hcA, hcB, _, _, _⟩ := divide_spec hqa hqb hab hc hk
  have hsplit : ps = ps.take (to_size_t (Int.tdiv A.size 2) - 1) ++
      ps[to_size_t (Int.tdiv A.size 2) - 1] ::
        ps.drop (to_size_t (Int.tdiv A.size 2) - 1 + 1) := by
    rw [← List.drop_eq_getElem_cons hk]; exact (List.take_append_drop _ ps).symm
  have hcmem : ps[to_size_t (Int.tdiv A.size 2) - 1] ∈ ps := List.getElem_mem _
  obtain ⟨ec, hec⟩ := Seg.alloc hc _ hcmem
  have hc' := hc
  rw [hsplit] at hc'
  obtain ⟨u, hs1, hs2⟩ := Seg.append.mp hc'
  have hu : u = some ps[to_size_t (Int.tdiv A.size 2) - 1] := hs2.1
  subst hu
  have hwalk := divide_walk_ok hs1 (i := to_size_t (Int.tdiv A.size 2)) (by
    rw [List.length_take]; omega)
  exact ⟨A, ps, _, ec, m1, _, _, hqa, hc, h2, hcf.1, hwalk, hec, hdiv, hq1, hb1, hcA, hcB⟩

/-- C19: safety of the cut walk.  For every well-formed queue, `q_sort` never stops on a null
or dangling access, whatever its step budget, and with a budget of at least the length plus
two it returns; in every `divide` call made during the recursion, at any depth (`log` lists
them, including those on sub-queues whose size field differs from their number of
elements), the walk of `to_size_t (size / 2) - 1` links from the head stays inside the chain
and ends on an existing element `cut`, and `divide` returns. -/
theorem divide_walk_safe (m : Mem) (q frame fuel : Nat) (ps : List Nat)
    (hwf : WellFormed m q ps) (hframe : q < frame) (hfuel : ps.length + 2 ≤ fuel) :
    (∀ fuel', q_sort fuel' frame m (some q) ≠ .error .fault) ∧
    ∃ m' log, q_sort_log fuel frame m (some q) = .ok (m', log) ∧
      q_sort fuel frame m (some q) = .ok m' ∧
      ∀ c ∈ log, ∃ A ps0 cut e m1, c.1.que c.2.1 = some A ∧ Chain c.1 A.head ps0 ∧
        to_size_t (Int.tdiv A.size 2) - 1 + 1 < ps0.length ∧
        divide_walk c.1 (to_size_t (Int.tdiv A.size 2)) A.head = .ok (some cut) ∧
        c.1.ele cut = some e ∧ divide c.1 c.2.1 c.2.2 = .ok m1 := by
  obtain ⟨⟨Q, hq, hc⟩, ⟨Q1, hq1, hsz⟩, _⟩ := hwf
  rw [hq] at hq1; cases hq1
  constructor
  · intro fuel' hfault
    have h := q_sort_spec (valOf m) fuel' ps frame m q Q hframe hq hc (valOf_spec m)
    rw [hfault] at h
    have := (h (by omega) (by omega)).1
    cases this
  · obtain ⟨m', hrun, _⟩ := q_sort_total hframe hq hc (by omega) (by omega) hfuel
    obtain ⟨log, hlog⟩ := q_sort_log_ok hrun
    refine ⟨m', log, hlog, hrun, ?_⟩
    intro c hc'
    have hready := q_sort_log_ready fuel ps frame m q Q hframe hq hc (by omega) (by omega)
      _ hlog c hc'
    obtain ⟨A, ps0, cut, e, m1, _, _, hqa, hca, _, hk, hwalk, hcut, hdiv, _⟩ := hready.divide
    exact ⟨A, ps0, cut, e, m1, hqa, hca, hk, hwalk, hcut, hdiv⟩

theorem divide_walk_safe_witness :
    (∀ fuel', q_sort fuel' 1 sampleMem (some 0) ≠ .error .fault) ∧
    ∃ m' log, q_sort_log 5 1 sampleMem (some 0) = .ok (m', log) ∧
      q_sort 5 1 sampleMem (some 0) = .ok m' ∧
      ∀ c ∈ log, ∃ A ps0 cut e m1, c.1.que c.2.1 = some A ∧ Chain c.1 A.head ps0 ∧
        to_size_t (Int.tdiv A.size 2) - 1 + 1 < ps0.length ∧
        divide_walk c.1 (to_size_t (Int.tdiv A.size 2)) A.head = .ok (some cut) ∧
        c.1.ele cut = some e ∧ divide c.1 c.2.1 c.2.2 = .ok m1 :=
  divide_walk_safe sampleMem 0 1 5 [1, 2, 3] sampleMem_wf (by decide) (by decide)

/-- C20: termination of `q_sort`.  For every well-formed queue, `q_sort` returns for every
step budget of at least the length plus two, and every `divide` call made during the
recursion (`log` lists them) is made on a chain of at least two elements and leaves `a` and
`b` each with at least one element of it, hence each with strictly fewer elements than the
chain divided: the recursive calls are on strictly shorter chains. -/
theorem q_sort_terminates (m : Mem) (q frame fuel : Nat) (ps : List Nat)
    (hwf : WellFormed m q ps) (hframe : q < frame) (hfuel : ps.length + 2 ≤ fuel) :
    ∃ m' log, q_sort_log fuel frame m (some q) = .ok (m', log) ∧
      q_sort fuel frame m (some q) = .ok m' ∧
      ∀ c ∈ log, ∃ A ps0 m1 A1 B1 psA psB, c.1.que c.2.1 = some A ∧ Chain c.1 A.head ps0 ∧
        2 ≤ ps0.length ∧ divide c.1 c.2.1 c.2.2 = .ok m1 ∧
        m1.que c.2.1 = some A1 ∧ m1.que c.2.2 = some B1 ∧
        Chain m1 A1.head psA ∧ Chain m1 B1.head psB ∧ psA ++ psB = ps0 ∧
        1 ≤ psA.length ∧ 1 ≤ psB.length ∧
        psA.length < ps0.length ∧ psB.length < ps0.length := by
  obtain ⟨⟨Q, hq, hc⟩, ⟨Q1, hq1, hsz⟩, _⟩ := hwf
  rw [hq] at hq1; cases hq1
  obtain ⟨m', hrun, _⟩ := q_sort_total hframe hq hc (by omega) (by omega) hfuel
  obtain ⟨log, hlog⟩ := q_sort_log_ok hrun
  refine ⟨m', log, hlog, hrun, ?_⟩
  intro c hc'
  have hready := q_sort_log_ready fuel ps frame m q Q hframe hq hc (by omega) (by omega)
    _ hlog c hc'
  obtain ⟨A, ps0, cut, e, m1, A1, B1, hqa, hca, h2, hk, _, _, hdiv, hq1, hb1, hcA, hcB⟩ :=
    hready.divide
  have hlA : (ps0.take (to_size_t (Int.tdiv A.size 2) - 1 + 1)).length =
      to_size_t (Int.tdiv A.size 2) - 1 + 1 := by
    rw [List.length_take]; omega
  have hlB : (ps0.drop (to_size_t (Int.tdiv A.size 2) - 1 + 1)).length =
      ps0.length - (to_size_t (Int.tdiv A.size 2) - 1 + 1) := by
    rw [List.length_drop]
  refine ⟨A, ps0, m1, A1, B1, _, _, hqa, hca, h2, hdiv, hq1, hb1, hcA, hcB,
    List.take_append_drop _ _, ?_, ?_, ?_, ?_⟩
  · rw [hlA]; omega
  · rw [hlB]; omega
  · rw [hlA]; omega
  · rw [hlB]; omega

theorem q_sort_terminates_witness :
    ∃ m' log, q_sort_log 5 1 sampleMem (some 0) = .ok (m', log) ∧
      q_sort 5 1 sampleMem (some 0) = .ok m' ∧
      ∀ c ∈ log, ∃ A ps0 m1 A1 B1 psA psB, c.1.que c.2.1 = some A ∧ Chain c.1 A.head ps0 ∧
        2 ≤ ps0.length ∧ divide c.1 c.2.1 c.2.2 = .ok m1 ∧
        m1.que c.2.1 = some A1 ∧ m1.que c.2.2 = some B1 ∧
        Chain m1 A1.head psA ∧ Chain m1 B1.head psB ∧ psA ++ psB = ps0 ∧
        1 ≤ psA.length ∧ 1 ≤ psB.length ∧
        psA.length < ps0.length ∧ psB.length < ps0.length :=
  q_sort_terminates sampleMem 0 1 5 [1, 2, 3] sampleMem_wf (by decide) (by decide)

/-! ## The scenarios of the specification, evaluated -/

/-- Scenario 1: `insert_tail("apple")`, `insert_tail("banana")` gives size 2, and two
removals yield "apple" then "banana" (each followed by its terminator in the buffer). -/
example :
    ((insert_tail_all (q_new emptyMem (some 0)).1 0
        [(1, [97, 112, 112, 108, 101]), (2, [98, 97, 110, 97, 110, 97])]).toOption.map
      (fun r => ((q_size r.1 (some 0)).toOption,
        (remove_head_n r.1 0 [0, 0, 0, 0, 0, 0, 0, 0] 8 2).toOption.map (fun o => o.2)))) =
    some (some 2, some [[97, 112, 112, 108, 101, 0, 0, 0], [98, 97, 110, 97, 110, 97, 0, 0]]) := by
  decide

/-- Scenario 2: `insert_head` of "c", "b", "a" gives the order a, b, c. -/
example :
    (insert_head_all (q_new emptyMem (some 0)).1 0
        [(1, [99]), (2, [98]), (3, [97])]).toOption.bind (fun r => view 5 0 r.1) =
    some ([[97], [98], [99]], .next 1, 3) := by
  decide

/-- Scenario 2, continued: `reverse` then gives c, b, a. -/
example :
    ((insert_head_all (q_new emptyMem (some 0)).1 0
        [(1, [99]), (2, [98]), (3, [97])]).toOption.bind
      (fun r => (q_reverse 5 r.1 (some 0)).toOption)).bind (view 5 0) =
    some ([[99], [98], [97]], .next 3, 3) := by
  decide

/-- Scenario 2, continued: `sort` then gives a, b, c again. -/
example :
    (((insert_head_all (q_new emptyMem (some 0)).1 0
        [(1, [99]), (2, [98]), (3, [97])]).toOption.bind
      (fun r => (q_reverse 5 r.1 (some 0)).toOption)).bind
      (fun m => (q_sort 5 1 m (some 0)).toOption)).bind (view 5 0) =
    some ([[97], [98], [99]], .next 1, 3) := by
  decide

/-- Scenario 3: "hello" inserted at the tail and removed with capacity 3 leaves "he". -/
example :
    ((q_insert_tail (q_new emptyMem (some 0)).1 (some 0) [104, 101, 108, 108, 111] (some 1)
        true).toOption.map
      (fun r => (q_remove_head r.1 (some 0) (some [7, 7, 7, 7]) 3).toOption.map
        (fun o => (o.2.1, o.2.2)))) =
    some (some (some [104, 101, 0, 7], true)) := by
  decide

/-- Scenario 4: `q_new` followed at once by `q_free` returns and leaves nothing allocated. -/
example :
    ((q_free 1 (q_new emptyMem (some 0)).1 (some 0)).toOption.map
      (fun m => (m.que 0, m.ele 0, m.ele 1))) = some (none, none, none) := by
  decide

/-- Scenario 5: `q_sort` on a queue of 0 or 1 elements changes nothing. -/
example :
    (q_sort 1 1 (q_new emptyMem (some 0)).1 (some 0)).toOption.bind (view 5 0) =
      view 5 0 (q_new emptyMem (some 0)).1 ∧
    (q_sort 1 1 helloMem (some 0)).toOption.bind (view 5 0) = view 5 0 helloMem := by
  decide

/-- Stability on the sample queue "b", "a", "b" (elements 1, 2, 3): after `q_sort` the chain
is 2, 1, 3, the two "b" elements in their old order. -/
example :
    (q_sort 5 1 sampleMem (some 0)).toOption.map
      (fun m => (m.que 0).map (fun Q => readChain m 5 Q.head)) = some (some [2, 1, 3]) := by
  decide

/-- The `divide` calls of `q_sort` on the queue "b", "a", "b": the queue itself with size
field 3, then the record `b` of the first call, which has two elements and size field 1. -/
example :
    (q_sort_log 5 1 sampleMem (some 0)).toOption.map (fun r => r.2.map (fun c =>
      (c.2.1, c.2.2, (c.1.que c.2.1).map (fun Q => (Q.size, (readChain c.1 4 Q.head).length)))))
      = some [(0, 1, some (3, 3)), (1, 2, some (1, 2))] := by
  decide

/-- The increment of the counter at `INT_MAX`: a successful `q_insert_head` on a record whose
size field is `INT_MAX` leaves -2147483648 in it, which is what `q_size` then returns. -/
example :
    (q_insert_head (allocQue emptyMem 0 { head := none, tail := .head 0, size := INT_MAX })
        (some 0) [97] (some 1) true).toOption.bind (fun r => (q_size r.1 (some 0)).toOption)
      = some (-2147483648) := by
  decide

end Queue
